import Mathlib

/-!
# Symmetrica core engine: a shallow embedding

The repository ships only the demo script
`src/crates/api/examples/python_demo.py`; the engine it drives (expression
model, simplifier, calculus, solver, renderer) is not under `src/`.  The
definitions below are therefore modelled from the specification
(`spec.md`, sections 3-4 and 6-8), as faithfully as its words allow, and
the claims are settled against this model.
-/

namespace Symmetrica

/-- Modelled from the spec: the immutable expression tree of section 3.
Variants: `Symbol(name)`, `Integer(value)`, `Rational(num, den)`,
`Add(terms)` (ordered sequence of operands), `Mul(factors)`,
`Pow(base, exponent)`, `Function(name, argument)`. -/
inductive Expr : Type where
  | sym  : String → Expr
  | int  : Int → Expr
  | rat  : Int → Int → Expr
  | add  : List Expr → Expr
  | mul  : List Expr → Expr
  | pow  : Expr → Expr → Expr
  | func : String → Expr → Expr

namespace Expr

/-- Is the expression a numeric literal (`Integer` or `Rational`)? -/
def isNum : Expr → Bool
  | .int _ => true
  | .rat _ _ => true
  | _ => false

/-- Is the expression an `Add` node? -/
def isAdd : Expr → Bool
  | .add _ => true
  | _ => false

/-- Is the expression a `Mul` node? -/
def isMul : Expr → Bool
  | .mul _ => true
  | _ => false

/-- Exact rational value of a numeric literal (junk `0` on other nodes). -/
def toQ : Expr → ℚ
  | .int n => (n : ℚ)
  | .rat n d => Rat.divInt n d
  | _ => 0

/-- Canonical numeric literal of a rational value: an `Integer` when the
denominator is 1, otherwise a reduced `Rational` (spec section 3,
`Rational` invariant). -/
def ofQ (q : ℚ) : Expr :=
  if q.den = 1 then .int q.num else .rat q.num (q.den : Int)

/-- Constructor rank used by the canonical total order (spec section 4.2):
numeric constants first, then symbols, then compound expressions. -/
def rank : Expr → Nat
  | .int _ => 0
  | .rat _ _ => 0
  | .sym _ => 1
  | .add _ => 2
  | .mul _ => 3
  | .pow _ _ => 4
  | .func _ _ => 5

end Expr

/-- Three-way comparison from a linear order. -/
def cmp3 {α : Type _} [LinearOrder α] (p q : α) : Ordering :=
  if p < q then .lt else if q < p then .gt else .eq

/-- Lexicographic comparison of character lists by character code. -/
def cmpChars : List Char → List Char → Ordering
  | [], [] => .eq
  | [], _ :: _ => .lt
  | _ :: _, [] => .gt
  | c :: cs, d :: ds => (cmp3 c.toNat d.toNat).then (cmpChars cs ds)

/-- Lexicographic comparison of names by character code. -/
def cmpStr (s t : String) : Ordering := cmpChars s.data t.data

mutual

/-- Modelled from the spec (section 4.2): the deterministic total order on
expressions — numeric constants first (by value, ties broken
structurally), then symbols (lexicographic by name), then compound
expressions by type-then-structure comparison. -/
def cmpE : Expr → Expr → Ordering
  | .int m, .int n => cmp3 m n
  | .int m, .rat n d => (cmp3 (m : ℚ) (Rat.divInt n d)).then .lt
  | .rat n d, .int m => (cmp3 (Rat.divInt n d) (m : ℚ)).then .gt
  | .rat a b, .rat c d =>
      (cmp3 (Rat.divInt a b) (Rat.divInt c d)).then
        ((cmp3 a c).then (cmp3 b d))
  | .sym s, .sym t => cmpStr s t
  | .add xs, .add ys => cmpL xs ys
  | .mul xs, .mul ys => cmpL xs ys
  | .pow b₁ e₁, .pow b₂ e₂ => (cmpE b₁ b₂).then (cmpE e₁ e₂)
  | .func f a, .func g b => (cmpStr f g).then (cmpE a b)
  | a, b => cmp3 a.rank b.rank

/-- Lexicographic extension of the canonical order to operand lists. -/
def cmpL : List Expr → List Expr → Ordering
  | [], [] => .eq
  | [], _ :: _ => .lt
  | _ :: _, [] => .gt
  | x :: xs, y :: ys => (cmpE x y).then (cmpL xs ys)

end

/-- The canonical "less or equal" used to sort commutative operand lists. -/
def Expr.le (a b : Expr) : Prop := cmpE a b ≠ .gt

instance : DecidableRel Expr.le := fun a b => by
  unfold Expr.le; infer_instance

theorem cmp3_eq_iff {α : Type _} [LinearOrder α] {p q : α} :
    cmp3 p q = .eq ↔ p = q := by
  unfold cmp3
  split_ifs with h1 h2
  · simp [h1.ne]
  · simp [h2.ne']
  · simp [le_antisymm (not_lt.mp h2) (not_lt.mp h1)]

theorem cmp3_lt_iff {α : Type _} [LinearOrder α] {p q : α} :
    cmp3 p q = .lt ↔ p < q := by
  unfold cmp3
  split_ifs with h1 h2 <;> simp_all

theorem cmp3_gt_iff {α : Type _} [LinearOrder α] {p q : α} :
    cmp3 p q = .gt ↔ q < p := by
  unfold cmp3
  split_ifs with h1 h2 <;> simp_all
  exact le_of_lt h1

theorem cmp3_swap {α : Type _} [LinearOrder α] (p q : α) :
    (cmp3 p q).swap = cmp3 q p := by
  unfold cmp3
  rcases lt_trichotomy p q with h | h | h
  · simp [h, asymm h, Ordering.swap]
  · subst h; simp [lt_irrefl, Ordering.swap]
  · simp [h, asymm h, Ordering.swap]

theorem cmp3_refl {α : Type _} [LinearOrder α] (p : α) : cmp3 p p = .eq := by
  simp [cmp3]

theorem then_eq_eq {o p : Ordering} : o.then p = .eq ↔ o = .eq ∧ p = .eq := by
  cases o <;> simp [Ordering.then]

theorem then_eq_lt {o p : Ordering} :
    o.then p = .lt ↔ o = .lt ∨ (o = .eq ∧ p = .lt) := by
  cases o <;> simp [Ordering.then]

theorem then_eq_gt {o p : Ordering} :
    o.then p = .gt ↔ o = .gt ∨ (o = .eq ∧ p = .gt) := by
  cases o <;> simp [Ordering.then]

theorem then_swap (o p : Ordering) : (o.then p).swap = o.swap.then p.swap := by
  cases o <;> simp [Ordering.then, Ordering.swap]

theorem cmpChars_refl (cs : List Char) : cmpChars cs cs = .eq := by
  induction cs with
  | nil => rfl
  | cons c cs ih => simp [cmpChars, cmp3_refl, ih, Ordering.then]

theorem cmpChars_eq_of :
    ∀ {cs ds : List Char}, cmpChars cs ds = .eq → cs = ds := by
  intro cs
  induction cs with
  | nil => intro ds h; cases ds with
    | nil => rfl
    | cons d ds => simp [cmpChars] at h
  | cons c cs ih =>
    intro ds h
    cases ds with
    | nil => simp [cmpChars] at h
    | cons d ds =>
      simp only [cmpChars, then_eq_eq, cmp3_eq_iff] at h
      have hc : c = d := by
        apply Char.eq_of_val_eq; exact UInt32.ext h.1
      rw [hc, ih h.2]

theorem cmpChars_swap :
    ∀ (cs ds : List Char), (cmpChars cs ds).swap = cmpChars ds cs := by
  intro cs
  induction cs with
  | nil => intro ds; cases ds <;> rfl
  | cons c cs ih =>
    intro ds
    cases ds with
    | nil => rfl
    | cons d ds => simp [cmpChars, then_swap, cmp3_swap, ih]

theorem cmpChars_lt_trans :
    ∀ {cs ds es : List Char}, cmpChars cs ds = .lt → cmpChars ds es = .lt →
      cmpChars cs es = .lt := by
  intro cs
  induction cs with
  | nil => intro ds es h1 h2; cases ds with
    | nil => exact h2
    | cons d ds =>
      cases es with
      | nil => simp [cmpChars] at h2
      | cons e es => rfl
  | cons c cs ih =>
    intro ds es h1 h2
    cases ds with
    | nil => simp [cmpChars] at h1
    | cons d ds =>
      cases es with
      | nil => simp [cmpChars] at h2
      | cons e es =>
        simp only [cmpChars, then_eq_lt, cmp3_lt_iff, cmp3_eq_iff] at h1 h2 ⊢
        rcases h1 with h1 | ⟨h1e, h1t⟩
        · rcases h2 with h2 | ⟨h2e, h2t⟩
          · exact Or.inl (lt_trans h1 h2)
          · exact Or.inl (h2e ▸ h1)
        · rcases h2 with h2 | ⟨h2e, h2t⟩
          · exact Or.inl (h1e ▸ h2)
          · exact Or.inr ⟨h1e.trans h2e, ih h1t h2t⟩

theorem cmpStr_refl (s : String) : cmpStr s s = .eq := cmpChars_refl _

theorem cmpStr_eq_of {s t : String} (h : cmpStr s t = .eq) : s = t := by
  cases s; cases t
  exact congrArg String.mk (cmpChars_eq_of h)

theorem cmpStr_swap (s t : String) : (cmpStr s t).swap = cmpStr t s :=
  cmpChars_swap _ _

theorem cmpStr_lt_trans {s t u : String} (h1 : cmpStr s t = .lt)
    (h2 : cmpStr t u = .lt) : cmpStr s u = .lt :=
  cmpChars_lt_trans h1 h2

theorem cmpL_refl_of {xs : List Expr} (h : ∀ x ∈ xs, cmpE x x = .eq) :
    cmpL xs xs = .eq := by
  induction xs with
  | nil => rfl
  | cons x xs ih =>
    simp only [cmpL, h x (by simp)]
    simpa [Ordering.then] using ih (fun y hy => h y (by simp [hy]))

theorem cmpL_eq_of :
    ∀ {xs ys : List Expr}, (∀ x ∈ xs, ∀ y, cmpE x y = .eq → x = y) →
      cmpL xs ys = .eq → xs = ys := by
  intro xs
  induction xs with
  | nil => intro ys _ h; cases ys with
    | nil => rfl
    | cons y ys => simp [cmpL] at h
  | cons x xs ih =>
    intro ys hel h
    cases ys with
    | nil => simp [cmpL] at h
    | cons y ys =>
      simp only [cmpL, then_eq_eq] at h
      rw [hel x (by simp) y h.1,
        ih (fun z hz => hel z (by simp [hz])) h.2]

theorem cmpL_swap_of :
    ∀ {xs ys : List Expr}, (∀ x ∈ xs, ∀ y, (cmpE x y).swap = cmpE y x) →
      (cmpL xs ys).swap = cmpL ys xs := by
  intro xs
  induction xs with
  | nil => intro ys _; cases ys <;> rfl
  | cons x xs ih =>
    intro ys hel
    cases ys with
    | nil => rfl
    | cons y ys =>
      simp only [cmpL, then_swap, hel x (by simp) y]
      rw [ih (fun z hz => hel z (by simp [hz]))]

theorem cmpL_lt_trans_of :
    ∀ {xs ys zs : List Expr},
      (∀ x ∈ xs, ∀ y z, cmpE x y = .lt → cmpE y z = .lt → cmpE x z = .lt) →
      (∀ x ∈ xs, ∀ y, cmpE x y = .eq → x = y) →
      (∀ y ∈ ys, ∀ z, cmpE y z = .eq → y = z) →
      cmpL xs ys = .lt → cmpL ys zs = .lt → cmpL xs zs = .lt := by
  intro xs
  induction xs with
  | nil => intro ys zs _ _ _ h1 h2; cases ys with
    | nil => exact h2
    | cons y ys =>
      cases zs with
      | nil => simp [cmpL] at h2
      | cons z zs => rfl
  | cons x xs ih =>
    intro ys zs htr heq heq' h1 h2
    cases ys with
    | nil => simp [cmpL] at h1
    | cons y ys =>
      cases zs with
      | nil => simp [cmpL] at h2
      | cons z zs =>
        simp only [cmpL, then_eq_lt] at h1 h2 ⊢
        rcases h1 with h1 | ⟨h1e, h1t⟩
        · rcases h2 with h2 | ⟨h2e, h2t⟩
          · exact Or.inl (htr x (by simp) y z h1 h2)
          · exact Or.inl ((heq' y (by simp) z h2e) ▸ h1)
        · rcases h2 with h2 | ⟨h2e, h2t⟩
          · exact Or.inl ((heq x (by simp) y h1e) ▸ h2)
          · refine Or.inr ⟨?_, ?_⟩
            · rw [heq x (by simp) y h1e]; exact h2e
            · exact ih (fun w hw => htr w (by simp [hw]))
                (fun w hw => heq w (by simp [hw]))
                (fun w hw => heq' w (by simp [hw])) h1t h2t

/-- Tag separating the two numeric constructors (tie-break in the order). -/
def Expr.ntag : Expr → Nat
  | .rat _ _ => 1
  | _ => 0

/-- Numerator component of a numeric literal. -/
def Expr.nnum : Expr → Int
  | .int n => n
  | .rat n _ => n
  | _ => 0

/-- Denominator component of a numeric literal. -/
def Expr.nden : Expr → Int
  | .rat _ d => d
  | _ => 0

/-- Lexicographic numeric comparison: value first, then structure. -/
def numLex (a b : Expr) : Ordering :=
  (cmp3 a.toQ b.toQ).then
    ((cmp3 a.ntag b.ntag).then ((cmp3 a.nnum b.nnum).then (cmp3 a.nden b.nden)))

theorem cmpE_num {a b : Expr} (ha : a.isNum) (hb : b.isNum) :
    cmpE a b = numLex a b := by
  cases a <;> simp [Expr.isNum] at ha <;> cases b <;> simp [Expr.isNum] at hb
  · rename_i m n
    rcases lt_trichotomy m n with h | h | h
    · rw [cmpE, cmp3_lt_iff.mpr h, numLex]
      simp only [Expr.toQ]
      rw [cmp3_lt_iff.mpr (by exact_mod_cast h : ((m : ℚ)) < (n : ℚ))]
      rfl
    · subst h
      rw [cmpE, cmp3_refl, numLex]
      simp [Expr.toQ, Expr.ntag, Expr.nnum, Expr.nden, cmp3_refl, Ordering.then]
    · rw [cmpE, cmp3_gt_iff.mpr h, numLex]
      simp only [Expr.toQ]
      rw [cmp3_gt_iff.mpr (by exact_mod_cast h : ((n : ℚ)) < (m : ℚ))]
      rfl
  · rename_i m n d
    rw [cmpE, numLex]
    simp [Expr.toQ, Expr.ntag, Expr.nnum, Expr.nden]
    cases cmp3 ((m : ℚ)) (Rat.divInt n d) <;> rfl
  · rename_i n d m
    rw [cmpE, numLex]
    simp [Expr.toQ, Expr.ntag, Expr.nnum, Expr.nden]
    cases cmp3 (Rat.divInt n d) ((m : ℚ)) <;> rfl
  · rename_i a b c d
    rw [cmpE, numLex]
    simp [Expr.toQ, Expr.ntag, Expr.nnum, Expr.nden, cmp3_refl, Ordering.then]

theorem cmpE_num_ii (m n : Int) :
    cmpE (.int m) (.int n) = numLex (.int m) (.int n) := cmpE_num rfl rfl

theorem cmpE_num_ir (m p q : Int) :
    cmpE (.int m) (.rat p q) = numLex (.int m) (.rat p q) := cmpE_num rfl rfl

theorem cmpE_num_ri (p q m : Int) :
    cmpE (.rat p q) (.int m) = numLex (.rat p q) (.int m) := cmpE_num rfl rfl

theorem cmpE_num_rr (p q r s : Int) :
    cmpE (.rat p q) (.rat r s) = numLex (.rat p q) (.rat r s) := cmpE_num rfl rfl

theorem numLex_refl (a : Expr) : numLex a a = .eq := by
  simp [numLex, cmp3_refl, Ordering.then]

theorem numLex_eq_of {a b : Expr} (ha : a.isNum) (hb : b.isNum)
    (h : numLex a b = .eq) : a = b := by
  simp only [numLex, then_eq_eq, cmp3_eq_iff] at h
  obtain ⟨-, ht, hn, hd⟩ := h
  cases a <;> simp [Expr.isNum] at ha <;> cases b <;> simp [Expr.isNum] at hb <;>
    simp_all [Expr.ntag, Expr.nnum, Expr.nden]

theorem numLex_swap (a b : Expr) : (numLex a b).swap = numLex b a := by
  simp [numLex, then_swap, cmp3_swap]

theorem numLex_lt_trans {a b c : Expr} (h1 : numLex a b = .lt)
    (h2 : numLex b c = .lt) : numLex a c = .lt := by
  simp only [numLex, then_eq_lt, then_eq_eq, cmp3_lt_iff, cmp3_eq_iff] at h1 h2 ⊢
  rcases h1 with h1 | ⟨e1, h1⟩ <;> rcases h2 with h2 | ⟨e2, h2⟩
  · exact Or.inl (lt_trans h1 h2)
  · exact Or.inl (e2 ▸ h1)
  · exact Or.inl (e1 ▸ h2)
  · refine Or.inr ⟨e1.trans e2, ?_⟩
    rcases h1 with h1 | ⟨f1, h1⟩ <;> rcases h2 with h2 | ⟨f2, h2⟩
    · exact Or.inl (lt_trans h1 h2)
    · exact Or.inl (f2 ▸ h1)
    · exact Or.inl (f1 ▸ h2)
    · refine Or.inr ⟨f1.trans f2, ?_⟩
      rcases h1 with h1 | ⟨g1, h1⟩ <;> rcases h2 with h2 | ⟨g2, h2⟩
      · exact Or.inl (lt_trans h1 h2)
      · exact Or.inl (g2 ▸ h1)
      · exact Or.inl (g1 ▸ h2)
      · exact Or.inr ⟨g1.trans g2, lt_trans h1 h2⟩

theorem rank_num {a : Expr} (h : a.rank = 0) : a.isNum := by
  cases a <;> simp_all [Expr.rank, Expr.isNum]

theorem rank_sym {a : Expr} (h : a.rank = 1) : ∃ s, a = .sym s := by
  cases a <;> simp_all [Expr.rank]

theorem rank_add {a : Expr} (h : a.rank = 2) : ∃ xs, a = .add xs := by
  cases a <;> simp_all [Expr.rank]

theorem rank_mul {a : Expr} (h : a.rank = 3) : ∃ xs, a = .mul xs := by
  cases a <;> simp_all [Expr.rank]

theorem rank_pow {a : Expr} (h : a.rank = 4) : ∃ b e, a = .pow b e := by
  cases a <;> simp_all [Expr.rank]

theorem rank_func {a : Expr} (h : a.rank = 5) : ∃ f b, a = .func f b := by
  cases a <;> simp_all [Expr.rank]

theorem rank_le_five (a : Expr) : a.rank ≤ 5 := by
  cases a <;> simp [Expr.rank]

theorem cmpE_rank_of_ne {a b : Expr} (h : a.rank ≠ b.rank) :
    cmpE a b = cmp3 a.rank b.rank := by
  cases a <;> cases b <;> first
    | rfl
    | (exfalso; exact h rfl)

theorem sizeOf_mem_lt {x : Expr} {xs : List Expr} (hx : x ∈ xs) :
    sizeOf x < 1 + sizeOf xs := by
  have := List.sizeOf_lt_of_mem hx
  omega

theorem cmpE_refl : ∀ a : Expr, cmpE a a = .eq := by
  have H : ∀ n, ∀ a : Expr, sizeOf a ≤ n → cmpE a a = .eq := by
    intro n
    induction n using Nat.strong_induction_on with
    | _ n IH =>
    intro a ha
    cases a with
    | sym s => simp [cmpE, cmpStr_refl]
    | int m => simp [cmpE, cmp3_refl]
    | rat m d => simp [cmpE, cmp3_refl, Ordering.then]
    | add xs =>
      have hsz : sizeOf (Expr.add xs) = 1 + sizeOf xs := by simp
      simp only [cmpE]
      exact cmpL_refl_of fun x hx =>
        IH (sizeOf x) (by have := sizeOf_mem_lt hx; omega) x le_rfl
    | mul xs =>
      have hsz : sizeOf (Expr.mul xs) = 1 + sizeOf xs := by simp
      simp only [cmpE]
      exact cmpL_refl_of fun x hx =>
        IH (sizeOf x) (by have := sizeOf_mem_lt hx; omega) x le_rfl
    | pow b e =>
      have hsz : sizeOf (Expr.pow b e) = 1 + sizeOf b + sizeOf e := by simp
      have hb := IH (sizeOf b) (by omega) b le_rfl
      have he := IH (sizeOf e) (by omega) e le_rfl
      simp [cmpE, hb, he, Ordering.then]
    | func f b =>
      have hsz : sizeOf (Expr.func f b) = 1 + sizeOf f + sizeOf b := by simp
      have hb := IH (sizeOf b) (by omega) b le_rfl
      simp [cmpE, hb, cmpStr_refl, Ordering.then]
  exact fun a => H (sizeOf a) a le_rfl

theorem cmpE_eq_of : ∀ {a b : Expr}, cmpE a b = .eq → a = b := by
  have H : ∀ n, ∀ a b : Expr, sizeOf a ≤ n → cmpE a b = .eq → a = b := by
    intro n
    induction n using Nat.strong_induction_on with
    | _ n IH =>
    intro a b ha h
    cases a <;> cases b <;>
      first
      | (exact Ordering.noConfusion h)
      | skip
    case int.int =>
      rw [cmpE_num_ii] at h
      exact numLex_eq_of rfl rfl h
    case int.rat =>
      rw [cmpE_num_ir] at h
      exact numLex_eq_of rfl rfl h
    case rat.int =>
      rw [cmpE_num_ri] at h
      exact numLex_eq_of rfl rfl h
    case rat.rat =>
      rw [cmpE_num_rr] at h
      exact numLex_eq_of rfl rfl h
    case sym.sym s t =>
      simp only [cmpE] at h
      rw [cmpStr_eq_of h]
    case add.add xs ys =>
      have hsz : sizeOf (Expr.add xs) = 1 + sizeOf xs := by simp
      simp only [cmpE] at h
      rw [cmpL_eq_of (fun x hx y hxy =>
        IH (sizeOf x) (by have := sizeOf_mem_lt hx; omega) x y le_rfl hxy) h]
    case mul.mul xs ys =>
      have hsz : sizeOf (Expr.mul xs) = 1 + sizeOf xs := by simp
      simp only [cmpE] at h
      rw [cmpL_eq_of (fun x hx y hxy =>
        IH (sizeOf x) (by have := sizeOf_mem_lt hx; omega) x y le_rfl hxy) h]
    case pow.pow b₁ e₁ b₂ e₂ =>
      have hsz : sizeOf (Expr.pow b₁ e₁) = 1 + sizeOf b₁ + sizeOf e₁ := by simp
      simp only [cmpE, then_eq_eq] at h
      rw [IH (sizeOf b₁) (by omega) b₁ b₂ le_rfl h.1,
        IH (sizeOf e₁) (by omega) e₁ e₂ le_rfl h.2]
    case func.func f a₁ g a₂ =>
      have hsz : sizeOf (Expr.func f a₁) = 1 + sizeOf f + sizeOf a₁ := by simp
      simp only [cmpE, then_eq_eq] at h
      rw [cmpStr_eq_of h.1, IH (sizeOf a₁) (by omega) a₁ a₂ le_rfl h.2]
  exact fun {a b} => H (sizeOf a) a b le_rfl

theorem cmpE_eq_iff {a b : Expr} : cmpE a b = .eq ↔ a = b :=
  ⟨cmpE_eq_of, by rintro rfl; exact cmpE_refl a⟩

instance : DecidableEq Expr := fun a b =>
  decidable_of_iff (cmpE a b = .eq) cmpE_eq_iff

theorem cmpE_swap : ∀ a b : Expr, (cmpE a b).swap = cmpE b a := by
  have H : ∀ n, ∀ a b : Expr, sizeOf a ≤ n → (cmpE a b).swap = cmpE b a := by
    intro n
    induction n using Nat.strong_induction_on with
    | _ n IH =>
    intro a b ha
    cases a <;> cases b <;>
      first
      | rfl
      | skip
    case int.int =>
      rw [cmpE_num_ii, cmpE_num_ii]
      exact numLex_swap _ _
    case int.rat =>
      rw [cmpE_num_ir, cmpE_num_ri]
      exact numLex_swap _ _
    case rat.int =>
      rw [cmpE_num_ri, cmpE_num_ir]
      exact numLex_swap _ _
    case rat.rat =>
      rw [cmpE_num_rr, cmpE_num_rr]
      exact numLex_swap _ _
    case sym.sym s t =>
      simp only [cmpE]
      exact cmpStr_swap s t
    case add.add xs ys =>
      have hsz : sizeOf (Expr.add xs) = 1 + sizeOf xs := by simp
      simp only [cmpE]
      exact cmpL_swap_of fun x hx y =>
        IH (sizeOf x) (by have := sizeOf_mem_lt hx; omega) x y le_rfl
    case mul.mul xs ys =>
      have hsz : sizeOf (Expr.mul xs) = 1 + sizeOf xs := by simp
      simp only [cmpE]
      exact cmpL_swap_of fun x hx y =>
        IH (sizeOf x) (by have := sizeOf_mem_lt hx; omega) x y le_rfl
    case pow.pow b₁ e₁ b₂ e₂ =>
      have hsz : sizeOf (Expr.pow b₁ e₁) = 1 + sizeOf b₁ + sizeOf e₁ := by simp
      simp only [cmpE, then_swap]
      rw [IH (sizeOf b₁) (by omega) b₁ b₂ le_rfl,
        IH (sizeOf e₁) (by omega) e₁ e₂ le_rfl]
    case func.func f a₁ g a₂ =>
      have hsz : sizeOf (Expr.func f a₁) = 1 + sizeOf f + sizeOf a₁ := by simp
      simp only [cmpE, then_swap]
      rw [cmpStr_swap, IH (sizeOf a₁) (by omega) a₁ a₂ le_rfl]
  exact fun a b => H (sizeOf a) a b le_rfl

theorem cmpE_rank_le {a b : Expr} (h : cmpE a b = .lt) : a.rank ≤ b.rank := by
  by_contra hc
  rw [cmpE_rank_of_ne (by omega)] at h
  rw [cmp3_lt_iff] at h
  omega

theorem cmpE_rank_lt {a b : Expr} (h : a.rank < b.rank) : cmpE a b = .lt := by
  rw [cmpE_rank_of_ne (by omega)]
  exact cmp3_lt_iff.mpr h

theorem cmpE_lt_trans :
    ∀ {a b c : Expr}, cmpE a b = .lt → cmpE b c = .lt → cmpE a c = .lt := by
  have H : ∀ n, ∀ a b c : Expr, sizeOf a ≤ n →
      cmpE a b = .lt → cmpE b c = .lt → cmpE a c = .lt := by
    intro n
    induction n using Nat.strong_induction_on with
    | _ n IH =>
    intro a b c ha h1 h2
    have r1 := cmpE_rank_le h1
    have r2 := cmpE_rank_le h2
    rcases Nat.lt_or_ge a.rank c.rank with hr | hr
    · exact cmpE_rank_lt hr
    · have hab : a.rank = b.rank := by omega
      have hbc : b.rank = c.rank := by omega
      cases a with
      | int m =>
        have hbn : b.isNum := rank_num (by
          have h0 : (Expr.int m).rank = 0 := rfl
          omega)
        have hcn : c.isNum := rank_num (by
          have h0 : (Expr.int m).rank = 0 := rfl
          omega)
        rw [cmpE_num (show (Expr.int m).isNum = true from rfl) hbn] at h1
        rw [cmpE_num hbn hcn] at h2
        rw [cmpE_num (show (Expr.int m).isNum = true from rfl) hcn]
        exact numLex_lt_trans h1 h2
      | rat p q =>
        have hbn : b.isNum := rank_num (by
          have h0 : (Expr.rat p q).rank = 0 := rfl
          omega)
        have hcn : c.isNum := rank_num (by
          have h0 : (Expr.rat p q).rank = 0 := rfl
          omega)
        rw [cmpE_num (show (Expr.rat p q).isNum = true from rfl) hbn] at h1
        rw [cmpE_num hbn hcn] at h2
        rw [cmpE_num (show (Expr.rat p q).isNum = true from rfl) hcn]
        exact numLex_lt_trans h1 h2
      | sym s =>
        obtain ⟨t, rfl⟩ := rank_sym (a := b) (by
          have h0 : (Expr.sym s).rank = 1 := rfl
          omega)
        obtain ⟨u, rfl⟩ := rank_sym (a := c) (by
          have h0 : (Expr.sym s).rank = 1 := rfl
          omega)
        simp only [cmpE] at h1 h2 ⊢
        exact cmpStr_lt_trans h1 h2
      | add xs =>
        obtain ⟨ys, rfl⟩ := rank_add (a := b) (by
          have h0 : (Expr.add xs).rank = 2 := rfl
          omega)
        obtain ⟨zs, rfl⟩ := rank_add (a := c) (by
          have h0 : (Expr.add xs).rank = 2 := rfl
          omega)
        have hsz : sizeOf (Expr.add xs) = 1 + sizeOf xs := by simp
        simp only [cmpE] at h1 h2 ⊢
        exact cmpL_lt_trans_of
          (fun x hx y z hxy hyz =>
            IH (sizeOf x) (by have := sizeOf_mem_lt hx; omega) x y z le_rfl hxy hyz)
          (fun x _ y hxy => cmpE_eq_of hxy)
          (fun y _ z hyz => cmpE_eq_of hyz) h1 h2
      | mul xs =>
        obtain ⟨ys, rfl⟩ := rank_mul (a := b) (by
          have h0 : (Expr.mul xs).rank = 3 := rfl
          omega)
        obtain ⟨zs, rfl⟩ := rank_mul (a := c) (by
          have h0 : (Expr.mul xs).rank = 3 := rfl
          omega)
        have hsz : sizeOf (Expr.mul xs) = 1 + sizeOf xs := by simp
        simp only [cmpE] at h1 h2 ⊢
        exact cmpL_lt_trans_of
          (fun x hx y z hxy hyz =>
            IH (sizeOf x) (by have := sizeOf_mem_lt hx; omega) x y z le_rfl hxy hyz)
          (fun x _ y hxy => cmpE_eq_of hxy)
          (fun y _ z hyz => cmpE_eq_of hyz) h1 h2
      | pow b₁ e₁ =>
        obtain ⟨b₂, e₂, rfl⟩ := rank_pow (a := b) (by
          have h0 : (Expr.pow b₁ e₁).rank = 4 := rfl
          omega)
        obtain ⟨b₃, e₃, rfl⟩ := rank_pow (a := c) (by
          have h0 : (Expr.pow b₁ e₁).rank = 4 := rfl
          omega)
        have hsz : sizeOf (Expr.pow b₁ e₁) = 1 + sizeOf b₁ + sizeOf e₁ := by simp
        simp only [cmpE, then_eq_lt] at h1 h2 ⊢
        rcases h1 with h1 | ⟨h1e, h1t⟩ <;> rcases h2 with h2 | ⟨h2e, h2t⟩
        · exact Or.inl (IH (sizeOf b₁) (by omega) b₁ b₂ b₃ le_rfl h1 h2)
        · exact Or.inl ((cmpE_eq_of h2e) ▸ h1)
        · exact Or.inl ((cmpE_eq_of h1e) ▸ h2)
        · refine Or.inr ⟨?_, IH (sizeOf e₁) (by omega) e₁ e₂ e₃ le_rfl h1t h2t⟩
          rw [cmpE_eq_of h1e]; exact h2e
      | func f a₁ =>
        obtain ⟨g, a₂, rfl⟩ := rank_func (a := b) (by
          have h0 : (Expr.func f a₁).rank = 5 := rfl
          omega)
        obtain ⟨k, a₃, rfl⟩ := rank_func (a := c) (by
          have h0 : (Expr.func f a₁).rank = 5 := rfl
          omega)
        have hsz : sizeOf (Expr.func f a₁) = 1 + sizeOf f + sizeOf a₁ := by simp
        simp only [cmpE, then_eq_lt] at h1 h2 ⊢
        rcases h1 with h1 | ⟨h1e, h1t⟩ <;> rcases h2 with h2 | ⟨h2e, h2t⟩
        · exact Or.inl (cmpStr_lt_trans h1 h2)
        · exact Or.inl ((cmpStr_eq_of h2e) ▸ h1)
        · exact Or.inl ((cmpStr_eq_of h1e) ▸ h2)
        · refine Or.inr ⟨?_, IH (sizeOf a₁) (by omega) a₁ a₂ a₃ le_rfl h1t h2t⟩
          rw [cmpStr_eq_of h1e]; exact h2e
  exact fun {a b c} => H (sizeOf a) a b c le_rfl

theorem cmpE_lt_iff_gt {a b : Expr} : cmpE a b = .lt ↔ cmpE b a = .gt := by
  constructor
  · intro h
    have := cmpE_swap a b
    rw [h] at this
    exact this.symm
  · intro h
    have := cmpE_swap b a
    rw [h] at this
    cases hc : cmpE a b <;> rw [hc] at this <;> simp [Ordering.swap] at this ⊢

theorem le_iff {a b : Expr} : Expr.le a b ↔ cmpE a b = .lt ∨ a = b := by
  unfold Expr.le
  cases h : cmpE a b <;> simp_all
  · exact cmpE_eq_of h
  · rintro rfl; rw [cmpE_refl] at h; cases h

theorem le_total_expr : ∀ a b : Expr, Expr.le a b ∨ Expr.le b a := by
  intro a b
  unfold Expr.le
  cases h : cmpE a b with
  | lt => left; simp
  | eq => left; simp
  | gt =>
    right
    have hs := cmpE_swap b a
    rw [h] at hs
    cases hc : cmpE b a with
    | lt => simp
    | eq => simp
    | gt => rw [hc] at hs; simp [Ordering.swap] at hs

theorem le_trans_expr :
    ∀ a b c : Expr, Expr.le a b → Expr.le b c → Expr.le a c := by
  intro a b c h1 h2
  rw [le_iff] at h1 h2 ⊢
  rcases h1 with h1 | rfl
  · rcases h2 with h2 | rfl
    · exact Or.inl (cmpE_lt_trans h1 h2)
    · exact Or.inl h1
  · exact h2

theorem le_antisymm_expr : ∀ a b : Expr, Expr.le a b → Expr.le b a → a = b := by
  intro a b h1 h2
  rw [le_iff] at h1 h2
  rcases h1 with h1 | rfl
  · rcases h2 with h2 | rfl
    · have := cmpE_lt_trans h1 h2
      rw [cmpE_refl] at this
      cases this
    · rfl
  · rfl

instance : IsTotal Expr Expr.le := ⟨le_total_expr⟩

instance : IsTrans Expr Expr.le := ⟨le_trans_expr⟩

instance : IsAntisymm Expr Expr.le := ⟨le_antisymm_expr⟩

/-- Kernel-computable exact rational addition (same value as `+` on `ℚ`). -/
def qadd (p q : ℚ) : ℚ := Rat.divInt (p.num * q.den + q.num * p.den) (p.den * q.den)

/-- Kernel-computable exact rational multiplication. -/
def qmul (p q : ℚ) : ℚ := Rat.divInt (p.num * q.num) (p.den * q.den)

/-- Kernel-computable exact rational negation. -/
def qneg (p : ℚ) : ℚ := Rat.divInt (-p.num) p.den

/-- Kernel-computable exact rational inverse (0 maps to 0). -/
def qinv (p : ℚ) : ℚ := Rat.divInt p.den p.num

/-- Kernel-computable exact rational subtraction. -/
def qsub (p q : ℚ) : ℚ := qadd p (qneg q)

/-- Kernel-computable exact rational division. -/
def qdiv (p q : ℚ) : ℚ := qmul p (qinv q)

/-- Kernel-computable exact rational power (natural exponent). -/
def qpow (p : ℚ) : Nat → ℚ
  | 0 => 1
  | n + 1 => qmul p (qpow p n)

/-- Kernel-computable exact rational power (integer exponent). -/
def qzpow (p : ℚ) (n : Int) : ℚ :=
  if 0 ≤ n then qpow p n.toNat else qinv (qpow p (-n).toNat)

theorem qadd_eq (p q : ℚ) : qadd p q = p + q := by
  unfold qadd
  rw [Rat.divInt_eq_div]
  have hp : ((p.den : ℚ)) ≠ 0 := by
    exact_mod_cast p.den_nz
  have hq : ((q.den : ℚ)) ≠ 0 := by
    exact_mod_cast q.den_nz
  rw [show p + q = (p.num : ℚ) / (p.den : ℚ) + (q.num : ℚ) / (q.den : ℚ) by
    rw [Rat.num_div_den, Rat.num_div_den]]
  rw [div_add_div _ _ hp hq]
  push_cast
  ring_nf

theorem qmul_eq (p q : ℚ) : qmul p q = p * q := by
  unfold qmul
  rw [Rat.divInt_eq_div]
  rw [show p * q = ((p.num : ℚ) / (p.den : ℚ)) * ((q.num : ℚ) / (q.den : ℚ)) by
    rw [Rat.num_div_den, Rat.num_div_den]]
  rw [div_mul_div_comm]
  push_cast
  ring_nf

theorem qneg_eq (p : ℚ) : qneg p = -p := by
  unfold qneg
  rw [Rat.divInt_eq_div]
  push_cast
  rw [neg_div, Rat.num_div_den]

theorem qinv_eq (p : ℚ) : qinv p = p⁻¹ := by
  unfold qinv
  rw [Rat.divInt_eq_div]
  rcases eq_or_ne p 0 with rfl | hp
  · simp
  · have hn : ((p.num : ℚ)) ≠ 0 := by
      exact_mod_cast Rat.num_ne_zero.mpr hp
    rw [show p⁻¹ = ((p.num : ℚ) / (p.den : ℚ))⁻¹ by rw [Rat.num_div_den]]
    rw [inv_div]
    norm_cast

theorem qsub_eq (p q : ℚ) : qsub p q = p - q := by
  rw [qsub, qadd_eq, qneg_eq, sub_eq_add_neg]

theorem qdiv_eq (p q : ℚ) : qdiv p q = p / q := by
  rw [qdiv, qmul_eq, qinv_eq, div_eq_mul_inv]

theorem qpow_eq (p : ℚ) : ∀ n : Nat, qpow p n = p ^ n := by
  intro n
  induction n with
  | zero => rfl
  | succ n ih => rw [qpow, qmul_eq, ih, pow_succ]; ring

theorem qzpow_eq (p : ℚ) (n : Int) : qzpow p n = p ^ n := by
  unfold qzpow
  split_ifs with h
  · rw [qpow_eq]
    rw [show p ^ n = p ^ (n.toNat : Int) by rw [Int.toNat_of_nonneg h]]
    exact (zpow_natCast p n.toNat).symm
  · rw [qpow_eq, qinv_eq]
    have hn : n = -((-n).toNat : Int) := by omega
    rw [show p ^ n = p ^ (-(((-n).toNat : Int))) by rw [← hn]]
    rw [zpow_neg, zpow_natCast]

theorem toQ_ofQ (q : ℚ) : (Expr.ofQ q).toQ = q := by
  unfold Expr.ofQ
  split_ifs with h
  · show ((q.num : ℚ)) = q
    conv_rhs => rw [← Rat.num_div_den q]
    rw [h]
    simp
  · show Rat.divInt q.num ((q.den : Int)) = q
    exact q.num_divInt_den

theorem ofQ_isNum (q : ℚ) : (Expr.ofQ q).isNum := by
  unfold Expr.ofQ
  split_ifs <;> rfl

/-- The error kinds of spec section 7. -/
inductive Err : Type where
  | DivisionByZero
  | UnknownDerivative
  | NonElementaryIntegral
  | NotPolynomial
  | UnsolvedPolynomial
  | InfiniteSolutions
  | UnboundSymbol
  | UndefinedPower
  | NoRealRoot
deriving DecidableEq

/-- Decidable structural equality of fallible results. -/
instance {e a : Type} [DecidableEq e] [DecidableEq a] :
    DecidableEq (Except e a)
  | .ok x, .ok y =>
      if h : x = y then .isTrue (by rw [h])
      else .isFalse (by intro hc; injection hc; exact h (by assumption))
  | .ok x, .error y => .isFalse (by intro hc; exact Except.noConfusion hc)
  | .error x, .ok y => .isFalse (by intro hc; exact Except.noConfusion hc)
  | .error x, .error y =>
      if h : x = y then .isTrue (by rw [h])
      else .isFalse (by intro hc; injection hc; exact h (by assumption))

namespace Expr

/-- A one-factor product collapses to the factor (spec 4.3 step 3). -/
def mulOf : List Expr → Expr
  | [f] => f
  | fs => .mul fs

/-- Modelled from the spec (4.3 step 4): view an additive term as a numeric
coefficient times a non-numeric core.  A numeric literal is a coefficient
times the empty core `Integer 1`; a product with a leading numeric factor
splits it off; anything else has coefficient 1. -/
def termSplit : Expr → Expr × ℚ
  | .int n => (.int 1, (n : ℚ))
  | .rat n d => (.int 1, Rat.divInt n d)
  | .mul (c :: fs) =>
      if c.isNum then (mulOf fs, c.toQ) else (.mul (c :: fs), 1)
  | t => (t, 1)

/-- Rebuild an additive term from a coefficient and a core. -/
def rebuildTerm (q : ℚ) (core : Expr) : Expr :=
  if q = 0 then .int 0
  else if core = .int 1 then ofQ q
  else if q = 1 then core
  else
    match core with
    | .mul fs => .mul (ofQ q :: fs)
    | c => .mul [ofQ q, c]

/-- Modelled from the spec (4.3 step 4): view a multiplicative factor as a
base raised to a numeric exponent; a power with a non-numeric exponent, a
power of a product (kept atomic so products stay flat), and any other
factor are their own base with exponent 1. -/
def factorSplit : Expr → Expr × ℚ
  | .pow b e => if e.isNum ∧ ¬b.isMul then (b, e.toQ) else (.pow b e, 1)
  | f => (f, 1)

/-- Modelled from the spec (4.3 step 5 and the `Pow` invariants of the data
model): power identities applied to already-simplified base and exponent.
`x^0 = 1` (except the defined-error case `0^0`, left untouched since
`simplify` is total), `x^1 = x`, a numeric base to a numeric integer
exponent folds to a literal (except `0^negative`), and `(x^a)^b = x^(a*b)`
when it is unambiguous, which this model takes to be: both exponents
numeric and the inner base not a product (so products stay flat). -/
def simpPow (b e : Expr) : Expr :=
  if e = .int 0 then (if b = .int 0 then .pow b e else .int 1)
  else if e = .int 1 then b
  else
    match e, b with
    | .int n, .int m =>
        if m = 0 ∧ n < 0 then .pow (.int m) (.int n) else ofQ (qzpow ((m : ℚ)) n)
    | .int n, .rat p q =>
        if Rat.divInt p q = 0 ∧ n < 0 then .pow (.rat p q) (.int n)
        else ofQ (qzpow (Rat.divInt p q) n)
    | _, .pow b₂ e₂ =>
        if e₂.isNum ∧ e.isNum ∧ ¬b₂.isMul then simpPow b₂ (ofQ (qmul e₂.toQ e.toQ))
        else .pow b e
    | _, _ => .pow b e

/-- The additive operands an expression contributes when a sum is
flattened: a sum contributes its terms, anything else itself. -/
def addParts : Expr → List Expr
  | .add ts => ts
  | t => [t]

/-- The multiplicative operands an expression contributes when a product is
flattened: a product contributes its factors, anything else itself. -/
def mulParts : Expr → List Expr
  | .mul fs => fs
  | f => [f]

/-- Flatten one level of nested sums (spec 4.3 step 2). -/
def flattenAdd : List Expr → List Expr
  | [] => []
  | .add ts :: rest => ts ++ flattenAdd rest
  | t :: rest => t :: flattenAdd rest

/-- Flatten one level of nested products (spec 4.3 step 2). -/
def flattenMul : List Expr → List Expr
  | [] => []
  | .mul fs :: rest => fs ++ flattenMul rest
  | t :: rest => t :: flattenMul rest

end Expr

/-- Merge one keyed coefficient into an association list, combining with an
existing entry for the same key. -/
def addPair : List (Expr × ℚ) → Expr × ℚ → List (Expr × ℚ)
  | [], p => [p]
  | q :: rest, p =>
      if q.1 = p.1 then (q.1, qadd q.2 p.2) :: rest else q :: addPair rest p

/-- Modelled from the spec (4.3 steps 3-4): collect like keys, summing the
coefficients of equal cores (for `Add`) or the exponents of equal bases
(for `Mul`). -/
def collect (ps : List (Expr × ℚ)) : List (Expr × ℚ) := ps.foldl addPair []

namespace Expr

/-- Final assembly of a sum from its sorted term list (spec 4.3 step 3):
empty sum is 0, singleton sum is its term. -/
def assembleAdd : List Expr → Expr
  | [] => .int 0
  | [t] => t
  | l => .add l

/-- The list of rebuilt terms the `Add` pipeline produces from a pair list. -/
def addTerms (ps : List (Expr × ℚ)) : List Expr :=
  ((collect ps).filter fun p => ¬(p.2 = 0)).map fun p => rebuildTerm p.2 p.1

/-- Modelled from the spec (4.3): the bottom-up `Add` pipeline, applied to
already-simplified operands — flatten nested sums, split every term into
coefficient and core (numeric literals combining on the core `Integer 1`),
collect like terms, drop terms with coefficient 0, rebuild, and sort by
the canonical order; an empty sum is `Integer 0` and a one-term sum is the
term itself. -/
def simplifyAdd (xs : List Expr) : Expr :=
  let ts := flattenAdd xs
  let cs := collect (ts.map termSplit)
  let terms := (cs.filter fun p => ¬(p.2 = 0)).map fun p => rebuildTerm p.2 p.1
  match List.insertionSort Expr.le terms with
  | [] => .int 0
  | [t] => t
  | l => .add l

/-- Numeric factors fold into one exact coefficient (spec 4.3 step 3). -/
def mulCoeff (l : List Expr) (init : ℚ) : ℚ :=
  l.foldl (fun acc f => qmul acc f.toQ) init

/-- A numeric coefficient distributes over a lone sum factor: every term of
the sum is scaled and the result re-sorted (spec 4.3 step 3, keeping sums
flat and numeric constants combined). -/
def distAdd (q1 : ℚ) (ts : List Expr) : Expr :=
  .add (List.insertionSort Expr.le (ts.map fun t =>
    rebuildTerm (qmul q1 (termSplit t).2) (termSplit t).1))

/-- Final assembly of a product from its coefficient and sorted non-numeric
factors: an empty product is the coefficient (`Integer 1` when trivial), a
coefficient of 1 disappears, a one-factor product is the factor, and a
coefficient times a lone sum distributes. -/
def assembleMul (q1 : ℚ) (l : List Expr) : Expr :=
  if q1 = 1 then
    match l with
    | [] => .int 1
    | [f] => f
    | l => .mul l
  else
    match l with
    | [] => ofQ q1
    | [.add ts] => distAdd q1 ts
    | l => .mul (ofQ q1 :: l)

/-- A numeric multiple of an atomic factor in canonical form: zero
collapses, one disappears, anything else becomes a two-factor product
(statement helper for the pipeline computation lemmas). -/
def scaled (q : ℚ) (t : Expr) : Expr :=
  if q = 0 then .int 0 else if q = 1 then t else .mul [ofQ q, t]

/-- Modelled from the spec (4.3): the bottom-up `Mul` pipeline, applied to
already-simplified operands — flatten nested products, fold all numeric
factors into one coefficient (a zero coefficient collapses the product to
`Integer 0`), collect like bases summing numeric exponents, rebuild each
collected factor through the power identities, fold any factors that became
numeric into the coefficient, sort, and assemble. -/
def simplifyMul (xs : List Expr) : Expr :=
  let fs := flattenMul xs
  let q0 := mulCoeff (fs.filter fun f => f.isNum) 1
  let os := fs.filter fun f => ¬f.isNum
  if q0 = 0 then .int 0
  else
    let rs := (collect (os.map factorSplit)).map fun p => simpPow p.1 (ofQ p.2)
    let q1 := mulCoeff (rs.filter fun f => f.isNum) q0
    let ns := rs.filter fun f => ¬f.isNum
    if q1 = 0 then .int 0
    else assembleMul q1 (List.insertionSort Expr.le ns)

end Expr

mutual

/-- Modelled from the spec (4.3): bottom-up canonicalization — simplify
every child first, then apply the `Add`/`Mul` pipelines or the power
identities at the node.  A `Rational` literal normalizes to its canonical
numeric form. -/
def simplify : Expr → Expr
  | .sym s => .sym s
  | .int n => .int n
  | .rat n d => Expr.ofQ (Rat.divInt n d)
  | .add ts => Expr.simplifyAdd (simplifyList ts)
  | .mul fs => Expr.simplifyMul (simplifyList fs)
  | .pow b e => Expr.simpPow (simplify b) (simplify e)
  | .func f a => .func f (simplify a)

/-- Children are simplified pointwise. -/
def simplifyList : List Expr → List Expr
  | [] => []
  | e :: es => simplify e :: simplifyList es

end

/-- Keys (first components) of a keyed coefficient list. -/
def keys (ps : List (Expr × ℚ)) : List Expr := ps.map (·.1)

/-- Total coefficient attached to a key. -/
def keyval (ps : List (Expr × ℚ)) (c : Expr) : ℚ :=
  ((ps.filter fun p => p.1 = c).map (·.2)).sum

namespace Expr

/-- Shape condition on a core: a product core has at least two factors and
a non-numeric head. -/
def coreShape : Expr → Prop
  | .mul [] => False
  | .mul [_] => False
  | .mul (f :: _) => f.isNum = false
  | _ => True

/-- A core produced by `termSplit` on a canonical term: either the numeric
core `Integer 1`, or a non-numeric non-sum expression whose head factor,
when it is a product, is non-numeric (so a coefficient can be prepended
without breaking the `Mul` invariants). -/
def goodCore (c : Expr) : Prop :=
  c = .int 1 ∨ (c.isNum = false ∧ c.isAdd = false ∧ coreShape c)

/-- A base produced by `factorSplit` on a canonical factor: not a product,
and not itself a power that the `(x^a)^b` identity would collapse. -/
def goodBase : Expr → Prop
  | .mul _ => False
  | .pow b₂ e₂ => ¬(e₂.isNum ∧ ¬b₂.isMul)
  | _ => True

/-- `z` lies on the chain of iterated bases of `x` (`x`, its base if `x` is
a power, that base's base, ...).  The result of `simpPow` is always numeric,
a chain element, or a power whose base is a chain element. -/
def baseLe (z : Expr) : Expr → Prop
  | .pow b₂ e₂ => z = .pow b₂ e₂ ∨ baseLe z b₂
  | x => z = x

/-- Head condition of a canonical product: at most one numeric factor, in
head position, with value neither 0 nor 1. -/
def mulHead : List Expr → Bool
  | [] => true
  | c :: rest =>
      if c.isNum then
        decide (c.toQ ≠ 0 ∧ c.toQ ≠ 1) && rest.all fun f => !f.isNum
      else (c :: rest).all fun f => !f.isNum

/-- No canonical product is a numeric coefficient times a lone sum (such a
product distributes, spec 4.3 step 3). -/
def mulPair : List Expr → Bool
  | [c, a] => !(c.isNum && a.isAdd)
  | _ => true

mutual

/-- The canonical-form invariant of spec sections 3 and 4.3: the predicate
characterizing the trees `simplify` produces and leaves fixed. -/
def canon : Expr → Bool
  | .sym _ => true
  | .int _ => true
  | .rat n d => decide (ofQ (Expr.toQ (.rat n d)) = .rat n d)
  | .add ts =>
      canonList ts &&
      decide (2 ≤ ts.length) &&
      ts.all (fun t => !t.isAdd) &&
      ts.all (fun t => decide (¬((termSplit t).2 = 0))) &&
      ts.all (fun t => decide (rebuildTerm (termSplit t).2 (termSplit t).1 = t)) &&
      decide ((ts.map fun t => (termSplit t).1).Nodup) &&
      decide (List.Sorted Expr.le ts)
  | .mul fs =>
      canonList fs &&
      decide (2 ≤ fs.length) &&
      fs.all (fun f => !f.isMul) &&
      mulHead fs &&
      mulPair fs &&
      fs.all (fun f => f.isNum ||
        decide (simpPow (factorSplit f).1 (ofQ (factorSplit f).2) = f)) &&
      decide (((fs.filter fun f => ¬f.isNum).map fun f => (factorSplit f).1).Nodup) &&
      decide (List.Sorted Expr.le fs)
  | .pow b e => canon b && canon e && decide (simpPow b e = .pow b e)
  | .func _ a => canon a

/-- All members canonical. -/
def canonList : List Expr → Bool
  | [] => true
  | e :: es => canon e && canonList es

end

/-- Modelled from the spec (6): `symbol(name)` builds a `Symbol` leaf. -/
def symbol (s : String) : Expr := .sym s

/-- Modelled from the spec (6): `integer(n)` builds an `Integer` leaf. -/
def integer (n : Int) : Expr := .int n

/-- Modelled from the spec (6): `rational(n, d)` builds a `Rational` leaf and
fails with `DivisionByZero` when `d = 0`. -/
def rational (n d : Int) : Except Err Expr :=
  if d = 0 then .error .DivisionByZero else .ok (.rat n d)

/-- Modelled from the spec (6): `add(a,b)` builds an uncanonicalized sum. -/
def addE (a b : Expr) : Expr := .add [a, b]

/-- Modelled from the spec (6): `sub(a,b)` is `a + (-1)*b`. -/
def subE (a b : Expr) : Expr := .add [a, .mul [.int (-1), b]]

/-- Modelled from the spec (6): `mul(a,b)` builds an uncanonicalized
product. -/
def mulE (a b : Expr) : Expr := .mul [a, b]

/-- Modelled from the spec (6): `div(a,b)` is `a * b^(-1)`. -/
def divE (a b : Expr) : Expr := .mul [a, .pow b (.int (-1))]

/-- Modelled from the spec (6): `pow(a,b)` builds an uncanonicalized
power. -/
def powE (a b : Expr) : Expr := .pow a b

/-- Modelled from the spec (6): the named `Function` nodes. -/
def sinE (a : Expr) : Expr := .func "sin" a

/-- `cos(e)` as a `Function` node. -/
def cosE (a : Expr) : Expr := .func "cos" a

/-- `exp(e)` as a `Function` node. -/
def expE (a : Expr) : Expr := .func "exp" a

/-- `ln(e)` as a `Function` node. -/
def lnE (a : Expr) : Expr := .func "ln" a

mutual

/-- Whether the symbol `v` occurs anywhere in the expression (the spec's
notion of a subexpression being constant with respect to `var` is the
negation). -/
def occurs (v : String) : Expr → Bool
  | .sym s => s = v
  | .int _ => false
  | .rat _ _ => false
  | .add ts => occursList v ts
  | .mul fs => occursList v fs
  | .pow b e => occurs v b || occurs v e
  | .func _ a => occurs v a

/-- `occurs` over an operand list. -/
def occursList (v : String) : List Expr → Bool
  | [] => false
  | e :: es => occurs v e || occursList v es

end

mutual

/-- Modelled from the spec (4.7): capture-free structural replacement of
every occurrence of the symbol `v` by `r`, returning an uncanonicalized
tree. -/
def subs (v : String) (r : Expr) : Expr → Expr
  | .sym s => if s = v then r else .sym s
  | .int n => .int n
  | .rat n d => .rat n d
  | .add ts => .add (subsList v r ts)
  | .mul fs => .mul (subsList v r fs)
  | .pow b e => .pow (subs v r b) (subs v r e)
  | .func f a => .func f (subs v r a)

/-- `subs` over an operand list. -/
def subsList (v : String) (r : Expr) : List Expr → List Expr
  | [] => []
  | e :: es => subs v r e :: subsList v r es

end

/-- Modelled from the spec (4.4): the fixed derivative table for `Function`
heads — `sin → cos`, `cos → -sin`, `exp → exp`, `ln(u) → 1/u`; an unknown
name has no entry. -/
def fTable : String → Expr → Option Expr
  | "sin", a => some (.func "cos" a)
  | "cos", a => some (.mul [.int (-1), .func "sin" a])
  | "exp", a => some (.func "exp" a)
  | "ln", a => some (.pow a (.int (-1)))
  | _, _ => none

mutual

/-- Modelled from the spec (4.4): the raw structural derivative.  A
subexpression constant with respect to `var` differentiates to 0, `var` to
1; `Add` term-by-term; `Mul` by the N-ary product rule; `Pow` by the
constant-exponent power rule, the constant-base exponential rule, or the
general rule; `Function` by the fixed table with the chain rule, failing
with `UnknownDerivative` for an unknown name. -/
def diffRaw (v : String) (e : Expr) : Except Err Expr :=
  if ¬occurs v e then .ok (.int 0) else
  match e with
  | .sym s => .ok (if s = v then .int 1 else .int 0)
  | .int _ => .ok (.int 0)
  | .rat _ _ => .ok (.int 0)
  | .add ts => do
      let ds ← diffList v ts
      .ok (.add ds)
  | .mul fs => do
      let ts ← prodRule v fs
      .ok (.add ts)
  | .pow b e₂ =>
      if occurs v e₂ then
        if occurs v b then do
          let db ← diffRaw v b
          let de ← diffRaw v e₂
          .ok (.mul [.pow b e₂, .add [.mul [de, .func "ln" b],
            .mul [e₂, db, .pow b (.int (-1))]]])
        else do
          let de ← diffRaw v e₂
          .ok (.mul [.pow b e₂, .func "ln" b, de])
      else do
        let db ← diffRaw v b
        .ok (.mul [e₂, .pow b (.add [e₂, .int (-1)]), db])
  | .func f a =>
      match fTable f a with
      | some g => do
          let da ← diffRaw v a
          .ok (.mul [g, da])
      | none => .error .UnknownDerivative

/-- Term-by-term derivatives of a sum's operand list. -/
def diffList (v : String) : List Expr → Except Err (List Expr)
  | [] => .ok []
  | e :: es => do
      let d ← diffRaw v e
      let ds ← diffList v es
      .ok (d :: ds)

/-- The N-ary product rule: one term per factor, differentiating that
factor and keeping the rest. -/
def prodRule (v : String) : List Expr → Except Err (List Expr)
  | [] => .ok []
  | f :: rest => do
      let df ← diffRaw v f
      let ts ← prodRule v rest
      .ok (.mul (df :: rest) :: ts.map fun t => .mul [f, t])

end

/-- Modelled from the spec (4.4): `diff` is the raw structural derivative
passed through the simplifier before being returned. -/
def diff (v : String) (e : Expr) : Except Err Expr :=
  (diffRaw v e).map simplify

/-- Modelled from the spec (4.5 d): recognize a linear argument
`a₁*var + a₀` (constant `a₀`, numeric nonzero slope `a₁`) and return the
slope. -/
def linArg (v : String) : Expr → Option ℚ
  | .sym s => if s = v then some (Rat.divInt 1 1) else none
  | .mul [c, .sym s] =>
      if c.isNum ∧ s = v ∧ ¬(c.toQ = 0) then some c.toQ else none
  | .add [d, .sym s] =>
      if ¬occurs v d ∧ s = v then some (Rat.divInt 1 1) else none
  | .add [d, .mul [c, .sym s]] =>
      if ¬occurs v d ∧ c.isNum ∧ s = v ∧ ¬(c.toQ = 0) then some c.toQ
      else none
  | _ => none

mutual

/-- Modelled from the spec (4.5): elementary antidifferentiation by an
ordered strategy, first match wins — (a) a term constant in `var`
integrates to `term * var`; (b) `var` and `var^n` by the power rule
(`var^-1 → ln(var)`); (c) linearity over `Add`; (d) a small table of
elementary `Function` forms with a linear argument; (e) otherwise fail
with `NonElementaryIntegral`. -/
def integrate (v : String) (e : Expr) : Except Err Expr :=
  if ¬occurs v e then .ok (.mul [e, .sym v]) else
  match e with
  | .sym _ => .ok (.mul [.rat 1 2, .pow (.sym v) (.int 2)])
  | .pow (.sym s) (.int n) =>
      if s = v then
        if n = -1 then .ok (.func "ln" (.sym v))
        else .ok (.mul [.rat 1 (n + 1), .pow (.sym v) (.int (n + 1))])
      else .error .NonElementaryIntegral
  | .add ts => do
      let is ← integrateList v ts
      .ok (.add is)
  | .func f a =>
      match linArg v a with
      | some k =>
          match f with
          | "sin" => .ok (.mul [ofQ (qneg (qinv k)), .func "cos" a])
          | "cos" => .ok (.mul [ofQ (qinv k), .func "sin" a])
          | "exp" => .ok (.mul [ofQ (qinv k), .func "exp" a])
          | _ => .error .NonElementaryIntegral
      | none => .error .NonElementaryIntegral
  | _ => .error .NonElementaryIntegral

/-- Integrate a sum term-by-term (linearity). -/
def integrateList (v : String) : List Expr → Except Err (List Expr)
  | [] => .ok []
  | e :: es => do
      let i ← integrate v e
      let is ← integrateList v es
      .ok (i :: is)

end

/-- Modelled from the spec (4.6): the coefficient and degree a single
simplified term contributes to a polynomial in `var`.  A coefficient is an
arbitrary constant expression not containing `var` (spec: "constants not
containing `var`"); the variable part of a term must be `var` itself or a
positive integer power of it. -/
def termCoeff (v : String) (e : Expr) : Option (Expr × Nat) :=
  if ¬occurs v e then some (e, 0) else
  match e with
  | .sym _ => some (.int 1, 1)
  | .pow (.sym s) (.int n) =>
      if s = v ∧ 0 < n then some (.int 1, n.toNat) else none
  | .mul fs =>
      match fs.filter (fun f => occurs v f),
          fs.filter (fun f => ¬occurs v f) with
      | [.sym _], cs => some (mulOf cs, 1)
      | [.pow (.sym s) (.int n)], cs =>
          if s = v ∧ 0 < n then some (mulOf cs, n.toNat) else none
      | _, _ => none
  | _ => none

/-- The coefficient list of a simplified polynomial in `var`: one entry per
term of the canonical sum. -/
def polyCoeffs (v : String) (p : Expr) : Option (List (Expr × Nat)) :=
  match p with
  | .add ts => ts.mapM (termCoeff v)
  | t => (termCoeff v t).map fun c => [c]

/-- Total coefficient at a given degree: the simplified sum of every
contributing coefficient expression. -/
def coeffAt (cs : List (Expr × Nat)) (k : Nat) : Expr :=
  simplify (.add (((cs.filter fun p => p.2 = k)).map fun p => p.1))

/-- The degree: the highest power of `var` present. -/
def degOf (cs : List (Expr × Nat)) : Nat := (cs.map fun p => p.2).foldl max 0

/-- Exact integer square root, when one exists. -/
def intSqrt (n : Nat) : Option Nat :=
  (List.range (n + 1)).find? fun k => decide (k * k = n)

/-- Exact rational square root, when one exists. -/
def ratSqrt (q : ℚ) : Option ℚ :=
  if q < 0 then none
  else
    match intSqrt q.num.toNat, intSqrt q.den with
    | some a, some b => some (Rat.divInt ((a : Int)) ((b : Int)))
    | _, _ => none

/-- Modelled from the spec (4.6): the square root used by the quadratic
formula.  A perfect rational square yields its exact rational root, a
negative numeric radicand has no real root (`none`; the documented
`NoRealRoot` policy), and an irrational or symbolic radicand is kept as the
exact power `d^(1/2)`. -/
def sqrtE (d : Expr) : Option Expr :=
  if d.isNum then
    if d.toQ < 0 then none
    else
      match ratSqrt d.toQ with
      | some r => some (ofQ r)
      | none => some (.pow d (.rat 1 2))
  else some (.pow d (.rat 1 2))

/-- Modelled from the spec (4.6): the quadratic formula on exact rational
coefficients `a*x^2 + b*x + c` (leading argument first): `NoRealRoot` on a
negative discriminant (the documented policy), one root on a vanishing
discriminant, exact rational roots on a square discriminant and exact
symbolic square-root roots otherwise. -/
def quadRootsQ (a b c : ℚ) : Except Err (List Expr) :=
  let disc := qsub (qmul b b) (qmul (qmul (Rat.divInt 4 1) a) c)
  if disc < 0 then .error .NoRealRoot
  else
    match ratSqrt disc with
    | some r =>
        if r = 0 then .ok [ofQ (qdiv (qneg b) (qmul (Rat.divInt 2 1) a))]
        else .ok [ofQ (qdiv (qadd (qneg b) r) (qmul (Rat.divInt 2 1) a)),
          ofQ (qdiv (qsub (qneg b) r) (qmul (Rat.divInt 2 1) a))]
    | none =>
        .ok [simplify (.mul [.add [ofQ (qneg b), .pow (ofQ disc) (.rat 1 2)],
            .pow (ofQ (qmul (Rat.divInt 2 1) a)) (.int (-1))]),
          simplify (.mul [.add [ofQ (qneg b),
              .mul [.int (-1), .pow (ofQ disc) (.rat 1 2)]],
            .pow (ofQ (qmul (Rat.divInt 2 1) a)) (.int (-1))])]

/-- Evaluate an ascending dense rational coefficient vector at a point
(Horner). -/
def qEvalDense (qs : List ℚ) (x : ℚ) : ℚ :=
  qs.foldr (fun a acc => qadd a (qmul x acc)) 0

/-- The dense ascending coefficient vector of a polynomial, when every
coefficient is numeric. -/
def denseQ (cs : List (Expr × Nat)) (d : Nat) : Option (List ℚ) :=
  (List.range (d + 1)).mapM fun k =>
    if (coeffAt cs k).isNum then some (coeffAt cs k).toQ else none

/-- The positive divisors of a natural number. -/
def intDivisors (n : Nat) : List Nat :=
  ((List.range n).map (· + 1)).filter (fun d => d ∣ n)

/-- Modelled from the spec (4.6): the rational-root-theorem candidates —
every `± p/q` with `p` a divisor of the integerized constant coefficient
and `q` a divisor of the integerized leading coefficient. -/
def rootCands (qs : List ℚ) : List ℚ :=
  let L : Nat := (qs.map fun q => q.den).foldl Nat.lcm 1
  let ks : List Int := qs.map fun q => q.num * (((L / q.den : Nat)) : Int)
  let k0 := ks.headD 0
  let kn := ks.getLastD 0
  (intDivisors k0.natAbs).flatMap fun p =>
    (intDivisors kn.natAbs).flatMap fun q =>
      [Rat.divInt ((p : Int)) ((q : Int)), Rat.divInt (-((p : Int))) ((q : Int))]

/-- One synthetic-division step chain. -/
def hornerAux (r c : ℚ) : List ℚ → List ℚ
  | [] => []
  | a :: rest =>
      let c2 := qadd (qmul c r) a
      c2 :: hornerAux r c2 rest

/-- Synthetic division of a descending coefficient list by `(x - r)`: the
descending quotient coefficients with the remainder last. -/
def horner (r : ℚ) : List ℚ → List ℚ
  | [] => []
  | a :: rest => a :: hornerAux r a rest

/-- Factor the root `r` out of an ascending coefficient vector. -/
def deflate (r : ℚ) (qs : List ℚ) : List ℚ :=
  (horner r qs.reverse).dropLast.reverse

/-- Modelled from the spec (4.6): the degree ≥ 3 path — rational-root-
theorem search over the divisors of the leading and constant coefficients,
factoring out each found root by synthetic division and recursing (a
vanishing constant coefficient factors out the root `0`); degrees 1 and 2
use the closed forms; when no candidate is a root no closed form is found:
`UnsolvedPolynomial`.  The fuel argument is the degree, bounding the
recursion. -/
def rrtSolve : Nat → List ℚ → Except Err (List Expr)
  | _, [] => .error .UnsolvedPolynomial
  | 0, _ => .error .UnsolvedPolynomial
  | fuel + 1, c :: qs =>
      if qs.length = 1 then .ok [ofQ (qneg (qdiv c (qs.headD 1)))]
      else if qs.length = 2 then quadRootsQ (qs.getD 1 0) (qs.getD 0 0) c
      else if c = 0 then do
        let more ← rrtSolve fuel qs
        .ok (.int 0 :: more)
      else
        match (rootCands (c :: qs)).find?
            (fun r => decide (qEvalDense (c :: qs) r = 0)) with
        | some r => do
            let more ← rrtSolve fuel (deflate r (c :: qs))
            .ok (ofQ r :: more)
        | none => .error .UnsolvedPolynomial

/-- Modelled from the spec (4.6): solve `e = 0` for `var`.  The expression
is simplified and read as a polynomial in `var` whose coefficients are
arbitrary constant expressions not containing `var` (`NotPolynomial`
otherwise), and dispatched on the highest power present: degree 0 is no
roots or `InfiniteSolutions`; degree 1 the single root `-c0/c1`; degree 2
the quadratic formula — one root on a vanishing discriminant, two
otherwise, `NoRealRoot` for a negative numeric discriminant (the
documented policy choice) and exact symbolic square roots for irrational
or symbolic discriminants; degree ≥ 3 the rational-root-theorem search
over divisors of the leading and constant coefficients when every
coefficient is numeric, factoring out found roots and recursing
(`UnsolvedPolynomial` when no closed form is found or a coefficient is
symbolic). -/
def solve (v : String) (e : Expr) : Except Err (List Expr) :=
  match polyCoeffs v (simplify e) with
  | none => .error .NotPolynomial
  | some cs =>
      let deg := degOf cs
      if deg = 0 then
        if coeffAt cs 0 = .int 0 then .error .InfiniteSolutions else .ok []
      else if deg = 1 then
        .ok [simplify (.mul [.int (-1), coeffAt cs 0,
          .pow (coeffAt cs 1) (.int (-1))])]
      else if deg = 2 then
        match sqrtE (simplify (.add [.mul [coeffAt cs 1, coeffAt cs 1],
            .mul [.int (-4), coeffAt cs 2, coeffAt cs 0]])) with
        | none => .error .NoRealRoot
        | some r =>
            if r = .int 0 then
              .ok [simplify (.mul [.int (-1), coeffAt cs 1,
                .pow (.mul [.int 2, coeffAt cs 2]) (.int (-1))])]
            else
              .ok [simplify (.mul [.add [.mul [.int (-1), coeffAt cs 1], r],
                  .pow (.mul [.int 2, coeffAt cs 2]) (.int (-1))]),
                simplify (.mul [.add [.mul [.int (-1), coeffAt cs 1],
                    .mul [.int (-1), r]],
                  .pow (.mul [.int 2, coeffAt cs 2]) (.int (-1))])]
      else
        match denseQ cs deg with
        | none => .error .UnsolvedPolynomial
        | some qs => rrtSolve deg qs

end Expr

/-- An interpretation of the numeric domain used by `evalf` (the engine
uses hardware floats; the claims here are stated for any interpretation,
which includes the real-valued one). -/
structure NumModel (F : Type) where
  ofInt : Int → F
  ofRat : Int → Int → F
  add : F → F → F
  mul : F → F → F
  pow : F → F → F
  app : String → F → F

/-- A concrete exact-rational interpretation of the numeric domain, used to
instantiate the evaluation claims on concrete inputs. -/
def ratModel : NumModel ℚ where
  ofInt n := (n : ℚ)
  ofRat n d := Rat.divInt n d
  add a b := a + b
  mul a b := a * b
  pow a b := a * b
  app _ a := a

/-- An exact-rational interpretation of the leaves: a value for every
symbol and a (rational-valued) meaning for every function name.  The
simplifier-soundness claims hold for every such interpretation. -/
structure QAssign where
  symVal : String → ℚ
  funVal : String → ℚ → ℚ

/-- Exact power with a rational exponent: the integer power when the
exponent is integral, and 0 (an arbitrary junk value, outside the domain
of validity) otherwise. -/
def qpowE (a q : ℚ) : ℚ := if q.den = 1 then a ^ q.num else 0

mutual

/-- The exact value of an expression under an interpretation of the
leaves: sums, products and powers have their field meaning. -/
def eval (V : QAssign) : Expr → ℚ
  | .sym s => V.symVal s
  | .int n => (n : ℚ)
  | .rat n d => Rat.divInt n d
  | .add ts => (evalL V ts).sum
  | .mul fs => (evalL V fs).prod
  | .pow b e => qpowE (eval V b) (eval V e)
  | .func f a => V.funVal f (eval V a)

/-- `eval` over an operand list. -/
def evalL (V : QAssign) : List Expr → List ℚ
  | [] => []
  | e :: es => eval V e :: evalL V es

end

mutual

/-- The domain of validity of an expression under an interpretation:
every power has an integral exponent value, and a power with a negative
exponent value has a nonzero base value. -/
def wfE (V : QAssign) : Expr → Bool
  | .sym _ => true
  | .int _ => true
  | .rat _ _ => true
  | .add ts => wfL V ts
  | .mul fs => wfL V fs
  | .pow b e => wfE V b && wfE V e &&
      (decide ((eval V e).den = 1) &&
        (decide (eval V b ≠ 0) || decide (0 ≤ (eval V e).num)))
  | .func _ a => wfE V a

/-- `wfE` over an operand list. -/
def wfL (V : QAssign) : List Expr → Bool
  | [] => true
  | e :: es => wfE V e && wfL V es

end

namespace Expr

mutual

/-- Whether the expression contains no `Symbol` leaf at all. -/
def closedE : Expr → Bool
  | .sym _ => false
  | .int _ => true
  | .rat _ _ => true
  | .add ts => closedL ts
  | .mul fs => closedL fs
  | .pow b e => closedE b && closedE e
  | .func _ a => closedE a

/-- `closedE` over an operand list. -/
def closedL : List Expr → Bool
  | [] => true
  | e :: es => closedE e && closedL es

end

mutual

/-- Modelled from the spec (4.7): post-order numeric collapse — numeric
leaves convert to their value, `Function` nodes apply their interpretation,
arithmetic nodes combine numerically; a free `Symbol` fails with
`UnboundSymbol`. -/
def evalf {F : Type} (M : NumModel F) : Expr → Except Err F
  | .sym _ => .error .UnboundSymbol
  | .int n => .ok (M.ofInt n)
  | .rat n d => .ok (M.ofRat n d)
  | .add ts => do
      let vs ← evalfL M ts
      .ok (vs.foldl M.add (M.ofInt 0))
  | .mul fs => do
      let vs ← evalfL M fs
      .ok (vs.foldl M.mul (M.ofInt 1))
  | .pow b e => do
      let vb ← evalf M b
      let ve ← evalf M e
      .ok (M.pow vb ve)
  | .func f a => do
      let va ← evalf M a
      .ok (M.app f va)

/-- `evalf` over an operand list. -/
def evalfL {F : Type} (M : NumModel F) : List Expr → Except Err (List F)
  | [] => .ok []
  | e :: es => do
      let x ← evalf M e
      let xs ← evalfL M es
      .ok (x :: xs)

end

mutual

/-- The total post-order collapse (defined on every tree; on symbol-free
trees it is what `evalf` returns). -/
def collapse {F : Type} (M : NumModel F) : Expr → F
  | .sym _ => M.ofInt 0
  | .int n => M.ofInt n
  | .rat n d => M.ofRat n d
  | .add ts => (collapseL M ts).foldl M.add (M.ofInt 0)
  | .mul fs => (collapseL M fs).foldl M.mul (M.ofInt 1)
  | .pow b e => M.pow (collapse M b) (collapse M e)
  | .func f a => M.app f (collapse M a)

/-- `collapse` over an operand list. -/
def collapseL {F : Type} (M : NumModel F) : List Expr → List F
  | [] => []
  | e :: es => collapse M e :: collapseL M es

end

/-- Modelled from the spec (4.8): operator precedence, `Pow` > `Mul` >
`Add`, with atoms above all. -/
def prec : Expr → Nat
  | .add _ => 1
  | .mul _ => 2
  | .pow _ _ => 3
  | _ => 4

/-- Wrap a rendered child in LaTeX parentheses. -/
def par (s : String) : String := "\\left(" ++ s ++ "\\right)"

/-- Join rendered operands with a separator. -/
def joinSep (sep : String) : List String → String
  | [] => ""
  | [s] => s
  | s :: rest => s ++ sep ++ joinSep sep rest

/-- Render a rational literal as a LaTeX fraction. -/
def fracStr (n d : Int) : String :=
  "\\frac" ++ "\x7b" ++ Int.repr n ++ "\x7d" ++ "\x7b" ++ Int.repr d ++ "\x7d"

mutual

/-- Modelled from the spec (4.8): post-order LaTeX rendering.  A child is
parenthesized exactly when its precedence is lower than the parent's (lower
than or equal for a `Pow` base, the non-commutative position); products
render by juxtaposition (implicit multiplication, a single separator per
adjacent pair); `Rational` renders as a fraction; negative `Add` terms
render as subtraction rather than addition of a negative. -/
def to_latex : Expr → String
  | .sym s => s
  | .int n => Int.repr n
  | .rat n d => fracStr n d
  | .add [] => ""
  | .add (t :: ts) => to_latex t ++ latexRest ts
  | .mul fs => joinSep " " (latexL 2 fs)
  | .pow b e =>
      (if prec b ≤ 3 then par (to_latex b) else to_latex b) ++
        "^" ++ "\x7b" ++ to_latex e ++ "\x7d"
  | .func f a => "\\" ++ f ++ par (to_latex a)

/-- The remaining terms of a rendered sum (spec 4.8): a negative term — a
negative numeric literal, or a product whose leading numeric coefficient is
negative — is rendered by subtracting its negation, never as addition of a
negative; a coefficient of `-1` subtracts the bare remaining factors. -/
def latexRest : List Expr → String
  | [] => ""
  | t :: ts =>
      (match t with
      | .int n => if n < 0 then " - " ++ Int.repr (-n) else " + " ++ Int.repr n
      | .rat n d =>
          if n < 0 then " - " ++ fracStr (-n) d else " + " ++ fracStr n d
      | .mul (.int n :: fs) =>
          if n < 0 then
            " - " ++ (if n = -1 then joinSep " " (latexL 2 fs)
              else Int.repr (-n) ++ " " ++ joinSep " " (latexL 2 fs))
          else " + " ++ joinSep " " (latexL 2 (.int n :: fs))
      | .mul (.rat n d :: fs) =>
          if n < 0 then " - " ++ fracStr (-n) d ++ " " ++ joinSep " " (latexL 2 fs)
          else " + " ++ joinSep " " (latexL 2 (.rat n d :: fs))
      | u => " + " ++ to_latex u) ++ latexRest ts

/-- Render an operand list, parenthesizing children of lower precedence
than the parent. -/
def latexL (p : Nat) : List Expr → List String
  | [] => []
  | e :: es =>
      (if prec e < p then par (to_latex e) else to_latex e) :: latexL p es

end

/-- A character-wise string hash. -/
def hashStr (s : String) : Nat :=
  s.data.foldl (fun h c => h * 131 + c.toNat) 7

/-- An integer hash. -/
def hashInt : Int → Nat
  | .ofNat n => 2 * n
  | .negSucc n => 2 * n + 1

mutual

/-- Modelled from the spec (4.2): a structural hash of the tree, so that
structurally equal canonical trees hash identically. -/
def hashE : Expr → Nat
  | .sym s => 2 + 5 * hashStr s
  | .int n => 3 + 5 * hashInt n
  | .rat n d => 4 + 5 * (hashInt n + 31 * hashInt d)
  | .add ts => 5 + 5 * hashL ts
  | .mul fs => 6 + 5 * hashL fs
  | .pow b e => 7 + 5 * (hashE b + 31 * hashE e)
  | .func f a => 8 + 5 * (hashStr f + 31 * hashE a)

/-- `hashE` over an operand list. -/
def hashL : List Expr → Nat
  | [] => 1
  | e :: es => hashE e + 33 * hashL es

end

end Expr

namespace Expr

theorem canonList_iff {l : List Expr} :
    canonList l = true ↔ ∀ e ∈ l, canon e = true := by
  induction l with
  | nil => simp [canonList]
  | cons e es ih => simp [canonList, Bool.and_eq_true, ih]

theorem canon_add_iff {ts : List Expr} :
    canon (.add ts) = true ↔
      canonList ts = true ∧ 2 ≤ ts.length ∧
      (∀ t ∈ ts, t.isAdd = false) ∧
      (∀ t ∈ ts, (termSplit t).2 ≠ 0) ∧
      (∀ t ∈ ts, rebuildTerm (termSplit t).2 (termSplit t).1 = t) ∧
      (ts.map fun t => (termSplit t).1).Nodup ∧
      List.Sorted Expr.le ts := by
  simp [canon, Bool.and_eq_true, List.all_eq_true, decide_eq_true_eq,
    and_assoc]

theorem canon_mul_iff {fs : List Expr} :
    canon (.mul fs) = true ↔
      canonList fs = true ∧ 2 ≤ fs.length ∧
      (∀ f ∈ fs, f.isMul = false) ∧
      mulHead fs = true ∧ mulPair fs = true ∧
      (∀ f ∈ fs, f.isNum = false →
        simpPow (factorSplit f).1 (ofQ (factorSplit f).2) = f) ∧
      ((fs.filter fun f => ¬f.isNum).map fun f => (factorSplit f).1).Nodup ∧
      List.Sorted Expr.le fs := by
  simp only [canon, Bool.and_eq_true, List.all_eq_true, decide_eq_true_eq,
    Bool.not_eq_true', Bool.or_eq_true, and_assoc]
  constructor
  · rintro ⟨h1, h2, h3, h4, h5, h6, h7, h8⟩
    refine ⟨h1, h2, h3, h4, h5, ?_, h7, h8⟩
    intro f hf hnum
    rcases h6 f hf with h | h
    · rw [hnum] at h; cases h
    · exact h
  · rintro ⟨h1, h2, h3, h4, h5, h6, h7, h8⟩
    refine ⟨h1, h2, h3, h4, h5, ?_, h7, h8⟩
    intro f hf
    by_cases hn : f.isNum = true
    · exact Or.inl hn
    · exact Or.inr (h6 f hf (by simpa using hn))

theorem canon_pow_iff {b e : Expr} :
    canon (.pow b e) = true ↔
      canon b = true ∧ canon e = true ∧ simpPow b e = .pow b e := by
  simp [canon, Bool.and_eq_true, decide_eq_true_eq, and_assoc]

theorem toQ_int (n : Int) : (Expr.int n).toQ = (n : ℚ) := rfl

theorem ofQ_intCast (n : Int) : ofQ ((n : ℚ)) = .int n := by
  unfold ofQ
  rw [if_pos (Rat.den_intCast n)]
  rw [Rat.num_intCast]

theorem ofQ_zero : ofQ 0 = .int 0 := by
  have := ofQ_intCast 0
  simpa using this

theorem ofQ_one : ofQ 1 = .int 1 := by
  have := ofQ_intCast 1
  simpa using this

theorem ofQ_inj {p q : ℚ} (h : ofQ p = ofQ q) : p = q := by
  have := congrArg toQ h
  rwa [toQ_ofQ, toQ_ofQ] at this

theorem ofQ_eq_int_iff {q : ℚ} {n : Int} : ofQ q = .int n ↔ q = (n : ℚ) := by
  constructor
  · intro h
    rw [← ofQ_intCast n] at h
    exact ofQ_inj h
  · rintro rfl
    exact ofQ_intCast n

theorem canon_ofQ (q : ℚ) : canon (ofQ q) = true := by
  unfold ofQ
  split_ifs with h
  · rfl
  · show decide (ofQ (toQ (.rat q.num ((q.den : Int)))) = .rat q.num ((q.den : Int))) = true
    rw [decide_eq_true_eq]
    have ht : toQ (.rat q.num ((q.den : Int))) = q := q.num_divInt_den
    rw [ht]
    unfold ofQ
    rw [if_neg h]

theorem canon_num_fix {t : Expr} (hc : canon t = true) (hn : t.isNum = true) :
    ofQ t.toQ = t := by
  cases t <;> simp [isNum] at hn
  · rename_i n
    exact ofQ_intCast n
  · rename_i n d
    simpa [canon, decide_eq_true_eq] using hc

theorem isNum_toQ_ofQ {t : Expr} (hc : canon t = true) (hn : t.isNum = true)
    {q : ℚ} (h : t.toQ = q) : t = ofQ q := by
  rw [← h, canon_num_fix hc hn]

end Expr

theorem keyval_nil (c : Expr) : keyval [] c = 0 := rfl

theorem keyval_cons (p : Expr × ℚ) (ps : List (Expr × ℚ)) (c : Expr) :
    keyval (p :: ps) c = (if p.1 = c then p.2 else 0) + keyval ps c := by
  unfold keyval
  by_cases h : p.1 = c <;> simp [List.filter_cons, h]

theorem keyval_not_mem {ps : List (Expr × ℚ)} {c : Expr} (h : c ∉ keys ps) :
    keyval ps c = 0 := by
  unfold keyval
  rw [List.filter_eq_nil_iff.mpr ?_]
  · rfl
  · intro p hp
    simp only [decide_eq_true_eq]
    intro hc
    exact h (List.mem_map.mpr ⟨p, hp, hc⟩)

theorem keyval_of_mem_nodup :
    ∀ {ps : List (Expr × ℚ)}, (keys ps).Nodup → ∀ {c : Expr} {v : ℚ},
      (c, v) ∈ ps → keyval ps c = v := by
  intro ps
  induction ps with
  | nil => intro _ c v h; cases h
  | cons q ps ih =>
    intro hnd c v h
    have hnd' : (keys ps).Nodup := (List.nodup_cons.mp hnd).2
    have hq : q.1 ∉ keys ps := (List.nodup_cons.mp hnd).1
    rw [keyval_cons]
    rcases List.mem_cons.mp h with rfl | h
    · simp [keyval_not_mem hq]
    · have hne : q.1 ≠ c := by
        rintro rfl
        exact hq (List.mem_map.mpr ⟨(q.1, v), h, rfl⟩)
      rw [if_neg hne, ih hnd' h, zero_add]

theorem addPair_eq_append :
    ∀ {ps : List (Expr × ℚ)} {p : Expr × ℚ}, p.1 ∉ keys ps →
      addPair ps p = ps ++ [p] := by
  intro ps
  induction ps with
  | nil => intro p _; rfl
  | cons q ps ih =>
    intro p h
    have hne : ¬(q.1 = p.1) := by
      intro hq
      exact h (by simp [keys, hq.symm])
    rw [addPair, if_neg hne, ih (by simp [keys] at h ⊢; exact h.2)]
    rfl

theorem mem_keys_addPair {ps : List (Expr × ℚ)} {p : Expr × ℚ} {c : Expr} :
    c ∈ keys (addPair ps p) ↔ c ∈ keys ps ∨ c = p.1 := by
  induction ps with
  | nil => simp [addPair, keys, eq_comm]
  | cons q ps ih =>
    by_cases h : q.1 = p.1
    · simp only [addPair, if_pos h, keys, List.map_cons, List.mem_cons]
      constructor
      · rintro (rfl | hm)
        · exact Or.inl (Or.inl rfl)
        · exact Or.inl (Or.inr hm)
      · rintro ((rfl | hm) | rfl)
        · exact Or.inl rfl
        · exact Or.inr hm
        · exact Or.inl h.symm
    · simp only [addPair, if_neg h, keys, List.map_cons, List.mem_cons] at ih ⊢
      rw [ih]
      tauto

theorem nodup_keys_addPair {ps : List (Expr × ℚ)} {p : Expr × ℚ}
    (h : (keys ps).Nodup) : (keys (addPair ps p)).Nodup := by
  induction ps with
  | nil => simp [addPair, keys]
  | cons q ps ih =>
    simp only [keys, List.map_cons, List.nodup_cons] at h
    by_cases hq : q.1 = p.1
    · simp only [addPair, if_pos hq, keys, List.map_cons, List.nodup_cons]
      exact h
    · simp only [addPair, if_neg hq, keys, List.map_cons, List.nodup_cons]
      refine ⟨?_, ih h.2⟩
      intro hmem
      rcases mem_keys_addPair.mp hmem with hm | he
      · exact h.1 hm
      · exact hq he

theorem keyval_addPair (ps : List (Expr × ℚ)) (p : Expr × ℚ) (c : Expr) :
    keyval (addPair ps p) c = keyval ps c + (if p.1 = c then p.2 else 0) := by
  induction ps with
  | nil => rw [addPair, keyval_cons, keyval_nil]; ring
  | cons q ps ih =>
    by_cases hq : q.1 = p.1
    · rw [addPair, if_pos hq, keyval_cons, keyval_cons]
      by_cases hc : q.1 = c
      · rw [if_pos hc, if_pos hc, if_pos (hq ▸ hc), qadd_eq]
        ring
      · rw [if_neg hc, if_neg hc, if_neg (hq ▸ hc)]
        ring
    · rw [addPair, if_neg hq, keyval_cons, keyval_cons, ih]
      ring

theorem foldl_addPair_nodup (ps : List (Expr × ℚ)) :
    ∀ acc, (keys acc).Nodup → (keys (List.foldl addPair acc ps)).Nodup := by
  induction ps with
  | nil => intro acc h; exact h
  | cons p ps ih =>
    intro acc h
    exact ih (addPair acc p) (nodup_keys_addPair h)

theorem collect_keys_nodup (ps : List (Expr × ℚ)) :
    (keys (collect ps)).Nodup :=
  foldl_addPair_nodup ps [] (by simp [keys])

theorem foldl_addPair_keyval (ps : List (Expr × ℚ)) :
    ∀ acc c, keyval (List.foldl addPair acc ps) c = keyval acc c + keyval ps c := by
  induction ps with
  | nil => intro acc c; rw [keyval_nil, add_zero]; rfl
  | cons p ps ih =>
    intro acc c
    rw [List.foldl_cons, ih, keyval_addPair, keyval_cons]
    ring

theorem collect_keyval (ps : List (Expr × ℚ)) (c : Expr) :
    keyval (collect ps) c = keyval ps c := by
  rw [collect, foldl_addPair_keyval, keyval_nil, zero_add]

theorem mem_keys_foldl (ps : List (Expr × ℚ)) :
    ∀ acc c, c ∈ keys (List.foldl addPair acc ps) ↔ c ∈ keys acc ∨ c ∈ keys ps := by
  induction ps with
  | nil => intro acc c; simp [keys]
  | cons p ps ih =>
    intro acc c
    rw [List.foldl_cons, ih, mem_keys_addPair]
    simp [keys]
    tauto

theorem collect_mem_keys {ps : List (Expr × ℚ)} {c : Expr} :
    c ∈ keys (collect ps) ↔ c ∈ keys ps := by
  rw [collect, mem_keys_foldl]
  simp [keys]

theorem foldl_addPair_id (ps : List (Expr × ℚ)) :
    ∀ acc, (keys acc ++ keys ps).Nodup → List.foldl addPair acc ps = acc ++ ps := by
  induction ps with
  | nil => intro acc _; simp
  | cons p ps ih =>
    intro acc h
    have hp : p.1 ∉ keys acc := by
      have := List.disjoint_of_nodup_append h
      intro hm
      exact this hm (by simp [keys])
    rw [List.foldl_cons, addPair_eq_append hp, ih]
    · simp
    · simp only [keys, List.map_append, List.map_cons, List.map_nil] at h ⊢
      rw [List.append_assoc]
      simpa using h

theorem collect_id {ps : List (Expr × ℚ)} (h : (keys ps).Nodup) :
    collect ps = ps := by
  rw [collect, foldl_addPair_id]
  · rfl
  · simpa [keys] using h

theorem collect_entry {ps : List (Expr × ℚ)} {p : Expr × ℚ}
    (h : p ∈ collect ps) : p.2 = keyval ps p.1 ∧ p.1 ∈ keys ps := by
  constructor
  · rw [← collect_keyval]
    exact (keyval_of_mem_nodup (collect_keys_nodup ps) (by simpa using h)).symm
  · exact collect_mem_keys.mp (List.mem_map.mpr ⟨p, h, rfl⟩)

theorem perm_of_keyval {ps qs : List (Expr × ℚ)}
    (hp : (keys ps).Nodup) (hq : (keys qs).Nodup)
    (hzp : ∀ p ∈ ps, p.2 ≠ 0) (hzq : ∀ q ∈ qs, q.2 ≠ 0)
    (h : ∀ c, keyval ps c = keyval qs c) : ps.Perm qs := by
  rw [List.perm_ext_iff_of_nodup (hp.of_map _) (hq.of_map _)]
  rintro ⟨c, v⟩
  constructor
  · intro hm
    have hv : keyval ps c = v := keyval_of_mem_nodup hp hm
    have hv' : keyval qs c = v := by rw [← h]; exact hv
    have hvne : v ≠ 0 := hzp _ hm
    have hc : c ∈ keys qs := by
      by_contra hc
      rw [keyval_not_mem hc] at hv'
      exact hvne hv'.symm
    obtain ⟨q, hqs, hq1⟩ := List.mem_map.mp hc
    have : keyval qs q.1 = q.2 := keyval_of_mem_nodup hq (by
      obtain ⟨q1, q2⟩ := q
      exact hqs)
    rw [hq1] at this
    rw [this] at hv'
    have : q = (c, v) := by
      obtain ⟨q1, q2⟩ := q
      simp only at hq1 hv'
      rw [hq1, hv']
    rwa [this] at hqs
  · intro hm
    have hv : keyval qs c = v := keyval_of_mem_nodup hq hm
    have hv' : keyval ps c = v := by rw [h]; exact hv
    have hvne : v ≠ 0 := hzq _ hm
    have hc : c ∈ keys ps := by
      by_contra hc
      rw [keyval_not_mem hc] at hv'
      exact hvne hv'.symm
    obtain ⟨q, hqs, hq1⟩ := List.mem_map.mp hc
    have : keyval ps q.1 = q.2 := keyval_of_mem_nodup hp (by
      obtain ⟨q1, q2⟩ := q
      exact hqs)
    rw [hq1] at this
    rw [this] at hv'
    have : q = (c, v) := by
      obtain ⟨q1, q2⟩ := q
      simp only at hq1 hv'
      rw [hq1, hv']
    rwa [this] at hqs

theorem keyval_perm {ps qs : List (Expr × ℚ)} (h : ps.Perm qs) (c : Expr) :
    keyval ps c = keyval qs c := by
  unfold keyval
  exact ((h.filter _).map _).sum_eq

namespace Expr

theorem ofQ_not_add (q : ℚ) : (ofQ q).isAdd = false := by
  unfold ofQ
  split_ifs <;> rfl

theorem ofQ_not_mul (q : ℚ) : (ofQ q).isMul = false := by
  unfold ofQ
  split_ifs <;> rfl

theorem isNum_rank {a : Expr} (h : a.isNum = true) : a.rank = 0 := by
  cases a <;> simp_all [isNum, rank]

theorem not_isNum_rank {a : Expr} (h : a.isNum = false) : 1 ≤ a.rank := by
  cases a <;> simp_all [isNum, rank]

theorem num_lt_nonNum {a b : Expr} (ha : a.isNum = true) (hb : b.isNum = false) :
    cmpE a b = .lt := by
  apply cmpE_rank_lt
  rw [isNum_rank ha]
  exact not_isNum_rank hb

theorem le_of_cmpE_lt {a b : Expr} (h : cmpE a b = .lt) : Expr.le a b := by
  unfold Expr.le
  rw [h]
  simp

theorem toQ_ofQ_ne_int {q : ℚ} {n : Int} (h : q ≠ (n : ℚ)) : ofQ q ≠ .int n := by
  intro hc
  exact h (ofQ_eq_int_iff.mp hc)

/-- Reduction of `termSplit` at a product node. -/
theorem termSplit_mul_cons (c : Expr) (fs : List Expr) :
    termSplit (.mul (c :: fs)) =
      if c.isNum = true then (mulOf fs, c.toQ) else (.mul (c :: fs), 1) := rfl

/-- Round trip: splitting a rebuilt term recovers the key and coefficient. -/
theorem termSplit_rebuildTerm {q : ℚ} {c : Expr} (hq : q ≠ 0)
    (hc : goodCore c) : termSplit (rebuildTerm q c) = (c, q) := by
  unfold rebuildTerm
  rw [if_neg hq]
  rcases hc with rfl | ⟨hn, ha, hs⟩
  · rw [if_pos rfl]
    unfold ofQ
    split_ifs with hden
    · show ((Expr.int 1), ((q.num : ℚ))) = _
      have : ((q.num : ℚ)) = q := by
        conv_rhs => rw [← Rat.num_div_den q, hden]
        simp
      rw [this]
    · show ((Expr.int 1), Rat.divInt q.num ((q.den : Int))) = _
      rw [q.num_divInt_den]
  · have h1 : c ≠ .int 1 := by
      rintro rfl
      simp [isNum] at hn
    rw [if_neg h1]
    by_cases hq1 : q = 1
    · rw [if_pos hq1, hq1]
      match c, hn, ha, hs with
      | .mul [], _, _, hs => exact absurd hs not_false
      | .mul [f], _, _, hs => exact absurd hs not_false
      | .mul (f :: g :: fs), _, _, hs =>
        rw [termSplit_mul_cons, hs]
        simp
      | .sym s, _, _, _ => rfl
      | .int n, hn, _, _ => simp [isNum] at hn
      | .rat n d, hn, _, _ => simp [isNum] at hn
      | .add ts, _, ha, _ => simp [isAdd] at ha
      | .pow b e, _, _, _ => rfl
      | .func f a, _, _, _ => rfl
    · rw [if_neg hq1]
      match c, hn, ha, hs with
      | .mul [], _, _, hs => exact absurd hs not_false
      | .mul [f], _, _, hs => exact absurd hs not_false
      | .mul (f :: g :: fs), _, _, hs =>
        show termSplit (.mul (ofQ q :: f :: g :: fs)) = _
        rw [termSplit_mul_cons, if_pos (ofQ_isNum q), toQ_ofQ]
        rfl
      | .sym s, _, _, _ =>
        show termSplit (.mul [ofQ q, .sym s]) = _
        rw [termSplit_mul_cons, if_pos (ofQ_isNum q), toQ_ofQ]
        rfl
      | .int n, hn, _, _ => simp [isNum] at hn
      | .rat n d, hn, _, _ => simp [isNum] at hn
      | .add ts, _, ha, _ => simp [isAdd] at ha
      | .pow b e, _, _, _ =>
        show termSplit (.mul [ofQ q, .pow b e]) = _
        rw [termSplit_mul_cons, if_pos (ofQ_isNum q), toQ_ofQ]
        rfl
      | .func f a, _, _, _ =>
        show termSplit (.mul [ofQ q, .func f a]) = _
        rw [termSplit_mul_cons, if_pos (ofQ_isNum q), toQ_ofQ]
        rfl

theorem simpPow_one (b : Expr) : simpPow b (.int 1) = b := by
  unfold simpPow
  rw [if_neg (by decide : ¬((Expr.int 1) = .int 0)), if_pos rfl]

theorem factorSplit_pow (b e : Expr) :
    factorSplit (.pow b e) =
      if e.isNum = true ∧ ¬b.isMul = true then (b, e.toQ) else (.pow b e, 1) := rfl

theorem mulHead_cons_num {c : Expr} {rest : List Expr} (h : c.isNum = true) :
    mulHead (c :: rest) = true ↔
      (c.toQ ≠ 0 ∧ c.toQ ≠ 1) ∧ ∀ f ∈ rest, f.isNum = false := by
  simp [mulHead, h, List.all_eq_true, Bool.and_eq_true, decide_eq_true_eq,
    Bool.not_eq_true']

theorem mulHead_cons_nonnum {c : Expr} {rest : List Expr} (h : c.isNum = false) :
    mulHead (c :: rest) = true ↔ ∀ f ∈ c :: rest, f.isNum = false := by
  simp [mulHead, h, List.all_eq_true, Bool.not_eq_true']

theorem mulPair_pair (a b : Expr) : mulPair [a, b] = !(a.isNum && b.isAdd) := rfl

theorem mulPair_of_head_nonnum {g : Expr} (l : List Expr)
    (h : g.isNum = false) : mulPair (g :: l) = true := by
  match l with
  | [] => rfl
  | [b] => simp [mulPair_pair, h]
  | b :: c :: l => rfl

theorem mulPair_long (a b c : Expr) (l : List Expr) :
    mulPair (a :: b :: c :: l) = true := rfl

theorem sorted_num_cons {q : ℚ} {l : List Expr} (h : List.Sorted Expr.le l)
    (hl : ∀ f ∈ l, f.isNum = false) : List.Sorted Expr.le (ofQ q :: l) := by
  rw [List.sorted_cons]
  exact ⟨fun b hb => le_of_cmpE_lt (num_lt_nonNum (ofQ_isNum q) (hl b hb)), h⟩

/-- A canonical non-product non-numeric factor is fixed by splitting and
rebuilding through the power identities. -/
theorem factor_fix {c : Expr} (hc : canon c = true) (hm : c.isMul = false)
    (hn : c.isNum = false) :
    simpPow (factorSplit c).1 (ofQ (factorSplit c).2) = c := by
  cases c with
  | mul fs => simp [isMul] at hm
  | int n => simp [isNum] at hn
  | rat n d => simp [isNum] at hn
  | pow b e =>
    obtain ⟨hb, he, hf⟩ := canon_pow_iff.mp hc
    rw [factorSplit_pow]
    split_ifs with hcond
    · show simpPow b (ofQ e.toQ) = _
      rw [canon_num_fix he (by exact hcond.1)]
      exact hf
    · show simpPow (.pow b e) (ofQ 1) = _
      rw [ofQ_one, simpPow_one]
  | sym s => rw [show factorSplit (.sym s) = (.sym s, 1) from rfl, ofQ_one, simpPow_one]
  | add ts => rw [show factorSplit (.add ts) = (.add ts, 1) from rfl, ofQ_one, simpPow_one]
  | func f a =>
    rw [show factorSplit (.func f a) = (.func f a, 1) from rfl, ofQ_one, simpPow_one]

/-- Rebuilding a nonzero coefficient onto a good canonical core yields a
canonical non-sum term. -/
theorem rebuildTerm_canon {q : ℚ} {c : Expr} (hq : q ≠ 0) (hgc : goodCore c)
    (hcc : canon c = true) :
    canon (rebuildTerm q c) = true ∧ (rebuildTerm q c).isAdd = false := by
  unfold rebuildTerm
  rw [if_neg hq]
  rcases hgc with rfl | ⟨hn, ha, hs⟩
  · rw [if_pos rfl]
    exact ⟨canon_ofQ q, ofQ_not_add q⟩
  · have h1 : c ≠ .int 1 := by
      rintro rfl
      simp [isNum] at hn
    rw [if_neg h1]
    by_cases hq1 : q = 1
    · rw [if_pos hq1]
      exact ⟨hcc, ha⟩
    · rw [if_neg hq1]
      match c, hn, ha, hs with
      | .mul [], _, _, hs => exact absurd hs not_false
      | .mul [f], _, _, hs => exact absurd hs not_false
      | .mul (f :: g :: fs), hn, ha, hs =>
        refine ⟨?_, rfl⟩
        obtain ⟨hc1, hc2, hc3, hc4, hc5, hc6, hc7, hc8⟩ := canon_mul_iff.mp hcc
        have htail : ∀ x ∈ f :: g :: fs, x.isNum = false :=
          (mulHead_cons_nonnum hs).mp hc4
        rw [canon_mul_iff]
        refine ⟨?_, by simp, ?_, ?_, ?_, ?_, ?_, ?_⟩
        · rw [canonList_iff]
          intro e he
          rcases List.mem_cons.mp he with rfl | he
          · exact canon_ofQ q
          · exact canonList_iff.mp hc1 e he
        · intro x hx
          rcases List.mem_cons.mp hx with rfl | hx
          · exact ofQ_not_mul q
          · exact hc3 x hx
        · rw [mulHead_cons_num (ofQ_isNum q)]
          rw [toQ_ofQ]
          exact ⟨⟨hq, hq1⟩, htail⟩
        · exact mulPair_long _ _ _ _
        · intro x hx hxn
          rcases List.mem_cons.mp hx with rfl | hx
          · rw [ofQ_isNum q] at hxn; cases hxn
          · exact hc6 x hx hxn
        · have : ((ofQ q :: f :: g :: fs).filter fun x => ¬x.isNum) =
              ((f :: g :: fs).filter fun x => ¬x.isNum) := by
            rw [List.filter_cons]
            simp [ofQ_isNum q]
          rw [this]
          exact hc7
        · exact sorted_num_cons hc8 htail
      | .sym s, hn, ha, hs =>
        refine ⟨?_, rfl⟩
        rw [canon_mul_iff]
        refine ⟨?_, by simp, ?_, ?_, ?_, ?_, ?_, ?_⟩
        · rw [canonList_iff]
          intro e he
          rcases List.mem_cons.mp he with rfl | he
          · exact canon_ofQ q
          · simp at he
            rw [he]
            exact hcc
        · intro x hx
          rcases List.mem_cons.mp hx with rfl | hx
          · exact ofQ_not_mul q
          · simp at hx
            rw [hx]
            rfl
        · rw [mulHead_cons_num (ofQ_isNum q), toQ_ofQ]
          refine ⟨⟨hq, hq1⟩, ?_⟩
          intro f hf
          simp at hf
          rw [hf]
          exact hn
        · rw [mulPair_pair]
          simp [ofQ_isNum q, ha]
        · intro x hx hxn
          rcases List.mem_cons.mp hx with rfl | hx
          · rw [ofQ_isNum q] at hxn; cases hxn
          · simp at hx
            rw [hx]
            exact factor_fix hcc rfl hn
        · simp [List.filter_cons, ofQ_isNum q, hn]
        · refine sorted_num_cons (by simp) ?_
          intro f hf
          simp at hf
          rw [hf]
          exact hn
      | .int n, hn, _, _ => simp [isNum] at hn
      | .rat n d, hn, _, _ => simp [isNum] at hn
      | .add ts, _, ha, _ => simp [isAdd] at ha
      | .pow b e, hn, ha, hs =>
        refine ⟨?_, rfl⟩
        rw [canon_mul_iff]
        refine ⟨?_, by simp, ?_, ?_, ?_, ?_, ?_, ?_⟩
        · rw [canonList_iff]
          intro x hx
          rcases List.mem_cons.mp hx with rfl | hx
          · exact canon_ofQ q
          · simp at hx
            rw [hx]
            exact hcc
        · intro x hx
          rcases List.mem_cons.mp hx with rfl | hx
          · exact ofQ_not_mul q
          · simp at hx
            rw [hx]
            rfl
        · rw [mulHead_cons_num (ofQ_isNum q), toQ_ofQ]
          refine ⟨⟨hq, hq1⟩, ?_⟩
          intro f hf
          simp at hf
          rw [hf]
          exact hn
        · rw [mulPair_pair]
          simp [ofQ_isNum q, ha]
        · intro x hx hxn
          rcases List.mem_cons.mp hx with rfl | hx
          · rw [ofQ_isNum q] at hxn; cases hxn
          · simp at hx
            rw [hx]
            exact factor_fix hcc rfl hn
        · simp [List.filter_cons, ofQ_isNum q, hn]
        · refine sorted_num_cons (by simp) ?_
          intro f hf
          simp at hf
          rw [hf]
          exact hn
      | .func f a, hn, ha, hs =>
        refine ⟨?_, rfl⟩
        rw [canon_mul_iff]
        refine ⟨?_, by simp, ?_, ?_, ?_, ?_, ?_, ?_⟩
        · rw [canonList_iff]
          intro x hx
          rcases List.mem_cons.mp hx with rfl | hx
          · exact canon_ofQ q
          · simp at hx
            rw [hx]
            exact hcc
        · intro x hx
          rcases List.mem_cons.mp hx with rfl | hx
          · exact ofQ_not_mul q
          · simp at hx
            rw [hx]
            rfl
        · rw [mulHead_cons_num (ofQ_isNum q), toQ_ofQ]
          refine ⟨⟨hq, hq1⟩, ?_⟩
          intro x hx
          simp at hx
          rw [hx]
          exact hn
        · rw [mulPair_pair]
          simp [ofQ_isNum q, ha]
        · intro x hx hxn
          rcases List.mem_cons.mp hx with rfl | hx
          · rw [ofQ_isNum q] at hxn; cases hxn
          · simp at hx
            rw [hx]
            exact factor_fix hcc rfl hn
        · simp [List.filter_cons, ofQ_isNum q, hn]
        · refine sorted_num_cons (by simp) ?_
          intro x hx
          simp at hx
          rw [hx]
          exact hn

/-- Splitting a canonical non-sum term yields a good canonical core. -/
theorem termSplit_good {t : Expr} (hc : canon t = true) (ht : t.isAdd = false) :
    goodCore (termSplit t).1 ∧ canon (termSplit t).1 = true := by
  cases t with
  | int n => exact ⟨Or.inl rfl, rfl⟩
  | rat n d => exact ⟨Or.inl rfl, rfl⟩
  | sym s => exact ⟨Or.inr ⟨rfl, rfl, trivial⟩, hc⟩
  | add ts => simp [isAdd] at ht
  | pow b e => exact ⟨Or.inr ⟨rfl, rfl, trivial⟩, hc⟩
  | func f a => exact ⟨Or.inr ⟨rfl, rfl, trivial⟩, hc⟩
  | mul fs =>
    obtain ⟨hc1, hc2, hc3, hc4, hc5, hc6, hc7, hc8⟩ := canon_mul_iff.mp hc
    match fs, hc2 with
    | c :: g :: rest, _ =>
      rw [termSplit_mul_cons]
      by_cases hcn : c.isNum = true
      · rw [if_pos hcn]
        have htail := ((mulHead_cons_num hcn).mp hc4).2
        match rest with
        | [] =>
          show goodCore g ∧ canon g = true
          have hgm : g.isMul = false := hc3 g (by simp)
          have hgn : g.isNum = false := htail g (by simp)
          have hga : g.isAdd = false := by
            rw [mulPair_pair] at hc5
            simp [hcn] at hc5
            exact hc5
          refine ⟨Or.inr ⟨hgn, hga, ?_⟩, canonList_iff.mp hc1 g (by simp)⟩
          cases g <;> simp_all [isMul, coreShape]
        | h :: rest' =>
          show goodCore (.mul (g :: h :: rest')) ∧ _
          have hgn : g.isNum = false := htail g (by simp)
          constructor
          · exact Or.inr ⟨rfl, rfl, hgn⟩
          · show canon (.mul (g :: h :: rest')) = true
            rw [canon_mul_iff]
            refine ⟨?_, by simp, ?_, ?_, ?_, ?_, ?_, ?_⟩
            · rw [canonList_iff]
              intro x hx
              exact canonList_iff.mp hc1 x (by simp at hx ⊢; tauto)
            · intro x hx
              exact hc3 x (by simp at hx ⊢; tauto)
            · rw [mulHead_cons_nonnum hgn]
              intro x hx
              exact htail x hx
            · exact mulPair_of_head_nonnum _ hgn
            · intro x hx hxn
              exact hc6 x (by simp at hx ⊢; tauto) hxn
            · have : ((c :: g :: h :: rest').filter fun x => ¬x.isNum) =
                  ((g :: h :: rest').filter fun x => ¬x.isNum) := by
                rw [List.filter_cons]
                simp [hcn]
              rw [← this]
              exact hc7
            · exact hc8.of_cons
      · rw [if_neg hcn]
        have hcnb : c.isNum = false := by simpa using hcn
        exact ⟨Or.inr ⟨rfl, rfl, hcnb⟩, hc⟩

theorem flattenAdd_cons_nonadd {t : Expr} (rest : List Expr)
    (h : t.isAdd = false) : flattenAdd (t :: rest) = t :: flattenAdd rest := by
  match t, h with
  | .sym s, _ => rfl
  | .int n, _ => rfl
  | .rat n d, _ => rfl
  | .mul fs, _ => rfl
  | .pow b e, _ => rfl
  | .func f a, _ => rfl

theorem flattenAdd_cons_add (ts rest : List Expr) :
    flattenAdd (.add ts :: rest) = ts ++ flattenAdd rest := rfl

theorem flattenAdd_id :
    ∀ {l : List Expr}, (∀ x ∈ l, x.isAdd = false) → flattenAdd l = l := by
  intro l
  induction l with
  | nil => intro _; rfl
  | cons t rest ih =>
    intro h
    rw [flattenAdd_cons_nonadd rest (h t (by simp)),
      ih fun x hx => h x (by simp [hx])]

theorem flattenAdd_canon :
    ∀ {l : List Expr}, (∀ x ∈ l, canon x = true) →
      ∀ x ∈ flattenAdd l, canon x = true ∧ x.isAdd = false := by
  intro l
  induction l with
  | nil => intro _ x hx; cases hx
  | cons t rest ih =>
    intro h x hx
    have ht := h t (by simp)
    have hrest : ∀ y ∈ rest, canon y = true := fun y hy => h y (by simp [hy])
    by_cases hta : t.isAdd = true
    · match t, hta with
      | .add ts, _ =>
        rw [flattenAdd_cons_add] at hx
        rcases List.mem_append.mp hx with hx | hx
        · obtain ⟨c1, _, c3, _⟩ := canon_add_iff.mp ht
          exact ⟨canonList_iff.mp c1 x hx, c3 x hx⟩
        · exact ih hrest x hx
    · rw [flattenAdd_cons_nonadd rest (by simpa using hta)] at hx
      rcases List.mem_cons.mp hx with rfl | hx
      · exact ⟨ht, by simpa using hta⟩
      · exact ih hrest x hx

end Expr

theorem keyval_filter_nz (ps : List (Expr × ℚ)) (c : Expr) :
    keyval (ps.filter fun p => ¬(p.2 = 0)) c = keyval ps c := by
  induction ps with
  | nil => rfl
  | cons p ps ih =>
    rw [List.filter_cons]
    by_cases hz : p.2 = 0
    · rw [if_neg (by simp [hz]), ih, keyval_cons]
      by_cases hc : p.1 = c <;> simp [hc, hz]
    · rw [if_pos (by simp [hz]), keyval_cons, keyval_cons, ih]

theorem map_eq_self_of {α : Type _} {l : List α} {f : α → α}
    (h : ∀ x ∈ l, f x = x) : l.map f = l := by
  induction l with
  | nil => rfl
  | cons x xs ih =>
    rw [List.map_cons, h x (by simp), ih fun y hy => h y (by simp [hy])]

namespace Expr

theorem match_assembleAdd (l : List Expr) :
    (match l with
      | [] => (.int 0 : Expr)
      | [t] => t
      | l => .add l) = assembleAdd l := by
  cases l with
  | nil => rfl
  | cons t r => cases r with
    | nil => rfl
    | cons u r => rfl

theorem simplifyAdd_eq (xs : List Expr) :
    simplifyAdd xs =
      assembleAdd
        (List.insertionSort Expr.le (addTerms ((flattenAdd xs).map termSplit))) :=
  match_assembleAdd _

theorem addTerms_facts {ps : List (Expr × ℚ)}
    (h : ∀ p ∈ ps, goodCore p.1 ∧ canon p.1 = true) :
    (∀ u ∈ addTerms ps, canon u = true ∧ u.isAdd = false ∧
      (termSplit u).2 ≠ 0 ∧ rebuildTerm (termSplit u).2 (termSplit u).1 = u) ∧
    (addTerms ps).map (fun u => (termSplit u).1) =
      keys ((collect ps).filter fun p => ¬(p.2 = 0)) := by
  have hent : ∀ p ∈ (collect ps).filter (fun p => ¬(p.2 = 0)),
      goodCore p.1 ∧ canon p.1 = true ∧ p.2 ≠ 0 := by
    intro p hp
    have hmem : p ∈ collect ps := List.mem_of_mem_filter hp
    have hz : p.2 ≠ 0 := by
      have := List.of_mem_filter hp
      simpa using this
    obtain ⟨_, hk⟩ := collect_entry hmem
    obtain ⟨q, hq, hq1⟩ := List.mem_map.mp hk
    refine ⟨?_, ?_, hz⟩
    · rw [← hq1]; exact (h q hq).1
    · rw [← hq1]; exact (h q hq).2
  constructor
  · intro u hu
    obtain ⟨p, hp, hpu⟩ := List.mem_map.mp hu
    obtain ⟨hg, hcn, hz⟩ := hent p hp
    have hrt := termSplit_rebuildTerm hz hg
    have hcano := rebuildTerm_canon hz hg hcn
    rw [← hpu]
    refine ⟨hcano.1, hcano.2, ?_, ?_⟩
    · rw [hrt]; exact hz
    · rw [hrt]
  · unfold addTerms keys
    rw [List.map_map]
    apply List.map_congr_left
    intro p hp
    obtain ⟨hg, hcn, hz⟩ := hent p hp
    show (termSplit (rebuildTerm p.2 p.1)).1 = p.1
    rw [termSplit_rebuildTerm hz hg]

theorem assembleAdd_canon {l : List Expr}
    (hsort : List.Sorted Expr.le l)
    (hfacts : ∀ u ∈ l, canon u = true ∧ u.isAdd = false ∧
      (termSplit u).2 ≠ 0 ∧ rebuildTerm (termSplit u).2 (termSplit u).1 = u)
    (hnodup : (l.map fun u => (termSplit u).1).Nodup) :
    canon (assembleAdd l) = true := by
  match l with
  | [] => rfl
  | [t] => exact (hfacts t (by simp)).1
  | t₁ :: t₂ :: r =>
    show canon (.add (t₁ :: t₂ :: r)) = true
    rw [canon_add_iff]
    refine ⟨?_, by simp, ?_, ?_, ?_, hnodup, hsort⟩
    · rw [canonList_iff]
      exact fun u hu => (hfacts u hu).1
    · exact fun u hu => (hfacts u hu).2.1
    · exact fun u hu => (hfacts u hu).2.2.1
    · exact fun u hu => (hfacts u hu).2.2.2

/-- Canonicity of the `Add` pipeline on canonical operands. -/
theorem simplifyAdd_canon {xs : List Expr} (h : ∀ x ∈ xs, canon x = true) :
    canon (simplifyAdd xs) = true := by
  have hflat := flattenAdd_canon h
  have hsplit : ∀ p ∈ (flattenAdd xs).map termSplit,
      goodCore p.1 ∧ canon p.1 = true := by
    intro p hp
    obtain ⟨t, ht, hpt⟩ := List.mem_map.mp hp
    obtain ⟨hc, hna⟩ := hflat t ht
    rw [← hpt]
    exact termSplit_good hc hna
  obtain ⟨hterms, hcores⟩ := addTerms_facts hsplit
  rw [simplifyAdd_eq]
  have hperm : List.Perm
      (List.insertionSort Expr.le (addTerms ((flattenAdd xs).map termSplit)))
      (addTerms ((flattenAdd xs).map termSplit)) :=
    List.perm_insertionSort _ _
  apply assembleAdd_canon
  · exact List.sorted_insertionSort _ _
  · exact fun u hu => hterms u (hperm.mem_iff.mp hu)
  · refine (hperm.map fun u => (termSplit u).1).nodup_iff.mpr ?_
    rw [hcores]
    exact (List.Sublist.map _ (List.filter_sublist _)).nodup
      (collect_keys_nodup _)

/-- The `Add` pipeline is a fixed point on a canonical sum. -/
theorem simplifyAdd_fix {ts : List Expr} (h : canon (.add ts) = true) :
    simplifyAdd ts = .add ts := by
  obtain ⟨h1, h2, h3, h4, h5, h6, h7⟩ := canon_add_iff.mp h
  have hflat : flattenAdd ts = ts := flattenAdd_id h3
  have hkeys : (keys (ts.map termSplit)).Nodup := by
    unfold keys
    rw [List.map_map]
    exact h6
  have hcollect : collect (ts.map termSplit) = ts.map termSplit :=
    collect_id hkeys
  have hfilter : ((ts.map termSplit).filter fun p => ¬(p.2 = 0)) =
      ts.map termSplit := by
    rw [List.filter_eq_self]
    intro p hp
    obtain ⟨t, ht, hpt⟩ := List.mem_map.mp hp
    simp only [decide_eq_true_eq]
    rw [← hpt]
    exact h4 t ht
  have hmap : addTerms (ts.map termSplit) = ts := by
    unfold addTerms
    rw [hcollect, hfilter, List.map_map]
    exact map_eq_self_of fun t ht => h5 t ht
  rw [simplifyAdd_eq, hflat, hmap, h7.insertionSort_eq]
  match ts, h2 with
  | t₁ :: t₂ :: l, _ => rfl

/-- The `Add` pipeline output depends only on the collected content. -/
theorem simplifyAdd_content {xs ys : List Expr}
    (h : ∀ c, keyval ((flattenAdd xs).map termSplit) c =
      keyval ((flattenAdd ys).map termSplit) c) :
    simplifyAdd xs = simplifyAdd ys := by
  have hfp : (((collect ((flattenAdd xs).map termSplit)).filter
      fun p => ¬(p.2 = 0))).Perm
      ((collect ((flattenAdd ys).map termSplit)).filter fun p => ¬(p.2 = 0)) := by
    apply perm_of_keyval
    · exact (List.Sublist.map _ (List.filter_sublist _)).nodup
        (collect_keys_nodup _)
    · exact (List.Sublist.map _ (List.filter_sublist _)).nodup
        (collect_keys_nodup _)
    · intro p hp
      have := List.of_mem_filter hp
      simpa using this
    · intro p hp
      have := List.of_mem_filter hp
      simpa using this
    · intro c
      rw [keyval_filter_nz, keyval_filter_nz, collect_keyval, collect_keyval]
      exact h c
  have hterm : (addTerms ((flattenAdd xs).map termSplit)).Perm
      (addTerms ((flattenAdd ys).map termSplit)) := hfp.map _
  have hsort : List.insertionSort Expr.le
      (addTerms ((flattenAdd xs).map termSplit)) =
      List.insertionSort Expr.le (addTerms ((flattenAdd ys).map termSplit)) := by
    refine List.eq_of_perm_of_sorted ?_
      (List.sorted_insertionSort _ _) (List.sorted_insertionSort _ _)
    exact ((List.perm_insertionSort _ _).trans hterm).trans
      (List.perm_insertionSort _ _).symm
  rw [simplifyAdd_eq, simplifyAdd_eq, hsort]

theorem flattenMul_cons_nonmul {f : Expr} (rest : List Expr)
    (h : f.isMul = false) : flattenMul (f :: rest) = f :: flattenMul rest := by
  match f, h with
  | .sym s, _ => rfl
  | .int n, _ => rfl
  | .rat n d, _ => rfl
  | .add ts, _ => rfl
  | .pow b e, _ => rfl
  | .func g a, _ => rfl

theorem flattenMul_cons_mul (fs rest : List Expr) :
    flattenMul (.mul fs :: rest) = fs ++ flattenMul rest := rfl

theorem flattenMul_id :
    ∀ {l : List Expr}, (∀ x ∈ l, x.isMul = false) → flattenMul l = l := by
  intro l
  induction l with
  | nil => intro _; rfl
  | cons t rest ih =>
    intro h
    rw [flattenMul_cons_nonmul rest (h t (by simp)),
      ih fun x hx => h x (by simp [hx])]

theorem flattenMul_canon :
    ∀ {l : List Expr}, (∀ x ∈ l, canon x = true) →
      ∀ x ∈ flattenMul l, canon x = true ∧ x.isMul = false := by
  intro l
  induction l with
  | nil => intro _ x hx; cases hx
  | cons t rest ih =>
    intro h x hx
    have ht := h t (by simp)
    have hrest : ∀ y ∈ rest, canon y = true := fun y hy => h y (by simp [hy])
    by_cases htm : t.isMul = true
    · match t, htm with
      | .mul fs, _ =>
        rw [flattenMul_cons_mul] at hx
        rcases List.mem_append.mp hx with hx | hx
        · obtain ⟨c1, _, c3, _⟩ := canon_mul_iff.mp ht
          exact ⟨canonList_iff.mp c1 x hx, c3 x hx⟩
        · exact ih hrest x hx
    · rw [flattenMul_cons_nonmul rest (by simpa using htm)] at hx
      rcases List.mem_cons.mp hx with rfl | hx
      · exact ⟨ht, by simpa using htm⟩
      · exact ih hrest x hx

theorem flattenAdd_eq_flatMap (l : List Expr) :
    flattenAdd l = l.flatMap addParts := by
  induction l with
  | nil => rfl
  | cons t rest ih =>
    by_cases hta : t.isAdd = true
    · match t, hta with
      | .add ts, _ =>
        rw [flattenAdd_cons_add, List.flatMap_cons, ih]
        rfl
    · rw [flattenAdd_cons_nonadd rest (by simpa using hta), List.flatMap_cons, ih]
      match t, hta with
      | .sym s, _ => rfl
      | .int n, _ => rfl
      | .rat n d, _ => rfl
      | .mul fs, _ => rfl
      | .pow b e, _ => rfl
      | .func f a, _ => rfl

theorem flattenMul_eq_flatMap (l : List Expr) :
    flattenMul l = l.flatMap mulParts := by
  induction l with
  | nil => rfl
  | cons t rest ih =>
    by_cases htm : t.isMul = true
    · match t, htm with
      | .mul fs, _ =>
        rw [flattenMul_cons_mul, List.flatMap_cons, ih]
        rfl
    · rw [flattenMul_cons_nonmul rest (by simpa using htm), List.flatMap_cons, ih]
      match t, htm with
      | .sym s, _ => rfl
      | .int n, _ => rfl
      | .rat n d, _ => rfl
      | .add ts, _ => rfl
      | .pow b e, _ => rfl
      | .func f a, _ => rfl

theorem flattenAdd_perm {xs ys : List Expr} (h : xs.Perm ys) :
    (flattenAdd xs).Perm (flattenAdd ys) := by
  rw [flattenAdd_eq_flatMap, flattenAdd_eq_flatMap]
  exact h.flatMap_right addParts

theorem flattenMul_perm {xs ys : List Expr} (h : xs.Perm ys) :
    (flattenMul xs).Perm (flattenMul ys) := by
  rw [flattenMul_eq_flatMap, flattenMul_eq_flatMap]
  exact h.flatMap_right mulParts

theorem collect_key_entry {ps : List (Expr × ℚ)} {c : Expr} (h : c ∈ keys ps) :
    (c, keyval ps c) ∈ collect ps := by
  have hc : c ∈ keys (collect ps) := collect_mem_keys.mpr h
  obtain ⟨q, hq, hq1⟩ := List.mem_map.mp hc
  have h2 := (collect_entry hq).1
  have hqe : q = (c, keyval ps c) := by
    obtain ⟨q1, q2⟩ := q
    simp only at hq1 h2
    rw [hq1] at h2 ⊢
    rw [h2]
  rwa [hqe] at hq

theorem collect_mem_of_perm {ps qs : List (Expr × ℚ)} (h : ps.Perm qs)
    {p : Expr × ℚ} (hm : p ∈ collect ps) : p ∈ collect qs := by
  obtain ⟨hv, hk⟩ := collect_entry hm
  have hk2 : p.1 ∈ keys qs := by
    unfold keys at hk ⊢
    exact (h.map _).mem_iff.mp hk
  have hin := collect_key_entry hk2
  rw [← keyval_perm h p.1, ← hv] at hin
  obtain ⟨p1, p2⟩ := p
  exact hin

theorem collect_perm {ps qs : List (Expr × ℚ)} (h : ps.Perm qs) :
    (collect ps).Perm (collect qs) := by
  rw [List.perm_ext_iff_of_nodup ((collect_keys_nodup ps).of_map _)
    ((collect_keys_nodup qs).of_map _)]
  exact fun p => ⟨collect_mem_of_perm h, collect_mem_of_perm h.symm⟩

theorem mulCoeff_eq (l : List Expr) (init : ℚ) :
    mulCoeff l init = init * (l.map toQ).prod := by
  induction l generalizing init with
  | nil => simp [mulCoeff]
  | cons f fs ih =>
    show mulCoeff fs (qmul init f.toQ) = _
    rw [ih, qmul_eq, List.map_cons, List.prod_cons]
    ring

theorem mulCoeff_perm {l l' : List Expr} (h : l.Perm l') (init : ℚ) :
    mulCoeff l init = mulCoeff l' init := by
  rw [mulCoeff_eq, mulCoeff_eq, (h.map toQ).prod_eq]

theorem baseLe_refl (x : Expr) : baseLe x x := by
  cases x with
  | pow b e => exact Or.inl rfl
  | sym s => rfl
  | int n => rfl
  | rat n d => rfl
  | add ts => rfl
  | mul fs => rfl
  | func f a => rfl

theorem baseLe_pow {z b e : Expr} (h : baseLe z b) : baseLe z (.pow b e) :=
  Or.inr h

theorem baseLe_sizeOf : ∀ x {z : Expr}, baseLe z x → sizeOf z ≤ sizeOf x := by
  have H : ∀ n, ∀ x : Expr, sizeOf x ≤ n → ∀ {z : Expr},
      baseLe z x → sizeOf z ≤ sizeOf x := by
    intro n
    induction n using Nat.strong_induction_on with
    | _ n IH =>
    intro x hx z hz
    cases x with
    | pow b e =>
      have hsz : sizeOf (Expr.pow b e) = 1 + sizeOf b + sizeOf e := by simp
      rcases hz with rfl | hz
      · exact le_rfl
      · have := IH (sizeOf b) (by omega) b le_rfl hz
        omega
    | sym s => exact le_of_eq (congrArg sizeOf (show z = _ from hz))
    | int m => exact le_of_eq (congrArg sizeOf (show z = _ from hz))
    | rat m d => exact le_of_eq (congrArg sizeOf (show z = _ from hz))
    | add ts => exact le_of_eq (congrArg sizeOf (show z = _ from hz))
    | mul fs => exact le_of_eq (congrArg sizeOf (show z = _ from hz))
    | func f a => exact le_of_eq (congrArg sizeOf (show z = _ from hz))
  intro x z hz
  exact H (sizeOf x) x le_rfl hz

/-- The result of the power identities is numeric, an iterated base of the
input base, or a power of such a base — it is never a power whose base lies
strictly above the input base's chain. -/
theorem simpPow_shape : ∀ (b e : Expr),
    (simpPow b e).isNum = true ∨
      ∃ z, baseLe z b ∧ (simpPow b e = z ∨ ∃ y, simpPow b e = .pow z y) := by
  have H : ∀ n, ∀ b : Expr, sizeOf b ≤ n → ∀ e : Expr,
      (simpPow b e).isNum = true ∨
        ∃ z, baseLe z b ∧ (simpPow b e = z ∨ ∃ y, simpPow b e = .pow z y) := by
    intro n
    induction n using Nat.strong_induction_on with
    | _ n IH =>
    intro b hb e
    unfold simpPow
    split_ifs with h0 hb0 h1
    · exact Or.inr ⟨b, baseLe_refl b, Or.inr ⟨e, rfl⟩⟩
    · exact Or.inl rfl
    · exact Or.inr ⟨b, baseLe_refl b, Or.inl rfl⟩
    · split
      · split_ifs with hc
        · exact Or.inr ⟨_, baseLe_refl _, Or.inr ⟨_, rfl⟩⟩
        · exact Or.inl (ofQ_isNum _)
      · split_ifs with hc
        · exact Or.inr ⟨_, baseLe_refl _, Or.inr ⟨_, rfl⟩⟩
        · exact Or.inl (ofQ_isNum _)
      · rename_i b₂ e₂
        split_ifs with hc
        · have hsz : sizeOf (Expr.pow b₂ e₂) = 1 + sizeOf b₂ + sizeOf e₂ := by
            simp
          rcases IH (sizeOf b₂) (by omega) b₂ le_rfl (ofQ (qmul e₂.toQ e.toQ))
            with hnum | ⟨z, hz, hcase⟩
          · exact Or.inl hnum
          · exact Or.inr ⟨z, baseLe_pow hz, hcase⟩
        · exact Or.inr ⟨_, baseLe_refl _, Or.inr ⟨_, rfl⟩⟩
      · exact Or.inr ⟨_, baseLe_refl _, Or.inr ⟨_, rfl⟩⟩
  exact fun b e => H (sizeOf b) b le_rfl e

/-- A power whose base would itself collapse under the `(x^a)^b` identity
cannot be canonical when its own exponent is numeric. -/
theorem canon_pow_goodBase {b₂ e₂ e : Expr} (hen : e.isNum = true)
    (he2 : e₂.isNum = true) (hb2 : b₂.isMul = false)
    (hf : simpPow (.pow b₂ e₂) e = .pow (.pow b₂ e₂) e) : False := by
  by_cases h0 : e = .int 0
  · subst h0
    rw [show simpPow (.pow b₂ e₂) (.int 0) = .int 1 from by
      unfold simpPow
      rw [if_pos rfl, if_neg (by exact fun h => Expr.noConfusion h)]] at hf
    exact Expr.noConfusion hf
  · by_cases h1 : e = .int 1
    · subst h1
      rw [simpPow_one] at hf
      have hz2 := congrArg sizeOf hf
      simp at hz2
      omega
    · have hred : simpPow (.pow b₂ e₂) e =
          simpPow b₂ (ofQ (qmul e₂.toQ e.toQ)) := by
        conv_lhs => unfold simpPow
        rw [if_neg h0, if_neg h1]
        match e, hen with
        | .int n, _ =>
          show (if e₂.isNum ∧ (Expr.int n).isNum ∧ ¬b₂.isMul then _ else _) = _
          rw [if_pos ⟨he2, rfl, by simp [hb2]⟩]
        | .rat p q, _ =>
          show (if e₂.isNum ∧ (Expr.rat p q).isNum ∧ ¬b₂.isMul then _ else _) = _
          rw [if_pos ⟨he2, rfl, by simp [hb2]⟩]
      rw [hred] at hf
      rcases simpPow_shape b₂ (ofQ (qmul e₂.toQ e.toQ)) with hnum | ⟨z, hz, hcase⟩
      · rw [hf] at hnum
        simp [isNum] at hnum
      · have hzs := baseLe_sizeOf b₂ hz
        rcases hcase with heq | ⟨y, heq⟩
        · have hz2 := congrArg sizeOf (heq.symm.trans hf)
          simp at hz2
          omega
        · have hpp := heq.symm.trans hf
          injection hpp with hzb hye
          have hz2 := congrArg sizeOf hzb
          simp at hz2
          omega

/-- Splitting a canonical non-product non-numeric factor yields a good
canonical base. -/
theorem factorSplit_good {f : Expr} (hc : canon f = true) (hm : f.isMul = false)
    (hn : f.isNum = false) :
    goodBase (factorSplit f).1 ∧ canon (factorSplit f).1 = true := by
  cases f with
  | mul fs => simp [isMul] at hm
  | int n => simp [isNum] at hn
  | rat n d => simp [isNum] at hn
  | sym s => exact ⟨trivial, hc⟩
  | add ts => exact ⟨trivial, hc⟩
  | func g a => exact ⟨trivial, hc⟩
  | pow b e =>
    obtain ⟨hb, he, hf⟩ := canon_pow_iff.mp hc
    rw [factorSplit_pow]
    split_ifs with hcond
    · refine ⟨?_, hb⟩
      obtain ⟨hen, hbm⟩ := hcond
      cases b with
      | mul fs => exact absurd (show (Expr.mul fs).isMul = true from rfl) hbm
      | pow b₂ e₂ =>
        rintro ⟨he2, hb2⟩
        exact canon_pow_goodBase hen he2 (by simpa using hb2) hf
      | sym s => trivial
      | int m => trivial
      | rat p q => trivial
      | add ts => trivial
      | func g a => trivial
    · refine ⟨?_, hc⟩
      show ¬(e.isNum ∧ ¬b.isMul)
      exact fun hx => hcond ⟨hx.1, hx.2⟩

theorem goodBase_not_mul {b : Expr} (hgb : goodBase b) : b.isMul = false := by
  cases b with
  | mul fs => exact absurd hgb not_false
  | sym s => rfl
  | int n => rfl
  | rat n d => rfl
  | add ts => rfl
  | pow b₂ e₂ => rfl
  | func f a => rfl

theorem ofQ_shape (s : ℚ) :
    (∃ k : Int, ofQ s = .int k) ∨ ∃ a c : Int, ofQ s = .rat a c := by
  unfold ofQ
  split_ifs
  · exact Or.inl ⟨_, rfl⟩
  · exact Or.inr ⟨_, _, rfl⟩

theorem simpPow_int_int {m k : Int} (hk0 : k ≠ 0) (hk1 : k ≠ 1) :
    simpPow (.int m) (.int k) =
      if m = 0 ∧ k < 0 then .pow (.int m) (.int k) else ofQ (qzpow ((m : ℚ)) k) := by
  conv_lhs => unfold simpPow
  rw [if_neg (by simp [hk0]), if_neg (by simp [hk1])]

theorem simpPow_rat_int {p q k : Int} (hk0 : k ≠ 0) (hk1 : k ≠ 1) :
    simpPow (.rat p q) (.int k) =
      if Rat.divInt p q = 0 ∧ k < 0 then .pow (.rat p q) (.int k)
      else ofQ (qzpow (Rat.divInt p q) k) := by
  conv_lhs => unfold simpPow
  rw [if_neg (by simp [hk0]), if_neg (by simp [hk1])]

theorem simpPow_num_rat {b : Expr} {a c : Int} (hbn : b.isNum = true) :
    simpPow b (.rat a c) = .pow b (.rat a c) := by
  conv_lhs => unfold simpPow
  rw [if_neg (fun h => Expr.noConfusion h), if_neg (fun h => Expr.noConfusion h)]
  match b, hbn with
  | .int m, _ => rfl
  | .rat p q, _ => rfl

theorem simpPow_base_nonpow_stuck {b : Expr} (E : Expr) (hE0 : E ≠ .int 0)
    (hE1 : E ≠ .int 1) (hEn : E.isNum = true)
    (hb : match b with
      | .int _ => False | .rat _ _ => False | .pow _ _ => False
      | _ => True) :
    simpPow b E = .pow b E := by
  conv_lhs => unfold simpPow
  rw [if_neg hE0, if_neg hE1]
  match E, hEn, b, hb with
  | .int k, _, .sym t, _ => rfl
  | .int k, _, .add ts, _ => rfl
  | .int k, _, .mul gs, _ => rfl
  | .int k, _, .func f x, _ => rfl
  | .rat a c, _, .sym t, _ => rfl
  | .rat a c, _, .add ts, _ => rfl
  | .rat a c, _, .mul gs, _ => rfl
  | .rat a c, _, .func f x, _ => rfl

theorem simpPow_pow_stuck {b₂ e₂ : Expr} (E : Expr) (hE0 : E ≠ .int 0)
    (hE1 : E ≠ .int 1) (hEn : E.isNum = true)
    (hgb : ¬(e₂.isNum = true ∧ ¬(b₂.isMul = true))) :
    simpPow (.pow b₂ e₂) E = .pow (.pow b₂ e₂) E := by
  conv_lhs => unfold simpPow
  rw [if_neg hE0, if_neg hE1]
  match E, hEn with
  | .int k, _ =>
    show (if e₂.isNum ∧ (Expr.int k).isNum ∧ ¬b₂.isMul then _ else _) = _
    rw [if_neg (fun hx => hgb ⟨hx.1, hx.2.2⟩)]
  | .rat a c, _ =>
    show (if e₂.isNum ∧ (Expr.rat a c).isNum ∧ ¬b₂.isMul then _ else _) = _
    rw [if_neg (fun hx => hgb ⟨hx.1, hx.2.2⟩)]

/-- When the power identities leave a stripped-off factor as a literal
power of its base, all the canonical-factor facts follow. -/
theorem rebuildFactor_pow {b : Expr} {s : ℚ} (hb : canon b = true)
    (hgb : goodBase b) (hsp : simpPow b (ofQ s) = .pow b (ofQ s)) :
    (simpPow b (ofQ s)).isNum = false ∧ (simpPow b (ofQ s)).isMul = false ∧
      canon (simpPow b (ofQ s)) = true ∧
      factorSplit (simpPow b (ofQ s)) = (b, s) := by
  have hbm : b.isMul = false := goodBase_not_mul hgb
  rw [hsp]
  refine ⟨rfl, rfl, ?_, ?_⟩
  · rw [canon_pow_iff]
    exact ⟨hb, canon_ofQ s, hsp⟩
  · rw [factorSplit_pow, if_pos ⟨ofQ_isNum s, by simp [hbm]⟩, toQ_ofQ]

/-- Rebuilding a collected factor from a good canonical base and a numeric
exponent yields either a canonical numeric literal or a canonical
non-product factor that splits back to exactly that base and exponent. -/
theorem rebuildFactor {b : Expr} (s : ℚ) (hb : canon b = true)
    (hgb : goodBase b) :
    ((simpPow b (ofQ s)).isNum = true ∧ canon (simpPow b (ofQ s)) = true) ∨
    ((simpPow b (ofQ s)).isNum = false ∧ (simpPow b (ofQ s)).isMul = false ∧
      canon (simpPow b (ofQ s)) = true ∧
      factorSplit (simpPow b (ofQ s)) = (b, s)) := by
  by_cases hs0 : s = 0
  · subst hs0
    by_cases hb0 : b = .int 0
    · subst hb0
      exact Or.inr (rebuildFactor_pow hb hgb (by rw [ofQ_zero]; rfl))
    · left
      rw [ofQ_zero, show simpPow b (.int 0) = .int 1 from by
        unfold simpPow
        rw [if_pos rfl, if_neg hb0]]
      exact ⟨rfl, rfl⟩
  · by_cases hs1 : s = 1
    · subst hs1
      rw [ofQ_one, simpPow_one]
      by_cases hbn : b.isNum = true
      · exact Or.inl ⟨hbn, hb⟩
      · refine Or.inr ⟨by simpa using hbn, goodBase_not_mul hgb, hb, ?_⟩
        cases b with
        | mul fs => exact absurd hgb not_false
        | pow b₂ e₂ =>
          rw [factorSplit_pow, if_neg]
          intro hx
          exact hgb ⟨hx.1, by simpa using hx.2⟩
        | sym t => rfl
        | int n => simp [isNum] at hbn
        | rat n d => simp [isNum] at hbn
        | add ts => rfl
        | func f a => rfl
    · have hE0 : ofQ s ≠ .int 0 := by
        rw [Ne, ofQ_eq_int_iff]
        simpa using hs0
      have hE1 : ofQ s ≠ .int 1 := by
        rw [Ne, ofQ_eq_int_iff]
        simpa using hs1
      have hEn : (ofQ s).isNum = true := ofQ_isNum s
      cases b with
      | mul fs => exact absurd hgb not_false
      | sym t =>
        exact Or.inr (rebuildFactor_pow hb hgb
          (simpPow_base_nonpow_stuck _ hE0 hE1 hEn trivial))
      | add ts =>
        exact Or.inr (rebuildFactor_pow hb hgb
          (simpPow_base_nonpow_stuck _ hE0 hE1 hEn trivial))
      | func g a =>
        exact Or.inr (rebuildFactor_pow hb hgb
          (simpPow_base_nonpow_stuck _ hE0 hE1 hEn trivial))
      | pow b₂ e₂ =>
        refine Or.inr (rebuildFactor_pow hb hgb
          (simpPow_pow_stuck _ hE0 hE1 hEn ?_))
        intro hx
        exact hgb ⟨hx.1, hx.2⟩
      | int m =>
        rcases ofQ_shape s with ⟨k, hoe⟩ | ⟨a, c, hoe⟩
        · have hk0 : k ≠ 0 := fun h => hE0 (by rw [hoe, h])
          have hk1 : k ≠ 1 := fun h => hE1 (by rw [hoe, h])
          by_cases hcond : m = 0 ∧ k < 0
          · refine Or.inr (rebuildFactor_pow hb hgb ?_)
            rw [hoe, simpPow_int_int hk0 hk1, if_pos hcond]
          · left
            rw [hoe, simpPow_int_int hk0 hk1, if_neg hcond]
            exact ⟨ofQ_isNum _, canon_ofQ _⟩
        · refine Or.inr (rebuildFactor_pow hb hgb ?_)
          rw [hoe, simpPow_num_rat (show (Expr.int m).isNum = true from rfl)]
      | rat pn pd =>
        rcases ofQ_shape s with ⟨k, hoe⟩ | ⟨a, c, hoe⟩
        · have hk0 : k ≠ 0 := fun h => hE0 (by rw [hoe, h])
          have hk1 : k ≠ 1 := fun h => hE1 (by rw [hoe, h])
          by_cases hcond : Rat.divInt pn pd = 0 ∧ k < 0
          · refine Or.inr (rebuildFactor_pow hb hgb ?_)
            rw [hoe, simpPow_rat_int hk0 hk1, if_pos hcond]
          · left
            rw [hoe, simpPow_rat_int hk0 hk1, if_neg hcond]
            exact ⟨ofQ_isNum _, canon_ofQ _⟩
        · refine Or.inr (rebuildFactor_pow hb hgb ?_)
          rw [hoe, simpPow_num_rat (show (Expr.rat pn pd).isNum = true from rfl)]

theorem assembleMul_one_nil : assembleMul 1 [] = .int 1 := by
  unfold assembleMul
  rw [if_pos rfl]

theorem assembleMul_one_single (f : Expr) : assembleMul 1 [f] = f := by
  unfold assembleMul
  rw [if_pos rfl]

theorem assembleMul_of_one {l : List Expr} (h2 : 2 ≤ l.length) :
    assembleMul 1 l = .mul l := by
  unfold assembleMul
  rw [if_pos rfl]
  match l, h2 with
  | a :: b :: r, _ => rfl

theorem assembleMul_nil {q : ℚ} (h : q ≠ 1) : assembleMul q [] = ofQ q := by
  unfold assembleMul
  rw [if_neg h]

theorem assembleMul_single_nonadd {q : ℚ} {f : Expr} (h : q ≠ 1)
    (hf : f.isAdd = false) : assembleMul q [f] = .mul [ofQ q, f] := by
  unfold assembleMul
  rw [if_neg h]
  match f, hf with
  | .sym s, _ => rfl
  | .int n, _ => rfl
  | .rat n d, _ => rfl
  | .mul fs, _ => rfl
  | .pow b e, _ => rfl
  | .func g a, _ => rfl

theorem assembleMul_single_add {q : ℚ} (h : q ≠ 1) (ts : List Expr) :
    assembleMul q [.add ts] = distAdd q ts := by
  unfold assembleMul
  rw [if_neg h]

theorem assembleMul_long {q : ℚ} (h : q ≠ 1) (a b : Expr) (r : List Expr) :
    assembleMul q (a :: b :: r) = .mul (ofQ q :: a :: b :: r) := by
  unfold assembleMul
  rw [if_neg h]
  cases a <;> rfl

/-- Distributing a nonzero coefficient over a canonical sum yields a
canonical sum. -/
theorem distAdd_canon {q : ℚ} {ts : List Expr} (hq : q ≠ 0)
    (h : canon (.add ts) = true) : canon (distAdd q ts) = true := by
  obtain ⟨h1, h2, h3, h4, h5, h6, h7⟩ := canon_add_iff.mp h
  unfold distAdd
  set us := ts.map fun t => rebuildTerm (qmul q (termSplit t).2) (termSplit t).1
    with hus
  have hfacts : ∀ u ∈ us, canon u = true ∧ u.isAdd = false ∧
      (termSplit u).2 ≠ 0 ∧ rebuildTerm (termSplit u).2 (termSplit u).1 = u := by
    intro u hu
    obtain ⟨t, ht, htu⟩ := List.mem_map.mp hu
    have hct := canonList_iff.mp h1 t ht
    have hg := termSplit_good hct (h3 t ht)
    have hnz : qmul q (termSplit t).2 ≠ 0 := by
      rw [qmul_eq]
      exact mul_ne_zero hq (h4 t ht)
    have hrt := termSplit_rebuildTerm hnz hg.1
    have hcn := rebuildTerm_canon hnz hg.1 hg.2
    rw [← htu]
    exact ⟨hcn.1, hcn.2, by rw [hrt]; exact hnz, by rw [hrt]⟩
  have hcores : us.map (fun u => (termSplit u).1) =
      ts.map fun t => (termSplit t).1 := by
    rw [hus, List.map_map]
    apply List.map_congr_left
    intro t ht
    have hct := canonList_iff.mp h1 t ht
    have hg := termSplit_good hct (h3 t ht)
    have hnz : qmul q (termSplit t).2 ≠ 0 := by
      rw [qmul_eq]
      exact mul_ne_zero hq (h4 t ht)
    show (termSplit (rebuildTerm (qmul q (termSplit t).2) (termSplit t).1)).1 = _
    rw [termSplit_rebuildTerm hnz hg.1]
  have hperm : (List.insertionSort Expr.le us).Perm us :=
    List.perm_insertionSort _ _
  rw [canon_add_iff]
  refine ⟨?_, ?_, ?_, ?_, ?_, ?_, List.sorted_insertionSort _ _⟩
  · rw [canonList_iff]
    exact fun u hu => (hfacts u (hperm.mem_iff.mp hu)).1
  · rw [hperm.length_eq, hus, List.length_map]
    exact h2
  · exact fun u hu => (hfacts u (hperm.mem_iff.mp hu)).2.1
  · exact fun u hu => (hfacts u (hperm.mem_iff.mp hu)).2.2.1
  · exact fun u hu => (hfacts u (hperm.mem_iff.mp hu)).2.2.2
  · refine (hperm.map fun u => (termSplit u).1).nodup_iff.mpr ?_
    rw [hcores]
    exact h6

theorem simplifyMul_eq (xs : List Expr) :
    simplifyMul xs =
      if mulCoeff ((flattenMul xs).filter fun f => f.isNum) 1 = 0 then .int 0
      else if mulCoeff
          (((collect (((flattenMul xs).filter fun f => ¬f.isNum).map
              factorSplit)).map
            fun p => simpPow p.1 (ofQ p.2)).filter fun f => f.isNum)
          (mulCoeff ((flattenMul xs).filter fun f => f.isNum) 1) = 0 then .int 0
      else
        assembleMul
          (mulCoeff
            (((collect (((flattenMul xs).filter fun f => ¬f.isNum).map
                factorSplit)).map
              fun p => simpPow p.1 (ofQ p.2)).filter fun f => f.isNum)
            (mulCoeff ((flattenMul xs).filter fun f => f.isNum) 1))
          (List.insertionSort Expr.le
            (((collect (((flattenMul xs).filter fun f => ¬f.isNum).map
                factorSplit)).map
              fun p => simpPow p.1 (ofQ p.2)).filter fun f => ¬f.isNum)) := rfl

/-- Canonicity of the `Mul` pipeline on canonical operands. -/
theorem simplifyMul_canon {xs : List Expr} (h : ∀ x ∈ xs, canon x = true) :
    canon (simplifyMul xs) = true := by
  rw [simplifyMul_eq]
  set fs := flattenMul xs with hfs
  set q0 := mulCoeff (fs.filter fun f => f.isNum) 1 with hq0
  set os := fs.filter (fun f => ¬f.isNum) with hos
  set ps := os.map factorSplit with hps
  set rs := (collect ps).map (fun p => simpPow p.1 (ofQ p.2)) with hrs
  set q1 := mulCoeff (rs.filter fun f => f.isNum) q0 with hq1
  set ns := rs.filter (fun f => ¬f.isNum) with hns
  split_ifs with hz0 hz1
  · rfl
  · rfl
  have hflat := flattenMul_canon h
  have hosf : ∀ f ∈ os, canon f = true ∧ f.isMul = false ∧ f.isNum = false := by
    intro f hf
    rw [hos] at hf
    have h1 : f ∈ fs := List.mem_of_mem_filter hf
    have h3 : f.isNum = false := by simpa using List.of_mem_filter hf
    exact ⟨(hflat f h1).1, (hflat f h1).2, h3⟩
  have hkey : ∀ p ∈ collect ps, goodBase p.1 ∧ canon p.1 = true := by
    intro p hp
    have hk : p.1 ∈ ps.map fun pr => pr.1 := (collect_entry hp).2
    obtain ⟨pr, hpr, hpr1⟩ := List.mem_map.mp hk
    rw [hps] at hpr
    obtain ⟨f, hfo, hfp⟩ := List.mem_map.mp hpr
    obtain ⟨hc, hm, hn⟩ := hosf f hfo
    rw [← hpr1, ← hfp]
    exact factorSplit_good hc hm hn
  have hrsf : ∀ r ∈ rs, (r.isNum = true ∧ canon r = true) ∨
      (r.isNum = false ∧ r.isMul = false ∧ canon r = true ∧
        simpPow (factorSplit r).1 (ofQ (factorSplit r).2) = r) := by
    intro r hr
    rw [hrs] at hr
    obtain ⟨p, hp, hpr⟩ := List.mem_map.mp hr
    obtain ⟨hg, hcn⟩ := hkey p hp
    rcases rebuildFactor p.2 hcn hg with hl | ⟨a1, a2, a3, a4⟩
    · left
      rw [← hpr]
      exact hl
    · right
      rw [← hpr]
      refine ⟨a1, a2, a3, ?_⟩
      rw [a4]
  have hnsf : ∀ r ∈ ns, r.isNum = false ∧ r.isMul = false ∧ canon r = true ∧
      simpPow (factorSplit r).1 (ofQ (factorSplit r).2) = r := by
    intro r hr
    rw [hns] at hr
    have h1 : r ∈ rs := List.mem_of_mem_filter hr
    have h2 : r.isNum = false := by simpa using List.of_mem_filter hr
    rcases hrsf r h1 with ⟨hn, _⟩ | hright
    · rw [hn] at h2
      cases h2
    · exact hright
  have hnodup : (ns.map fun f => (factorSplit f).1).Nodup := by
    have hns2 : ns.map (fun f => (factorSplit f).1) =
        ((collect ps).filter
          fun p => ¬(simpPow p.1 (ofQ p.2)).isNum).map fun p => p.1 := by
      rw [hns, hrs, List.filter_map, List.map_map]
      apply List.map_congr_left
      intro p hp
      have hpc : p ∈ collect ps := List.mem_of_mem_filter hp
      have hpn : (simpPow p.1 (ofQ p.2)).isNum = false := by
        simpa using List.of_mem_filter hp
      obtain ⟨hg, hcn⟩ := hkey p hpc
      rcases rebuildFactor p.2 hcn hg with ⟨hnum, _⟩ | ⟨_, _, _, hsplit⟩
      · rw [hnum] at hpn
        cases hpn
      · show (factorSplit (simpPow p.1 (ofQ p.2))).1 = p.1
        rw [hsplit]
    rw [hns2]
    exact (List.Sublist.map _ (List.filter_sublist _)).nodup
      (collect_keys_nodup _)
  have hLp : (List.insertionSort Expr.le ns).Perm ns :=
    List.perm_insertionSort _ _
  have hLs : List.Sorted Expr.le (List.insertionSort Expr.le ns) :=
    List.sorted_insertionSort _ _
  have hLf : ∀ r ∈ List.insertionSort Expr.le ns,
      r.isNum = false ∧ r.isMul = false ∧ canon r = true ∧
        simpPow (factorSplit r).1 (ofQ (factorSplit r).2) = r :=
    fun r hr => hnsf r (hLp.mem_iff.mp hr)
  have hLnodup : ((List.insertionSort Expr.le ns).map
      fun f => (factorSplit f).1).Nodup :=
    (hLp.map _).nodup_iff.mpr hnodup
  set L := List.insertionSort Expr.le ns with hL
  by_cases hq1e : q1 = 1
  · rcases hsh : L with _ | ⟨f, M⟩
    · rw [hq1e, assembleMul_one_nil]
      rfl
    · rcases hM : M with _ | ⟨g, r⟩
      · rw [hq1e, assembleMul_one_single]
        exact (hLf f (by rw [hsh]; simp)).2.2.1
      · rw [hsh, hM] at hLf hLs hLnodup
        rw [hq1e, assembleMul_of_one (by simp)]
        have hall : ∀ u ∈ f :: g :: r, u.isNum = false :=
          fun u hu => (hLf u hu).1
        rw [canon_mul_iff]
        refine ⟨?_, by simp, ?_, ?_, ?_, ?_, ?_, hLs⟩
        · rw [canonList_iff]
          exact fun u hu => (hLf u hu).2.2.1
        · exact fun u hu => (hLf u hu).2.1
        · rw [mulHead_cons_nonnum (hall f (by simp))]
          exact hall
        · exact mulPair_of_head_nonnum _ (hall f (by simp))
        · exact fun u hu _ => (hLf u hu).2.2.2
        · rw [List.filter_eq_self.mpr fun u hu => by simpa using hall u hu]
          exact hLnodup
  · rcases hsh : L with _ | ⟨f, M⟩
    · rw [assembleMul_nil hq1e]
      exact canon_ofQ _
    · rcases hM : M with _ | ⟨g, r⟩
      · have hf := hLf f (by rw [hsh]; simp)
        by_cases hfa : f.isAdd = true
        · cases f with
          | add ts =>
            rw [assembleMul_single_add hq1e]
            exact distAdd_canon hz1 hf.2.2.1
          | sym t => simp [isAdd] at hfa
          | int n => simp [isAdd] at hfa
          | rat n d => simp [isAdd] at hfa
          | mul gs => simp [isAdd] at hfa
          | pow b e => simp [isAdd] at hfa
          | func g a => simp [isAdd] at hfa
        · rw [assembleMul_single_nonadd hq1e (by simpa using hfa)]
          have hfn : f.isNum = false := hf.1
          rw [canon_mul_iff]
          refine ⟨?_, by simp, ?_, ?_, ?_, ?_, ?_, ?_⟩
          · rw [canonList_iff]
            intro u hu
            rcases List.mem_cons.mp hu with rfl | hu
            · exact canon_ofQ _
            · simp at hu
              rw [hu]
              exact hf.2.2.1
          · intro u hu
            rcases List.mem_cons.mp hu with rfl | hu
            · exact ofQ_not_mul _
            · simp at hu
              rw [hu]
              exact hf.2.1
          · rw [mulHead_cons_num (ofQ_isNum q1), toQ_ofQ]
            refine ⟨⟨hz1, hq1e⟩, ?_⟩
            intro u hu
            simp at hu
            rw [hu]
            exact hfn
          · rw [mulPair_pair]
            simp [ofQ_isNum q1, (by simpa using hfa : f.isAdd = false)]
          · intro u hu hun
            rcases List.mem_cons.mp hu with rfl | hu
            · rw [ofQ_isNum q1] at hun
              cases hun
            · simp at hu
              rw [hu]
              exact hf.2.2.2
          · simp [List.filter_cons, ofQ_isNum q1, hfn]
          · refine sorted_num_cons (by simp) ?_
            intro u hu
            simp at hu
            rw [hu]
            exact hfn
      · rw [hsh, hM] at hLf hLs hLnodup
        rw [assembleMul_long hq1e]
        have hall : ∀ u ∈ f :: g :: r, u.isNum = false :=
          fun u hu => (hLf u hu).1
        rw [canon_mul_iff]
        refine ⟨?_, by simp, ?_, ?_, ?_, ?_, ?_, ?_⟩
        · rw [canonList_iff]
          intro u hu
          rcases List.mem_cons.mp hu with rfl | hu
          · exact canon_ofQ _
          · exact (hLf u hu).2.2.1
        · intro u hu
          rcases List.mem_cons.mp hu with rfl | hu
          · exact ofQ_not_mul _
          · exact (hLf u hu).2.1
        · rw [mulHead_cons_num (ofQ_isNum q1), toQ_ofQ]
          exact ⟨⟨hz1, hq1e⟩, hall⟩
        · exact mulPair_long _ _ _ _
        · intro u hu hun
          rcases List.mem_cons.mp hu with rfl | hu
          · rw [ofQ_isNum q1] at hun
            cases hun
          · exact (hLf u hu).2.2.2
        · have hfe : ((ofQ q1 :: f :: g :: r).filter fun u => ¬u.isNum) =
              (f :: g :: r).filter fun u => ¬u.isNum := by
            rw [List.filter_cons]
            simp [ofQ_isNum q1]
          rw [hfe,
            List.filter_eq_self.mpr fun u hu => by simpa using hall u hu]
          exact hLnodup
        · exact sorted_num_cons hLs hall

/-- The `Mul` pipeline is a fixed point on a canonical product. -/
theorem simplifyMul_fix {fs : List Expr} (h : canon (.mul fs) = true) :
    simplifyMul fs = .mul fs := by
  obtain ⟨h1, h2, h3, h4, h5, h6, h7, h8⟩ := canon_mul_iff.mp h
  rw [simplifyMul_eq, flattenMul_id h3]
  rcases fs with _ | ⟨c, rest⟩
  · simp at h2
  by_cases hcn : c.isNum = true
  · obtain ⟨⟨hc0, hc1⟩, htail⟩ := (mulHead_cons_num hcn).mp h4
    have hrestnum : (rest.filter fun f => f.isNum) = [] :=
      List.filter_eq_nil_iff.mpr fun a ha => by simp [htail a ha]
    have hfiltnum : ((c :: rest).filter fun f => f.isNum) = [c] := by
      rw [List.filter_cons, if_pos (by simp [hcn]), hrestnum]
    have hfiltos : ((c :: rest).filter fun f => ¬f.isNum) = rest := by
      rw [List.filter_cons, if_neg (by simp [hcn])]
      exact List.filter_eq_self.mpr fun a ha => by simp [htail a ha]
    have hq0c : mulCoeff [c] 1 = c.toQ := by
      rw [mulCoeff_eq]
      simp
    have h7' := h7
    rw [hfiltos] at h7'
    have hkeys : (keys (rest.map factorSplit)).Nodup := by
      show ((rest.map factorSplit).map fun p => p.1).Nodup
      rw [List.map_map]
      exact h7'
    have hrsid : (rest.map factorSplit).map
        (fun p => simpPow p.1 (ofQ p.2)) = rest := by
      rw [List.map_map]
      exact map_eq_self_of fun f hf =>
        h6 f (by simp [hf]) (htail f hf)
    have hrestos : (rest.filter fun f => ¬f.isNum) = rest :=
      List.filter_eq_self.mpr fun a ha => by simp [htail a ha]
    rw [hfiltnum, hq0c, hfiltos, if_neg hc0, collect_id hkeys, hrsid,
      hrestnum, show mulCoeff [] c.toQ = c.toQ from rfl, if_neg hc0, hrestos,
      (h8.of_cons).insertionSort_eq]
    have hcanc : canon c = true := canonList_iff.mp h1 c (by simp)
    rcases rest with _ | ⟨g, r2⟩
    · simp at h2
    rcases r2 with _ | ⟨g2, r3⟩
    · have hga : g.isAdd = false := by
        have h5' := h5
        rw [mulPair_pair] at h5'
        simpa [hcn] using h5'
      rw [assembleMul_single_nonadd hc1 hga, canon_num_fix hcanc hcn]
    · rw [assembleMul_long hc1, canon_num_fix hcanc hcn]
  · have hcnf : c.isNum = false := by simpa using hcn
    have hall : ∀ f ∈ c :: rest, f.isNum = false :=
      (mulHead_cons_nonnum hcnf).mp h4
    have hfiltnum : ((c :: rest).filter fun f => f.isNum) = [] :=
      List.filter_eq_nil_iff.mpr fun a ha => by simp [hall a ha]
    have hfiltos : ((c :: rest).filter fun f => ¬f.isNum) = c :: rest :=
      List.filter_eq_self.mpr fun a ha => by simp [hall a ha]
    have h7' := h7
    rw [hfiltos] at h7'
    have hkeys : (keys ((c :: rest).map factorSplit)).Nodup := by
      show (((c :: rest).map factorSplit).map fun p => p.1).Nodup
      rw [List.map_map]
      exact h7'
    have hrsid : ((c :: rest).map factorSplit).map
        (fun p => simpPow p.1 (ofQ p.2)) = c :: rest := by
      rw [List.map_map]
      exact map_eq_self_of fun f hf => h6 f hf (hall f hf)
    rw [hfiltnum, hfiltos, show mulCoeff [] 1 = (1 : ℚ) from rfl,
      if_neg one_ne_zero, collect_id hkeys, hrsid, hfiltnum,
      show mulCoeff [] 1 = (1 : ℚ) from rfl, if_neg one_ne_zero, hfiltos,
      h8.insertionSort_eq, assembleMul_of_one h2]

/-- The `Mul` pipeline output depends only on the multiset of flattened
factors. -/
theorem simplifyMul_perm {xs ys : List Expr}
    (hp : (flattenMul xs).Perm (flattenMul ys)) :
    simplifyMul xs = simplifyMul ys := by
  have hrs : (((collect (((flattenMul xs).filter fun f => ¬f.isNum).map
      factorSplit)).map fun p => simpPow p.1 (ofQ p.2))).Perm
      ((collect (((flattenMul ys).filter fun f => ¬f.isNum).map
        factorSplit)).map fun p => simpPow p.1 (ofQ p.2)) :=
    (collect_perm ((hp.filter _).map factorSplit)).map _
  have hq0 : mulCoeff ((flattenMul xs).filter fun f => f.isNum) 1 =
      mulCoeff ((flattenMul ys).filter fun f => f.isNum) 1 :=
    mulCoeff_perm (hp.filter _) 1
  have hsort : List.insertionSort Expr.le
      (((collect (((flattenMul xs).filter fun f => ¬f.isNum).map
        factorSplit)).map fun p => simpPow p.1 (ofQ p.2)).filter
        fun f => ¬f.isNum) =
      List.insertionSort Expr.le
      (((collect (((flattenMul ys).filter fun f => ¬f.isNum).map
        factorSplit)).map fun p => simpPow p.1 (ofQ p.2)).filter
        fun f => ¬f.isNum) := by
    refine List.eq_of_perm_of_sorted ?_
      (List.sorted_insertionSort _ _) (List.sorted_insertionSort _ _)
    exact ((List.perm_insertionSort _ _).trans (hrs.filter _)).trans
      (List.perm_insertionSort _ _).symm
  rw [simplifyMul_eq, simplifyMul_eq, hq0,
    mulCoeff_perm (hrs.filter _)
      (mulCoeff ((flattenMul ys).filter fun f => f.isNum) 1),
    hsort]

theorem simpPow_nonnum_exp (b : Expr) {e : Expr} (hen : e.isNum = false) :
    simpPow b e = .pow b e := by
  have h0 : e ≠ .int 0 := by
    rintro rfl
    cases hen
  have h1 : e ≠ .int 1 := by
    rintro rfl
    cases hen
  conv_lhs => unfold simpPow
  rw [if_neg h0, if_neg h1]
  cases b with
  | pow b₂ e₂ =>
    cases e with
    | int k => simp [isNum] at hen
    | rat a c => simp [isNum] at hen
    | sym t =>
      show (if e₂.isNum ∧ (Expr.sym t).isNum ∧ ¬b₂.isMul then _ else _) = _
      rw [if_neg fun hx => nomatch hx.2.1]
    | add ts =>
      show (if e₂.isNum ∧ (Expr.add ts).isNum ∧ ¬b₂.isMul then _ else _) = _
      rw [if_neg fun hx => nomatch hx.2.1]
    | mul gs =>
      show (if e₂.isNum ∧ (Expr.mul gs).isNum ∧ ¬b₂.isMul then _ else _) = _
      rw [if_neg fun hx => nomatch hx.2.1]
    | pow pb pe =>
      show (if e₂.isNum ∧ (Expr.pow pb pe).isNum ∧ ¬b₂.isMul then _ else _) = _
      rw [if_neg fun hx => nomatch hx.2.1]
    | func g a =>
      show (if e₂.isNum ∧ (Expr.func g a).isNum ∧ ¬b₂.isMul then _ else _) = _
      rw [if_neg fun hx => nomatch hx.2.1]
  | sym t => cases e <;> rfl
  | int m => cases e <;> first | rfl | simp [isNum] at hen
  | rat p q => cases e <;> first | rfl | simp [isNum] at hen
  | add ts => cases e <;> rfl
  | mul gs => cases e <;> rfl
  | func g a => cases e <;> rfl

/-- The power identities preserve canonicity: applied to canonical base and
exponent they produce a canonical expression. -/
theorem canon_simpPow : ∀ b e : Expr, canon b = true → canon e = true →
    canon (simpPow b e) = true := by
  have H : ∀ n, ∀ b : Expr, sizeOf b ≤ n → ∀ e : Expr,
      canon b = true → canon e = true → canon (simpPow b e) = true := by
    intro n
    induction n using Nat.strong_induction_on with
    | _ n IH =>
    intro b hb e hcb hce
    by_cases h0 : e = .int 0
    · subst h0
      by_cases hb0 : b = .int 0
      · subst hb0
        rw [show simpPow (.int 0) (.int 0) = .pow (.int 0) (.int 0) from rfl,
          canon_pow_iff]
        exact ⟨rfl, rfl, rfl⟩
      · rw [show simpPow b (.int 0) = .int 1 from by
          unfold simpPow
          rw [if_pos rfl, if_neg hb0]]
        rfl
    · by_cases h1 : e = .int 1
      · subst h1
        rw [simpPow_one]
        exact hcb
      · by_cases hen : e.isNum = true
        · cases b with
          | int m =>
            cases e with
            | int k =>
              have hk0 : k ≠ 0 := fun hh => h0 (by rw [hh])
              have hk1 : k ≠ 1 := fun hh => h1 (by rw [hh])
              rw [simpPow_int_int hk0 hk1]
              split_ifs with hcond
              · rw [canon_pow_iff]
                refine ⟨rfl, rfl, ?_⟩
                rw [simpPow_int_int hk0 hk1, if_pos hcond]
              · exact canon_ofQ _
            | rat a c =>
              have hst := simpPow_num_rat
                (show (Expr.int m).isNum = true from rfl) (a := a) (c := c)
              rw [hst, canon_pow_iff]
              exact ⟨rfl, hce, hst⟩
            | sym t => simp [isNum] at hen
            | add ts => simp [isNum] at hen
            | mul gs => simp [isNum] at hen
            | pow pb pe => simp [isNum] at hen
            | func g a2 => simp [isNum] at hen
          | rat p q =>
            cases e with
            | int k =>
              have hk0 : k ≠ 0 := fun hh => h0 (by rw [hh])
              have hk1 : k ≠ 1 := fun hh => h1 (by rw [hh])
              rw [simpPow_rat_int hk0 hk1]
              split_ifs with hcond
              · rw [canon_pow_iff]
                refine ⟨hcb, rfl, ?_⟩
                rw [simpPow_rat_int hk0 hk1, if_pos hcond]
              · exact canon_ofQ _
            | rat a c =>
              have hst := simpPow_num_rat
                (show (Expr.rat p q).isNum = true from rfl) (a := a) (c := c)
              rw [hst, canon_pow_iff]
              exact ⟨hcb, hce, hst⟩
            | sym t => simp [isNum] at hen
            | add ts => simp [isNum] at hen
            | mul gs => simp [isNum] at hen
            | pow pb pe => simp [isNum] at hen
            | func g a2 => simp [isNum] at hen
          | pow b₂ e₂ =>
            obtain ⟨hcb2, hce2, hfix⟩ := canon_pow_iff.mp hcb
            by_cases hcond : e₂.isNum = true ∧ ¬(b₂.isMul = true)
            · have hred : simpPow (.pow b₂ e₂) e =
                  simpPow b₂ (ofQ (qmul e₂.toQ e.toQ)) := by
                conv_lhs => unfold simpPow
                rw [if_neg h0, if_neg h1]
                match e, hen with
                | .int k, _ =>
                  show (if e₂.isNum ∧ (Expr.int k).isNum ∧ ¬b₂.isMul
                    then _ else _) = _
                  rw [if_pos ⟨hcond.1, rfl, hcond.2⟩]
                | .rat a c, _ =>
                  show (if e₂.isNum ∧ (Expr.rat a c).isNum ∧ ¬b₂.isMul
                    then _ else _) = _
                  rw [if_pos ⟨hcond.1, rfl, hcond.2⟩]
              rw [hred]
              have hsz : sizeOf (Expr.pow b₂ e₂) = 1 + sizeOf b₂ + sizeOf e₂ :=
                by simp
              exact IH (sizeOf b₂) (by omega) b₂ le_rfl _ hcb2 (canon_ofQ _)
            · have hstuck := simpPow_pow_stuck e h0 h1 hen fun hx =>
                hcond ⟨hx.1, hx.2⟩
              rw [hstuck, canon_pow_iff]
              exact ⟨hcb, hce, hstuck⟩
          | sym t =>
            have hst := simpPow_base_nonpow_stuck (b := .sym t) e h0 h1 hen
              trivial
            rw [hst, canon_pow_iff]
            exact ⟨hcb, hce, hst⟩
          | add ts =>
            have hst := simpPow_base_nonpow_stuck (b := .add ts) e h0 h1 hen
              trivial
            rw [hst, canon_pow_iff]
            exact ⟨hcb, hce, hst⟩
          | mul gs =>
            have hst := simpPow_base_nonpow_stuck (b := .mul gs) e h0 h1 hen
              trivial
            rw [hst, canon_pow_iff]
            exact ⟨hcb, hce, hst⟩
          | func g a2 =>
            have hst := simpPow_base_nonpow_stuck (b := .func g a2) e h0 h1 hen
              trivial
            rw [hst, canon_pow_iff]
            exact ⟨hcb, hce, hst⟩
        · have hst := simpPow_nonnum_exp b (by simpa using hen)
          rw [hst, canon_pow_iff]
          exact ⟨hcb, hce, hst⟩
  exact fun b e => H (sizeOf b) b le_rfl e

theorem simplifyList_eq_map : ∀ l : List Expr, simplifyList l = l.map simplify := by
  intro l
  induction l with
  | nil => rfl
  | cons e es ih => simp [simplifyList, ih]

/-- The simplifier always produces a canonical expression. -/
theorem canon_simplify : ∀ e : Expr, canon (simplify e) = true := by
  have H : ∀ n, ∀ e : Expr, sizeOf e ≤ n → canon (simplify e) = true := by
    intro n
    induction n using Nat.strong_induction_on with
    | _ n IH =>
    intro e he
    cases e with
    | sym s => rfl
    | int m => rfl
    | rat m d => exact canon_ofQ _
    | add ts =>
      have hsz : sizeOf (Expr.add ts) = 1 + sizeOf ts := by simp
      show canon (simplifyAdd (simplifyList ts)) = true
      rw [simplifyList_eq_map]
      apply simplifyAdd_canon
      intro x hx
      obtain ⟨t, ht, rfl⟩ := List.mem_map.mp hx
      exact IH (sizeOf t) (by have := sizeOf_mem_lt ht; omega) t le_rfl
    | mul fs =>
      have hsz : sizeOf (Expr.mul fs) = 1 + sizeOf fs := by simp
      show canon (simplifyMul (simplifyList fs)) = true
      rw [simplifyList_eq_map]
      apply simplifyMul_canon
      intro x hx
      obtain ⟨t, ht, rfl⟩ := List.mem_map.mp hx
      exact IH (sizeOf t) (by have := sizeOf_mem_lt ht; omega) t le_rfl
    | pow b e =>
      have hsz : sizeOf (Expr.pow b e) = 1 + sizeOf b + sizeOf e := by simp
      show canon (simpPow (simplify b) (simplify e)) = true
      exact canon_simpPow _ _ (IH (sizeOf b) (by omega) b le_rfl)
        (IH (sizeOf e) (by omega) e le_rfl)
    | func f a =>
      have hsz : sizeOf (Expr.func f a) = 1 + sizeOf f + sizeOf a := by simp
      show canon (Expr.func f (simplify a)) = true
      show canon (simplify a) = true
      exact IH (sizeOf a) (by omega) a le_rfl
  exact fun e => H (sizeOf e) e le_rfl

/-- The simplifier is the identity on canonical expressions. -/
theorem canon_fix : ∀ e : Expr, canon e = true → simplify e = e := by
  have H : ∀ n, ∀ e : Expr, sizeOf e ≤ n → canon e = true → simplify e = e := by
    intro n
    induction n using Nat.strong_induction_on with
    | _ n IH =>
    intro e he hc
    cases e with
    | sym s => rfl
    | int m => rfl
    | rat m d =>
      show ofQ (Rat.divInt m d) = .rat m d
      simpa [canon, decide_eq_true_eq] using hc
    | add ts =>
      have hsz : sizeOf (Expr.add ts) = 1 + sizeOf ts := by simp
      obtain ⟨h1, _, _, _, _, _, _⟩ := canon_add_iff.mp hc
      show simplifyAdd (simplifyList ts) = .add ts
      rw [simplifyList_eq_map,
        map_eq_self_of fun t ht => IH (sizeOf t)
          (by have := sizeOf_mem_lt ht; omega) t le_rfl
          (canonList_iff.mp h1 t ht)]
      exact simplifyAdd_fix hc
    | mul fs =>
      have hsz : sizeOf (Expr.mul fs) = 1 + sizeOf fs := by simp
      obtain ⟨h1, _, _, _, _, _, _, _⟩ := canon_mul_iff.mp hc
      show simplifyMul (simplifyList fs) = .mul fs
      rw [simplifyList_eq_map,
        map_eq_self_of fun t ht => IH (sizeOf t)
          (by have := sizeOf_mem_lt ht; omega) t le_rfl
          (canonList_iff.mp h1 t ht)]
      exact simplifyMul_fix hc
    | pow b e =>
      obtain ⟨hb, he2, hfix⟩ := canon_pow_iff.mp hc
      have hsz : sizeOf (Expr.pow b e) = 1 + sizeOf b + sizeOf e := by simp
      show simpPow (simplify b) (simplify e) = .pow b e
      rw [IH (sizeOf b) (by omega) b le_rfl hb,
        IH (sizeOf e) (by omega) e le_rfl he2]
      exact hfix
    | func f a =>
      have hsz : sizeOf (Expr.func f a) = 1 + sizeOf f + sizeOf a := by simp
      show Expr.func f (simplify a) = .func f a
      rw [IH (sizeOf a) (by omega) a le_rfl (by exact hc)]
  exact fun e => H (sizeOf e) e le_rfl

theorem rebuildTerm_one (t : Expr) : rebuildTerm 1 t = t := by
  unfold rebuildTerm
  rw [if_neg one_ne_zero]
  by_cases h : t = .int 1
  · rw [if_pos h, h, ofQ_one]
  · rw [if_neg h, if_pos rfl]

/-- A canonical non-sum term with nonzero coefficient splits and rebuilds
to itself. -/
theorem canon_term_rebuild {t : Expr} (h : canon t = true)
    (ha : t.isAdd = false) (hz : (termSplit t).2 ≠ 0) :
    rebuildTerm (termSplit t).2 (termSplit t).1 = t := by
  cases t with
  | add ts => simp [isAdd] at ha
  | int n =>
    show rebuildTerm ((n : Int) : ℚ) (.int 1) = .int n
    unfold rebuildTerm
    rw [if_neg (by exact hz), if_pos rfl, ofQ_intCast]
  | rat n d =>
    show rebuildTerm (Rat.divInt n d) (.int 1) = .rat n d
    unfold rebuildTerm
    rw [if_neg (by exact hz), if_pos rfl]
    simpa [canon, decide_eq_true_eq] using h
  | sym s => exact rebuildTerm_one _
  | pow b e => exact rebuildTerm_one _
  | func f a => exact rebuildTerm_one _
  | mul fs =>
    obtain ⟨h1, h2, h3, h4, h5, h6, h7, h8⟩ := canon_mul_iff.mp h
    match fs, h2 with
    | c :: g :: rest, _ =>
      rw [termSplit_mul_cons]
      by_cases hcn : c.isNum = true
      · obtain ⟨⟨hc0, hc1⟩, htail⟩ := (mulHead_cons_num hcn).mp h4
        rw [if_pos hcn]
        have hofq : ofQ c.toQ = c :=
          canon_num_fix (canonList_iff.mp h1 c (by simp)) hcn
        match rest with
        | [] =>
          show rebuildTerm c.toQ g = _
          unfold rebuildTerm
          rw [if_neg hc0,
            if_neg (by
              rintro rfl
              exact absurd (htail (.int 1) (by simp)) (by simp [isNum])),
            if_neg hc1]
          have hgm : g.isMul = false := h3 g (by simp)
          match g, hgm with
          | .sym s, _ => rw [hofq]
          | .int n, _ => rw [hofq]
          | .rat n d, _ => rw [hofq]
          | .add ts, _ => rw [hofq]
          | .pow b e, _ => rw [hofq]
          | .func f a, _ => rw [hofq]
        | h₂ :: rest2 =>
          show rebuildTerm c.toQ (.mul (g :: h₂ :: rest2)) = _
          unfold rebuildTerm
          rw [if_neg hc0, if_neg (by rintro hcon; cases hcon), if_neg hc1,
            hofq]
      · rw [if_neg hcn]
        exact rebuildTerm_one _

/-- Prepending a zero literal to a sum's operands does not change the
pipeline's output. -/
theorem simplifyAdd_zero_cons (l : List Expr) :
    simplifyAdd (.int 0 :: l) = simplifyAdd l := by
  apply simplifyAdd_content
  intro c
  rw [show flattenAdd (Expr.int 0 :: l) = Expr.int 0 :: flattenAdd l from rfl,
    List.map_cons, keyval_cons]
  show (if (Expr.int 1) = c then ((0 : Int) : ℚ) else 0) + keyval _ c
    = keyval _ c
  split_ifs with hh
  · rw [Int.cast_zero, zero_add]
  · rw [zero_add]

/-- The `Add` pipeline on one canonical operand returns it. -/
theorem simplifyAdd_single {t : Expr} (h : canon t = true) :
    simplifyAdd [t] = t := by
  by_cases ha : t.isAdd = true
  · match t, ha with
    | .add ts, _ =>
      have hf : flattenAdd [Expr.add ts] = ts := by
        rw [flattenAdd_cons_add,
          show flattenAdd ([] : List Expr) = [] from rfl, List.append_nil]
      obtain ⟨h1, _, h3, _, _, _, _⟩ := canon_add_iff.mp h
      have h2 := simplifyAdd_fix h
      rw [simplifyAdd_eq] at h2 ⊢
      rw [hf]
      rw [flattenAdd_id h3] at h2
      exact h2
  · have haf : t.isAdd = false := by simpa using ha
    have hf : flattenAdd [t] = [t] := by
      rw [flattenAdd_cons_nonadd _ haf]
      rfl
    rw [simplifyAdd_eq, hf]
    by_cases hz : (termSplit t).2 = 0
    · have ht0 : t = .int 0 := by
        cases t with
        | int n =>
          have h2 : ((n : Int) : ℚ) = 0 := hz
          have h3 : n = 0 := by exact_mod_cast h2
          rw [h3]
        | rat n d =>
          have hq : Rat.divInt n d = 0 := hz
          have hc : ofQ (toQ (.rat n d)) = .rat n d := by
            simpa [canon, decide_eq_true_eq] using h
          rw [show toQ (.rat n d) = Rat.divInt n d from rfl, hq, ofQ_zero] at hc
          cases hc
        | sym s => exact absurd hz one_ne_zero
        | add ts => simp [isAdd] at haf
        | pow b e => exact absurd hz one_ne_zero
        | func f a => exact absurd hz one_ne_zero
        | mul fs =>
          obtain ⟨h1, h2, h3, h4, _⟩ := canon_mul_iff.mp h
          match fs, h2 with
          | c :: g :: rest, _ =>
            rw [termSplit_mul_cons] at hz
            by_cases hcn : c.isNum = true
            · rw [if_pos hcn] at hz
              exact absurd hz ((mulHead_cons_num hcn).mp h4).1.1
            · rw [if_neg hcn] at hz
              exact absurd hz one_ne_zero
      subst ht0
      rfl
    · have hrt := canon_term_rebuild h haf hz
      show assembleAdd (List.insertionSort Expr.le
        (addTerms [termSplit t])) = t
      have hat : addTerms [termSplit t] = [t] := by
        unfold addTerms
        rw [show collect [termSplit t] = [termSplit t] from
          collect_id (by simp [keys])]
        rw [List.filter_cons, if_pos (by simpa using hz)]
        show List.map _ [termSplit t] = [t]
        rw [List.map_cons,
          show rebuildTerm (termSplit t).2 (termSplit t).1 = t from hrt]
        rfl
      rw [hat]
      rfl

theorem isNum_not_mul {f : Expr} (h : f.isNum = true) : f.isMul = false := by
  cases f <;> simp_all [isNum, isMul]

theorem isNum_not_add {f : Expr} (h : f.isNum = true) : f.isAdd = false := by
  cases f <;> simp_all [isNum, isAdd]

/-- The `Mul` pipeline on numeric operands folds them to one literal. -/
theorem simplifyMul_all_num {l : List Expr} (hl : ∀ f ∈ l, f.isNum = true) :
    simplifyMul l = ofQ ((l.map toQ)).prod := by
  rw [simplifyMul_eq, flattenMul_id fun f hf => isNum_not_mul (hl f hf)]
  have hf1 : (l.filter fun f => f.isNum) = l :=
    List.filter_eq_self.mpr fun a ha => by simp [hl a ha]
  have hf2 : (l.filter fun f => ¬f.isNum) = [] :=
    List.filter_eq_nil_iff.mpr fun a ha => by simp [hl a ha]
  rw [hf1, hf2, mulCoeff_eq, one_mul]
  show (if (l.map toQ).prod = 0 then Expr.int 0
    else if (l.map toQ).prod = 0 then Expr.int 0
    else assembleMul ((l.map toQ)).prod []) = _
  split_ifs with hz
  · rw [hz, ofQ_zero]
  · by_cases h1 : (l.map toQ).prod = 1
    · rw [h1, assembleMul_one_nil, ofQ_one]
    · rw [assembleMul_nil h1]

/-- The `Mul` pipeline on one canonical non-numeric atomic factor and a
bag of numeric literals multiplies the literals onto the factor. -/
theorem simplifyMul_coeff_factor {t : Expr} (l : List Expr)
    (hl : ∀ f ∈ l, f.isNum = true) (hc : canon t = true) (hn : t.isNum = false)
    (hm : t.isMul = false) (ha : t.isAdd = false) :
    simplifyMul (t :: l) =
      (if ((l.map toQ)).prod = 0 then .int 0
       else if ((l.map toQ)).prod = 1 then t
       else .mul [ofQ ((l.map toQ)).prod, t]) := by
  have hflat : flattenMul (t :: l) = t :: l := flattenMul_id (by
    intro x hx
    rcases List.mem_cons.mp hx with rfl | hx
    · exact hm
    · exact isNum_not_mul (hl x hx))
  rw [simplifyMul_eq, hflat]
  have hf1 : ((t :: l).filter fun f => f.isNum) = l := by
    rw [List.filter_cons, if_neg (by simp [hn])]
    exact List.filter_eq_self.mpr fun a ha2 => by simp [hl a ha2]
  have hf2 : ((t :: l).filter fun f => ¬f.isNum) = [t] := by
    rw [List.filter_cons, if_pos (by simp [hn]),
      List.filter_eq_nil_iff.mpr fun a ha2 => by simp [hl a ha2]]
  rw [hf1, hf2, mulCoeff_eq, one_mul]
  have hfix : simpPow (factorSplit t).1 (ofQ (factorSplit t).2) = t :=
    factor_fix hc hm hn
  have hrs : (((collect ([t].map factorSplit)).map
      fun p => simpPow p.1 (ofQ p.2))) = [t] := by
    rw [show collect ([t].map factorSplit) = [factorSplit t] from rfl,
      List.map_cons, hfix]
    rfl
  rw [hrs]
  have hg1 : ([t].filter fun f => f.isNum) = [] := by
    rw [List.filter_cons, if_neg (by simp [hn])]
    rfl
  have hg2 : ([t].filter fun f => ¬f.isNum) = [t] := by
    rw [List.filter_cons, if_pos (by simp [hn])]
    rfl
  rw [hg1, hg2]
  rw [show mulCoeff [] ((l.map toQ)).prod = ((l.map toQ)).prod from rfl]
  split_ifs with hz h1
  · rfl
  · rw [show List.insertionSort Expr.le [t] = [t] from rfl, h1,
      assembleMul_one_single]
  · rw [show List.insertionSort Expr.le [t] = [t] from rfl,
      assembleMul_single_nonadd h1 ha]

/-- The `Mul` pipeline on one canonical operand returns it. -/
theorem simplifyMul_single {t : Expr} (h : canon t = true) :
    simplifyMul [t] = t := by
  by_cases hm : t.isMul = true
  · match t, hm with
    | .mul fs, _ =>
      have hfl : flattenMul [Expr.mul fs] = fs := by
        rw [flattenMul_cons_mul,
          show flattenMul ([] : List Expr) = [] from rfl, List.append_nil]
      obtain ⟨_, _, h3, _⟩ := canon_mul_iff.mp h
      have h2 := simplifyMul_fix h
      rw [simplifyMul_eq] at h2 ⊢
      rw [hfl]
      rw [flattenMul_id h3] at h2
      exact h2
  · have hmf : t.isMul = false := by simpa using hm
    by_cases hn : t.isNum = true
    · rw [simplifyMul_all_num (by
        intro f hf
        rcases List.mem_cons.mp hf with rfl | hf
        · exact hn
        · cases hf)]
      rw [show ([t].map toQ).prod = t.toQ * 1 from rfl, mul_one]
      exact canon_num_fix h hn
    · have hnf : t.isNum = false := by simpa using hn
      by_cases hadd : t.isAdd = true
      · -- a lone canonical sum: the pipeline keeps it
        match t, hadd with
        | .add ts, _ =>
          rw [simplifyMul_eq,
            show flattenMul [Expr.add ts] = [Expr.add ts] from rfl]
          have hfix : simpPow (factorSplit (Expr.add ts)).1
              (ofQ (factorSplit (Expr.add ts)).2) = Expr.add ts :=
            factor_fix h hmf hnf
          rw [show ([Expr.add ts].filter fun f => f.isNum) = [] from rfl,
            show ([Expr.add ts].filter fun f => ¬f.isNum) = [Expr.add ts]
              from rfl,
            show mulCoeff [] 1 = (1 : ℚ) from rfl, if_neg one_ne_zero,
            show collect ([Expr.add ts].map factorSplit) =
              [factorSplit (Expr.add ts)] from rfl,
            List.map_cons, hfix]
          show (if (1 : ℚ) = 0 then Expr.int 0
            else assembleMul 1 (List.insertionSort Expr.le [Expr.add ts])) =
            Expr.add ts
          rw [if_neg one_ne_zero,
            show List.insertionSort Expr.le [Expr.add ts] = [Expr.add ts]
              from rfl, assembleMul_one_single]
      · have haf : t.isAdd = false := by simpa using hadd
        rw [simplifyMul_coeff_factor [] (by intro f hf; cases hf) h hnf hmf
          haf]
        rw [show (([] : List Expr).map toQ).prod = 1 from rfl]
        rw [if_neg one_ne_zero, if_pos rfl]

/-- A zero literal anywhere among the flattened factors collapses the
product to `Integer 0`. -/
theorem simplifyMul_zero_mem {xs : List Expr}
    (h : (Expr.int 0) ∈ flattenMul xs) : simplifyMul xs = .int 0 := by
  rw [simplifyMul_eq]
  have hq0 : mulCoeff ((flattenMul xs).filter fun f => f.isNum) 1 = 0 := by
    rw [mulCoeff_eq, one_mul]
    refine List.prod_eq_zero ?_
    refine List.mem_map.mpr ⟨.int 0, List.mem_filter.mpr ⟨h, rfl⟩, ?_⟩
    show ((0 : Int) : ℚ) = 0
    exact Int.cast_zero
  rw [hq0, if_pos rfl]

theorem simplify_add_node (l : List Expr) :
    simplify (.add l) = simplifyAdd (l.map simplify) := by
  show simplifyAdd (simplifyList l) = _
  rw [simplifyList_eq_map]

theorem simplify_mul_node (l : List Expr) :
    simplify (.mul l) = simplifyMul (l.map simplify) := by
  show simplifyMul (simplifyList l) = _
  rw [simplifyList_eq_map]

theorem simplify_pow_node (b e : Expr) :
    simplify (.pow b e) = simpPow (simplify b) (simplify e) := rfl

theorem simplify_func_node (f : String) (a : Expr) :
    simplify (.func f a) = .func f (simplify a) := rfl

theorem simplify_num {e : Expr} (h : e.isNum = true) :
    simplify e = ofQ e.toQ := by
  cases e with
  | int n => exact (ofQ_intCast n).symm
  | rat n d => rfl
  | sym s => simp [isNum] at h
  | add ts => simp [isNum] at h
  | mul fs => simp [isNum] at h
  | pow b e2 => simp [isNum] at h
  | func f a => simp [isNum] at h

theorem occurs_sym_self (v : String) : occurs v (.sym v) = true := by
  simp [occurs]

theorem occurs_num {v : String} {e : Expr} (h : e.isNum = true) :
    occurs v e = false := by
  cases e <;> simp_all [isNum, occurs]

theorem occurs_ofQ (v : String) (q : ℚ) : occurs v (ofQ q) = false :=
  occurs_num (ofQ_isNum q)

theorem occursList_mem {v : String} {l : List Expr} {e : Expr} (he : e ∈ l)
    (h : occurs v e = true) : occursList v l = true := by
  induction l with
  | nil => cases he
  | cons x xs ih =>
    rcases List.mem_cons.mp he with rfl | he2
    · simp [occursList, h]
    · simp [occursList, ih he2]

theorem diffRaw_not_occurs {v : String} {e : Expr} (h : occurs v e = false) :
    diffRaw v e = .ok (.int 0) := by
  unfold diffRaw
  rw [if_pos (by simp [h])]

theorem diffRaw_sym_self (v : String) : diffRaw v (.sym v) = .ok (.int 1) := by
  unfold diffRaw
  rw [if_neg (by simp [occurs_sym_self])]
  show Except.ok (if v = v then Expr.int 1 else .int 0) = _
  rw [if_pos rfl]

/-- Derivative of `c * var` for `c` constant in `var`. -/
theorem diffRaw_const_mul_var {v : String} {e : Expr}
    (h : occurs v e = false) :
    diffRaw v (.mul [e, .sym v]) =
      .ok (.add [.mul [.int 0, .sym v], .mul [e, .mul [.int 1]]]) := by
  unfold diffRaw
  rw [if_neg (by simp [occurs, occursList, occurs_sym_self, h])]
  show (do
    let ts ← prodRule v [e, .sym v]
    .ok (.add ts) : Except Err Expr) = _
  simp [prodRule, diffRaw_not_occurs h, diffRaw_sym_self]
  rfl

/-- Derivative of `C * var^m` for numeric-free `C` and constant `m`. -/
theorem diffRaw_coeff_pow {v : String} {C : Expr} {m : Int}
    (hC : occurs v C = false) :
    diffRaw v (.mul [C, .pow (.sym v) (.int m)]) =
      .ok (.add [.mul [.int 0, .pow (.sym v) (.int m)],
        .mul [C, .mul [.mul [.int m,
          .pow (.sym v) (.add [.int m, .int (-1)]), .int 1]]]]) := by
  have hpow : diffRaw v (.pow (.sym v) (.int m)) =
      .ok (.mul [.int m, .pow (.sym v) (.add [.int m, .int (-1)]),
        .int 1]) := by
    unfold diffRaw
    rw [if_neg (by simp [occurs, occurs_sym_self])]
    show (if occurs v (.int m) = true then _ else _) = _
    rw [if_neg (by simp [occurs])]
    simp [diffRaw_sym_self]
    rfl
  unfold diffRaw
  rw [if_neg (by simp [occurs, occursList, occurs_sym_self, hC])]
  show (do
    let ts ← prodRule v [C, .pow (.sym v) (.int m)]
    .ok (.add ts) : Except Err Expr) = _
  simp [prodRule, diffRaw_not_occurs hC, hpow]
  rfl

/-- Derivative of a recognized `Function` node by table and chain rule. -/
theorem diffRaw_func {v g : String} {a G da : Expr}
    (ho : occurs v a = true) (ht : fTable g a = some G)
    (hd : diffRaw v a = .ok da) :
    diffRaw v (.func g a) = .ok (.mul [G, da]) := by
  unfold diffRaw
  rw [if_neg (by simp [occurs, ho])]
  show (match fTable g a with
    | some G2 => do
        let da2 ← diffRaw v a
        Except.ok (Expr.mul [G2, da2])
    | none => Except.error Err.UnknownDerivative) = _
  rw [ht, hd]
  rfl

/-- Derivative of `C * F(a)` for numeric-free `C` and a recognized
function. -/
theorem diffRaw_coeff_func {v g : String} {C a G da : Expr}
    (hC : occurs v C = false) (ho : occurs v a = true)
    (ht : fTable g a = some G) (hd : diffRaw v a = .ok da) :
    diffRaw v (.mul [C, .func g a]) =
      .ok (.add [.mul [.int 0, .func g a], .mul [C, .mul [.mul [G, da]]]]) := by
  unfold diffRaw
  rw [if_neg (by simp [occurs, occursList, ho, hC])]
  show (do
    let ts ← prodRule v [C, .func g a]
    .ok (.add ts) : Except Err Expr) = _
  simp [prodRule, diffRaw_not_occurs hC, diffRaw_func ho ht hd]
  rfl

/-- A leading `Integer 1` factor is dropped by the pipeline. -/
theorem simplifyMul_one_cons (l : List Expr) :
    simplifyMul (.int 1 :: l) = simplifyMul l := by
  rw [simplifyMul_eq, simplifyMul_eq,
    show flattenMul (Expr.int 1 :: l) = Expr.int 1 :: flattenMul l from rfl,
    show ((Expr.int 1 :: flattenMul l).filter fun f => f.isNum) =
      Expr.int 1 :: ((flattenMul l).filter fun f => f.isNum) from by
        rw [List.filter_cons, if_pos (by rfl)],
    show ((Expr.int 1 :: flattenMul l).filter fun f => ¬f.isNum) =
      ((flattenMul l).filter fun f => ¬f.isNum) from by
        rw [List.filter_cons, if_neg (by simp [isNum])],
    show mulCoeff (Expr.int 1 :: ((flattenMul l).filter fun f => f.isNum)) 1 =
      mulCoeff ((flattenMul l).filter fun f => f.isNum) 1 from by
        rw [mulCoeff_eq, mulCoeff_eq, List.map_cons, List.prod_cons,
          show toQ (Expr.int 1) = ((1 : Int) : ℚ) from rfl]
        push_cast
        ring]

/-- Normal form of a product whose flattened factors are one canonical
atomic factor and a bag of numeric literals, in any order. -/
theorem simplifyMul_scaled {xs l : List Expr} {t : Expr}
    (hp : (flattenMul xs).Perm (t :: l)) (hl : ∀ f ∈ l, f.isNum = true)
    (hc : canon t = true) (hn : t.isNum = false) (hm : t.isMul = false)
    (ha : t.isAdd = false) :
    simplifyMul xs = scaled ((l.map toQ)).prod t := by
  have hid : flattenMul (t :: l) = t :: l := flattenMul_id (by
    intro x hx
    rcases List.mem_cons.mp hx with rfl | hx
    · exact hm
    · exact isNum_not_mul (hl x hx))
  have h1 : simplifyMul xs = simplifyMul (t :: l) := by
    apply simplifyMul_perm
    rw [hid]
    exact hp
  rw [h1, simplifyMul_coeff_factor l hl hc hn hm ha]
  rfl

/-- Normal form of a product whose flattened factors are all numeric. -/
theorem simplifyMul_perm_num {xs l : List Expr}
    (hp : (flattenMul xs).Perm l) (hl : ∀ f ∈ l, f.isNum = true) :
    simplifyMul xs = ofQ ((l.map toQ)).prod := by
  have hid : flattenMul l = l :=
    flattenMul_id fun x hx => isNum_not_mul (hl x hx)
  have h1 : simplifyMul xs = simplifyMul l := by
    apply simplifyMul_perm
    rw [hid]
    exact hp
  rw [h1, simplifyMul_all_num hl]

/-- Numeric literals sum exactly in the `Add` pipeline. -/
theorem simplifyAdd_int_int (a b : Int) :
    simplifyAdd [.int a, .int b] = ofQ ((a : ℚ) + (b : ℚ)) := by
  rw [simplifyAdd_eq,
    show flattenAdd [Expr.int a, Expr.int b] = [Expr.int a, Expr.int b]
      from rfl,
    show ([Expr.int a, Expr.int b].map termSplit) =
      [((Expr.int 1 : Expr), ((a : Int) : ℚ)), (.int 1, ((b : Int) : ℚ))]
      from rfl]
  unfold addTerms
  have hcol : collect [((Expr.int 1 : Expr), ((a : Int) : ℚ)),
      (.int 1, ((b : Int) : ℚ))] =
      [(Expr.int 1, qadd ((a : Int) : ℚ) ((b : Int) : ℚ))] := by
    show addPair (addPair []
      ((Expr.int 1 : Expr), ((a : Int) : ℚ))) (.int 1, ((b : Int) : ℚ)) = _
    rw [show addPair ([] : List (Expr × ℚ))
      ((Expr.int 1 : Expr), ((a : Int) : ℚ)) =
      [(Expr.int 1, ((a : Int) : ℚ))] from rfl]
    unfold addPair
    rw [if_pos rfl]
  rw [hcol, qadd_eq]
  by_cases hz : ((a : ℚ)) + (b : ℚ) = 0
  · rw [List.filter_cons, if_neg (by simp [hz])]
    rw [hz, ofQ_zero]
    rfl
  · rw [List.filter_cons, if_pos (by simp [hz])]
    show assembleAdd (List.insertionSort Expr.le
      [rebuildTerm ((a : ℚ) + (b : ℚ)) (.int 1)]) = _
    rw [show rebuildTerm ((a : ℚ) + (b : ℚ)) (.int 1) =
      ofQ ((a : ℚ) + (b : ℚ)) from by
        unfold rebuildTerm
        rw [if_neg hz, if_pos rfl]]
    rfl

theorem perm_rot3 {α : Type _} (a b t : α) : ([a, b, t] : List α).Perm [t, a, b] := by
  have h1 : ([a, b, t] : List α).Perm [a, t, b] :=
    List.Perm.cons a (List.Perm.swap t b [])
  have h2 : ([a, t, b] : List α).Perm [t, a, b] := List.Perm.swap t a [b]
  exact h1.trans h2

theorem simplifyMul_empty : simplifyMul [] = .int 1 := by
  rw [simplifyMul_all_num (by intro f hf; cases hf)]
  show ofQ ((([] : List Expr).map toQ)).prod = _
  rw [show (([] : List Expr).map toQ).prod = 1 from rfl, ofQ_one]

/-- A trailing `Integer 1` factor is dropped. -/
theorem simplifyMul_one_right {t : Expr} (h : canon t = true) :
    simplifyMul [t, .int 1] = t := by
  have hperm : (flattenMul [t, .int 1]).Perm (flattenMul [.int 1, t]) := by
    rw [flattenMul_eq_flatMap, flattenMul_eq_flatMap]
    show (mulParts t ++ (mulParts (.int 1) ++ [])).Perm
      (mulParts (.int 1) ++ (mulParts t ++ []))
    simp only [List.append_nil]
    exact List.perm_append_comm
  rw [simplifyMul_perm hperm, simplifyMul_one_cons, simplifyMul_single h]

theorem simplify_zero_add {t : Expr} (h : canon t = true) :
    simplifyAdd [.int 0, t] = t := by
  rw [simplifyAdd_zero_cons, simplifyAdd_single h]

/-- Multiplying a numeric literal onto a scaled atomic factor scales it. -/
theorem simplifyMul_ofQ_scaled {t : Expr} (q r : ℚ) (hc : canon t = true)
    (hn : t.isNum = false) (hm : t.isMul = false) (ha : t.isAdd = false) :
    simplifyMul [ofQ q, scaled r t] = scaled (q * r) t := by
  by_cases hr0 : r = 0
  · rw [hr0, show scaled 0 t = Expr.int 0 from by unfold scaled; rw [if_pos rfl]]
    rw [simplifyMul_all_num (by
      intro f hf
      rcases List.mem_cons.mp hf with rfl | hf
      · exact ofQ_isNum q
      · simp at hf
        rw [hf]
        rfl)]
    rw [show ([ofQ q, Expr.int 0].map toQ).prod =
      toQ (ofQ q) * (toQ (.int 0) * 1) from rfl, toQ_ofQ,
      show toQ (Expr.int 0) = ((0 : Int) : ℚ) from rfl]
    rw [show scaled (q * 0) t = Expr.int 0 from by
      unfold scaled
      rw [if_pos (by ring)]]
    rw [show q * (((0 : Int) : ℚ) * 1) = 0 from by push_cast; ring, ofQ_zero]
  · by_cases hr1 : r = 1
    · rw [hr1, show scaled 1 t = t from by
        unfold scaled
        rw [if_neg one_ne_zero, if_pos rfl]]
      have hperm : (flattenMul [ofQ q, t]).Perm (t :: [ofQ q]) := by
        rw [flattenMul_id (by
          intro x hx
          rcases List.mem_cons.mp hx with rfl | hx
          · exact ofQ_not_mul q
          · simp at hx
            rw [hx]
            exact hm)]
        exact List.Perm.swap t (ofQ q) []
      rw [simplifyMul_scaled hperm (by
        intro f hf
        simp at hf
        rw [hf]
        exact ofQ_isNum q) hc hn hm ha]
      show scaled (toQ (ofQ q) * 1) t = scaled (q * 1) t
      rw [toQ_ofQ]
    · rw [show scaled r t = Expr.mul [ofQ r, t] from by
        unfold scaled
        rw [if_neg hr0, if_neg hr1]]
      have hflat : flattenMul [ofQ q, .mul [ofQ r, t]] = [ofQ q, ofQ r, t] := by
        rw [flattenMul_cons_nonmul _ (ofQ_not_mul q), flattenMul_cons_mul]
        rfl
      have hperm : (flattenMul [ofQ q, .mul [ofQ r, t]]).Perm
          (t :: [ofQ q, ofQ r]) := by
        rw [hflat]
        exact perm_rot3 _ _ _
      rw [simplifyMul_scaled hperm (by
        intro f hf
        rcases List.mem_cons.mp hf with rfl | hf
        · exact ofQ_isNum q
        · simp at hf
          rw [hf]
          exact ofQ_isNum r) hc hn hm ha]
      show scaled (toQ (ofQ q) * (toQ (ofQ r) * 1)) t = _
      rw [toQ_ofQ, toQ_ofQ, mul_one]

/-- A scaled atomic factor is canonical. -/
theorem canon_scaled {t : Expr} (q : ℚ) (hc : canon t = true)
    (hn : t.isNum = false) (hm : t.isMul = false) (ha : t.isAdd = false) :
    canon (scaled q t) = true := by
  have heq : scaled q t = simplifyMul [t, ofQ q] := by
    rw [simplifyMul_coeff_factor [ofQ q] (by
      intro f hf
      simp at hf
      rw [hf]
      exact ofQ_isNum q) hc hn hm ha]
    show scaled q t = (if toQ (ofQ q) * 1 = 0 then Expr.int 0
      else if toQ (ofQ q) * 1 = 1 then t else .mul [ofQ (toQ (ofQ q) * 1), t])
    rw [toQ_ofQ, mul_one]
    rfl
  rw [heq]
  exact simplifyMul_canon (by
    intro x hx
    rcases List.mem_cons.mp hx with rfl | hx
    · exact hc
    · simp at hx
      rw [hx]
      exact canon_ofQ q)

theorem simplify_mul_one_node : simplify (.mul [.int 1]) = .int 1 := by
  rw [simplify_mul_node]
  show simplifyMul [Expr.int 1] = _
  rw [show ([Expr.int 1] : List Expr) = Expr.int 1 :: [] from rfl,
    simplifyMul_one_cons, simplifyMul_empty]

theorem simplify_mul_single_node (x : Expr) :
    simplify (.mul [x]) = simplify x := by
  rw [simplify_mul_node, List.map_cons, List.map_nil]
  exact simplifyMul_single (canon_simplify x)

theorem simplify_zero_head (x : Expr) :
    simplify (.mul [.int 0, x]) = .int 0 := by
  rw [simplify_mul_node, List.map_cons, List.map_cons, List.map_nil]
  show simplifyMul [Expr.int 0, simplify x] = _
  refine simplifyMul_zero_mem ?_
  show Expr.int 0 ∈ Expr.int 0 :: flattenMul [simplify x]
  exact List.mem_cons_self _ _

theorem simplify_const_through (e : Expr) :
    simplify (.mul [e, .mul [.int 1]]) = simplify e := by
  rw [simplify_mul_node, List.map_cons, List.map_cons, List.map_nil,
    show simplify (.mul [.int 1]) = .int 1 from simplify_mul_one_node]
  exact simplifyMul_one_right (canon_simplify e)

/-- Round trip for the constant rule: differentiating `e * var` recovers
`e`. -/
theorem int_correct_const {v : String} {e : Expr} (h : occurs v e = false) :
    diff v (.mul [e, .sym v]) = .ok (simplify e) := by
  unfold diff
  rw [diffRaw_const_mul_var h]
  show Except.ok (simplify (.add [.mul [.int 0, .sym v],
    .mul [e, .mul [.int 1]]])) = _
  rw [simplify_add_node, List.map_cons, List.map_cons, List.map_nil,
    simplify_zero_head, simplify_const_through,
    show simplifyAdd [Expr.int 0, simplify e] = simplify e from
      simplify_zero_add (canon_simplify e)]

theorem simpPow_sym_zero (v : String) :
    simpPow (.sym v) (.int 0) = .int 1 := by
  unfold simpPow
  rw [if_pos rfl, if_neg (fun h => Expr.noConfusion h)]

theorem canon_simpPow_sym_int (v : String) (n : Int) :
    canon (simpPow (.sym v) (.int n)) = true :=
  canon_simpPow _ _ rfl rfl

theorem simpPow_sym_int_shape (v : String) (n : Int) (h0 : n ≠ 0)
    (h1 : n ≠ 1) :
    simpPow (.sym v) (.int n) = .pow (.sym v) (.int n) :=
  simpPow_base_nonpow_stuck (b := .sym v) _ (by simp [h0]) (by simp [h1]) rfl
    trivial

theorem simpPow_sym_int_atomic (v : String) (n : Int) (h0 : n ≠ 0) :
    (simpPow (.sym v) (.int n)).isNum = false ∧
    (simpPow (.sym v) (.int n)).isMul = false ∧
    (simpPow (.sym v) (.int n)).isAdd = false := by
  by_cases h1 : n = 1
  · subst h1
    rw [simpPow_one]
    exact ⟨rfl, rfl, rfl⟩
  · rw [simpPow_sym_int_shape v n h0 h1]
    exact ⟨rfl, rfl, rfl⟩

/-- Round trip for the power rule: differentiating `1/(n+1) * var^(n+1)`
recovers `var^n` in simplified form. -/
theorem int_correct_pow {v : String} (n : Int) (hne : n ≠ -1) :
    diff v (.mul [.rat 1 (n + 1), .pow (.sym v) (.int (n + 1))]) =
      .ok (simpPow (.sym v) (.int n)) := by
  have hn1 : n + 1 ≠ 0 := fun h => hne (by omega)
  unfold diff
  rw [diffRaw_coeff_pow (by rfl)]
  show Except.ok (simplify (.add [.mul [.int 0, .pow (.sym v) (.int (n + 1))],
    .mul [.rat 1 (n + 1), .mul [.mul [.int (n + 1),
      .pow (.sym v) (.add [.int (n + 1), .int (-1)]), .int 1]]]])) = _
  rw [simplify_add_node, List.map_cons, List.map_cons, List.map_nil,
    simplify_zero_head]
  have hexp : simplify (.add [.int (n + 1), .int (-1)]) = .int n := by
    rw [simplify_add_node, List.map_cons, List.map_cons, List.map_nil,
      show simplify (Expr.int (n + 1)) = .int (n + 1) from rfl,
      show simplify (Expr.int (-1)) = .int (-1) from rfl,
      simplifyAdd_int_int,
      show ((n + 1 : Int) : ℚ) + ((-1 : Int) : ℚ) = ((n : Int) : ℚ) from by
        push_cast
        ring,
      ofQ_intCast]
  have hP : simplify (.pow (.sym v) (.add [.int (n + 1), .int (-1)])) =
      simpPow (.sym v) (.int n) := by
    rw [simplify_pow_node, show simplify (Expr.sym v) = .sym v from rfl, hexp]
  rw [simplify_mul_node, List.map_cons, List.map_cons, List.map_nil,
    show simplify (Expr.rat 1 (n + 1)) = ofQ (Rat.divInt 1 (n + 1)) from rfl,
    simplify_mul_single_node, simplify_mul_node, List.map_cons, List.map_cons,
    List.map_cons, List.map_nil,
    show simplify (Expr.int (n + 1)) = .int (n + 1) from rfl,
    show simplify (Expr.int 1) = .int 1 from rfl, hP]
  by_cases hn0 : n = 0
  · subst hn0
    rw [simpPow_sym_zero]
    rw [show simplifyMul [Expr.int (0 + 1), Expr.int 1, Expr.int 1] =
        ofQ 1 from by
      rw [simplifyMul_all_num (by
        intro f hf
        rcases List.mem_cons.mp hf with rfl | hf
        · rfl
        · rcases List.mem_cons.mp hf with rfl | hf
          · rfl
          · simp at hf
            rw [hf]
            rfl)]
      show ofQ (((0 + 1 : Int) : ℚ) * (((1 : Int) : ℚ) * (((1 : Int) : ℚ) * 1)))
        = _
      norm_num]
    rw [ofQ_one]
    rw [show simplifyMul [ofQ (Rat.divInt 1 (0 + 1)), Expr.int 1] = ofQ 1 from by
      rw [simplifyMul_all_num (by
        intro f hf
        rcases List.mem_cons.mp hf with rfl | hf
        · exact ofQ_isNum _
        · simp at hf
          rw [hf]
          rfl)]
      show ofQ (toQ (ofQ (Rat.divInt 1 (0 + 1))) * (((1 : Int) : ℚ) * 1)) = _
      rw [toQ_ofQ]
      norm_num]
    rw [ofQ_one]
    rw [simplify_zero_add (show canon (Expr.int 1) = true from rfl)]
  · obtain ⟨ha1, ha2, ha3⟩ := simpPow_sym_int_atomic v n hn0
    have hcP := canon_simpPow_sym_int v n
    rw [show simplifyMul [Expr.int (n + 1), simpPow (.sym v) (.int n),
        Expr.int 1] = scaled ((n + 1 : Int) : ℚ) (simpPow (.sym v) (.int n))
        from by
      have hperm : (flattenMul [Expr.int (n + 1), simpPow (.sym v) (.int n),
          .int 1]).Perm (simpPow (.sym v) (.int n) :: [.int (n + 1), .int 1]) := by
        rw [flattenMul_id (by
          intro x hx
          rcases List.mem_cons.mp hx with rfl | hx
          · rfl
          · rcases List.mem_cons.mp hx with rfl | hx
            · exact ha2
            · simp at hx
              rw [hx]
              rfl)]
        exact List.Perm.swap _ _ _
      rw [simplifyMul_scaled hperm (by
        intro f hf
        rcases List.mem_cons.mp hf with rfl | hf
        · rfl
        · simp at hf
          rw [hf]
          rfl) hcP ha1 ha2 ha3]
      show scaled (toQ (.int (n + 1)) * (toQ (.int 1) * 1)) _ = _
      rw [show toQ (Expr.int (n + 1)) * (toQ (.int 1) * 1) =
        ((n + 1 : Int) : ℚ) from by
          show ((n + 1 : Int) : ℚ) * (((1 : Int) : ℚ) * 1) = _
          push_cast
          ring]]
    rw [simplifyMul_ofQ_scaled _ _ hcP ha1 ha2 ha3,
      show Rat.divInt 1 (n + 1) * ((n + 1 : Int) : ℚ) = 1 from by
        rw [Rat.divInt_eq_div]
        push_cast
        exact one_div_mul_cancel (by exact_mod_cast hn1),
      show scaled 1 (simpPow (.sym v) (.int n)) = simpPow (.sym v) (.int n)
        from by
        unfold scaled
        rw [if_neg one_ne_zero, if_pos rfl]]
    rw [simplify_zero_add hcP]

/-- Round trip for the logarithm rule. -/
theorem int_correct_ln (v : String) :
    diff v (.func "ln" (.sym v)) = .ok (.pow (.sym v) (.int (-1))) := by
  unfold diff
  rw [diffRaw_func (occurs_sym_self v)
    (show fTable "ln" (.sym v) = some (.pow (.sym v) (.int (-1))) from rfl)
    (diffRaw_sym_self v)]
  show Except.ok (simplify (.mul [.pow (.sym v) (.int (-1)), .int 1])) = _
  have hp : simplify (.pow (.sym v) (.int (-1))) = .pow (.sym v) (.int (-1)) := by
    rw [simplify_pow_node]
    show simpPow (.sym v) (.int (-1)) = _
    exact simpPow_sym_int_shape v (-1) (by decide) (by decide)
  rw [simplify_mul_node, List.map_cons, List.map_cons, List.map_nil, hp,
    show simplify (Expr.int 1) = .int 1 from rfl]
  rw [simplifyMul_one_right (by
    rw [← hp]
    exact canon_simplify _)]

theorem linArg_occurs {v : String} {a : Expr} {k : ℚ}
    (h : linArg v a = some k) : occurs v a = true := by
  unfold linArg at h
  split at h
  · rename_i s
    split_ifs at h with hs
    subst hs
    exact occurs_sym_self _
  · rename_i c s
    split_ifs at h with hs
    obtain ⟨_, hsv, _⟩ := hs
    subst hsv
    simp [occurs, occursList, occurs_sym_self]
  · rename_i d s
    split_ifs at h with hs
    obtain ⟨_, hsv⟩ := hs
    subst hsv
    simp [occurs, occursList, occurs_sym_self]
  · rename_i d c s
    split_ifs at h with hs
    obtain ⟨_, _, hsv, _⟩ := hs
    subst hsv
    simp [occurs, occursList, occurs_sym_self]
  · cases h

theorem simplify_coeff_block {c : Expr} (hc : c.isNum = true) (v : String) :
    simplify (.add [.mul [.int 0, .sym v], .mul [c, .mul [.int 1]]]) =
      ofQ c.toQ := by
  rw [simplify_add_node, List.map_cons, List.map_cons, List.map_nil,
    simplify_zero_head, simplify_const_through, simplify_num hc,
    simplify_zero_add (canon_ofQ _)]

/-- The slope recognized by `linArg` is nonzero, and differentiating the
argument produces exactly that slope after simplification. -/
theorem linArg_diff {v : String} {a : Expr} {k : ℚ}
    (h : linArg v a = some k) :
    k ≠ 0 ∧ ∃ da, diffRaw v a = .ok da ∧ simplify da = ofQ k := by
  unfold linArg at h
  split at h
  · rename_i s
    split_ifs at h with hs
    subst hs
    obtain rfl : Rat.divInt 1 1 = k := by
      injection h
    refine ⟨by norm_num, .int 1, diffRaw_sym_self _, ?_⟩
    rw [show Rat.divInt 1 1 = 1 from by norm_num, ofQ_one]
    rfl
  · rename_i c s
    split_ifs at h with hs
    obtain ⟨hcn, hsv, hcz⟩ := hs
    subst hsv
    obtain rfl : c.toQ = k := by injection h
    refine ⟨hcz, _, diffRaw_const_mul_var (occurs_num hcn), ?_⟩
    exact simplify_coeff_block hcn s
  · rename_i d s
    split_ifs at h with hs
    obtain ⟨hd, hsv⟩ := hs
    subst hsv
    obtain rfl : Rat.divInt 1 1 = k := by injection h
    have hdf : occurs s d = false := by simpa using hd
    refine ⟨by norm_num, .add [.int 0, .int 1], ?_, ?_⟩
    · unfold diffRaw
      rw [if_neg (by simp [occurs, occursList, occurs_sym_self, hdf])]
      show (do
        let ds ← diffList s [d, .sym s]
        .ok (.add ds) : Except Err Expr) = _
      simp [diffList, diffRaw_not_occurs hdf, diffRaw_sym_self]
      rfl
    · rw [simplify_add_node, List.map_cons, List.map_cons, List.map_nil,
        show simplify (Expr.int 0) = .int 0 from rfl,
        show simplify (Expr.int 1) = .int 1 from rfl,
        simplify_zero_add (show canon (Expr.int 1) = true from rfl),
        show Rat.divInt 1 1 = 1 from by norm_num, ofQ_one]
  · rename_i d c s
    split_ifs at h with hs
    obtain ⟨hd, hcn, hsv, hcz⟩ := hs
    subst hsv
    obtain rfl : c.toQ = k := by injection h
    have hdf : occurs s d = false := by simpa using hd
    refine ⟨hcz, .add [.int 0, .add [.mul [.int 0, .sym s],
      .mul [c, .mul [.int 1]]]], ?_, ?_⟩
    · unfold diffRaw
      rw [if_neg (by simp [occurs, occursList, occurs_sym_self, hdf])]
      show (do
        let ds ← diffList s [d, .mul [c, .sym s]]
        .ok (.add ds) : Except Err Expr) = _
      simp [diffList, diffRaw_not_occurs hdf,
        diffRaw_const_mul_var (occurs_num hcn)]
      rfl
    · rw [simplify_add_node, List.map_cons, List.map_cons, List.map_nil,
        show simplify (Expr.int 0) = .int 0 from rfl,
        simplify_coeff_block hcn,
        simplify_zero_add (canon_ofQ _)]
  · cases h

theorem scaled_one (t : Expr) : scaled 1 t = t := by
  unfold scaled
  rw [if_neg one_ne_zero, if_pos rfl]

theorem simplifyMul_factor_ofQ {t : Expr} (q : ℚ) (hc : canon t = true)
    (hn : t.isNum = false) (hm : t.isMul = false) (ha : t.isAdd = false) :
    simplifyMul [t, ofQ q] = scaled q t := by
  rw [simplifyMul_coeff_factor [ofQ q] (by
    intro f hf
    simp at hf
    rw [hf]
    exact ofQ_isNum q) hc hn hm ha]
  show (if toQ (ofQ q) * 1 = 0 then Expr.int 0
    else if toQ (ofQ q) * 1 = 1 then t else .mul [ofQ (toQ (ofQ q) * 1), t]) = _
  rw [toQ_ofQ, mul_one]
  rfl

/-- Round trip for the exponential rule. -/
theorem int_correct_exp {v : String} {a : Expr} {k : ℚ}
    (h : linArg v a = some k) :
    diff v (.mul [ofQ (qinv k), .func "exp" a]) =
      .ok (.func "exp" (simplify a)) := by
  obtain ⟨hk, da, hda, hsda⟩ := linArg_diff h
  unfold diff
  rw [diffRaw_coeff_func (occurs_ofQ v _) (linArg_occurs h)
    (show fTable "exp" a = some (.func "exp" a) from rfl) hda]
  show Except.ok (simplify (.add [.mul [.int 0, .func "exp" a],
    .mul [ofQ (qinv k), .mul [.mul [.func "exp" a, da]]]])) = _
  rw [simplify_add_node, List.map_cons, List.map_cons, List.map_nil,
    simplify_zero_head, simplify_mul_node, List.map_cons, List.map_cons,
    List.map_nil,
    show simplify (ofQ (qinv k)) = ofQ (qinv k) from canon_fix _ (canon_ofQ _),
    simplify_mul_single_node, simplify_mul_node, List.map_cons, List.map_cons,
    List.map_nil, simplify_func_node, hsda]
  have hct : canon (Expr.func "exp" (simplify a)) = true := by
    show canon (simplify a) = true
    exact canon_simplify a
  rw [simplifyMul_factor_ofQ k hct rfl rfl rfl,
    simplifyMul_ofQ_scaled (qinv k) k hct rfl rfl rfl,
    show qinv k * k = 1 from by
      rw [qinv_eq]
      exact inv_mul_cancel₀ hk,
    scaled_one, simplify_zero_add hct]

/-- Round trip for the cosine rule. -/
theorem int_correct_cos {v : String} {a : Expr} {k : ℚ}
    (h : linArg v a = some k) :
    diff v (.mul [ofQ (qinv k), .func "sin" a]) =
      .ok (.func "cos" (simplify a)) := by
  obtain ⟨hk, da, hda, hsda⟩ := linArg_diff h
  unfold diff
  rw [diffRaw_coeff_func (occurs_ofQ v _) (linArg_occurs h)
    (show fTable "sin" a = some (.func "cos" a) from rfl) hda]
  show Except.ok (simplify (.add [.mul [.int 0, .func "sin" a],
    .mul [ofQ (qinv k), .mul [.mul [.func "cos" a, da]]]])) = _
  rw [simplify_add_node, List.map_cons, List.map_cons, List.map_nil,
    simplify_zero_head, simplify_mul_node, List.map_cons, List.map_cons,
    List.map_nil,
    show simplify (ofQ (qinv k)) = ofQ (qinv k) from canon_fix _ (canon_ofQ _),
    simplify_mul_single_node, simplify_mul_node, List.map_cons, List.map_cons,
    List.map_nil, simplify_func_node, hsda]
  have hct : canon (Expr.func "cos" (simplify a)) = true := by
    show canon (simplify a) = true
    exact canon_simplify a
  rw [simplifyMul_factor_ofQ k hct rfl rfl rfl,
    simplifyMul_ofQ_scaled (qinv k) k hct rfl rfl rfl,
    show qinv k * k = 1 from by
      rw [qinv_eq]
      exact inv_mul_cancel₀ hk,
    scaled_one, simplify_zero_add hct]

/-- Round trip for the sine rule. -/
theorem int_correct_sin {v : String} {a : Expr} {k : ℚ}
    (h : linArg v a = some k) :
    diff v (.mul [ofQ (qneg (qinv k)), .func "cos" a]) =
      .ok (.func "sin" (simplify a)) := by
  obtain ⟨hk, da, hda, hsda⟩ := linArg_diff h
  unfold diff
  rw [diffRaw_coeff_func (occurs_ofQ v _) (linArg_occurs h)
    (show fTable "cos" a = some (.mul [.int (-1), .func "sin" a]) from rfl)
    hda]
  show Except.ok (simplify (.add [.mul [.int 0, .func "cos" a],
    .mul [ofQ (qneg (qinv k)),
      .mul [.mul [.mul [.int (-1), .func "sin" a], da]]]])) = _
  rw [simplify_add_node, List.map_cons, List.map_cons, List.map_nil,
    simplify_zero_head, simplify_mul_node, List.map_cons, List.map_cons,
    List.map_nil,
    show simplify (ofQ (qneg (qinv k))) = ofQ (qneg (qinv k)) from
      canon_fix _ (canon_ofQ _),
    simplify_mul_single_node, simplify_mul_node, List.map_cons, List.map_cons,
    List.map_nil, hsda]
  have hct : canon (Expr.func "sin" (simplify a)) = true := by
    show canon (simplify a) = true
    exact canon_simplify a
  have hsG : simplify (.mul [.int (-1), .func "sin" a]) =
      scaled (-1) (.func "sin" (simplify a)) := by
    rw [simplify_mul_node, List.map_cons, List.map_cons, List.map_nil,
      show simplify (Expr.int (-1)) = .int (-1) from rfl, simplify_func_node]
    have hperm : (flattenMul [Expr.int (-1), .func "sin" (simplify a)]).Perm
        (Expr.func "sin" (simplify a) :: [.int (-1)]) := by
      rw [flattenMul_id (by
        intro x hx
        rcases List.mem_cons.mp hx with rfl | hx
        · rfl
        · simp at hx
          rw [hx]
          rfl)]
      exact List.Perm.swap _ _ _
    rw [simplifyMul_scaled hperm (by
      intro f hf
      simp at hf
      rw [hf]
      rfl) hct rfl rfl rfl]
    show scaled (toQ (.int (-1)) * 1) _ = _
    rw [show toQ (Expr.int (-1)) * 1 = (-1 : ℚ) from by
      show ((-1 : Int) : ℚ) * 1 = -1
      push_cast
      ring]
  rw [hsG]
  have hswap : simplifyMul [scaled (-1) (.func "sin" (simplify a)), ofQ k] =
      simplifyMul [ofQ k, scaled (-1) (.func "sin" (simplify a))] :=
    simplifyMul_perm (flattenMul_perm (List.Perm.swap _ _ _))
  rw [hswap, simplifyMul_ofQ_scaled k (-1) hct rfl rfl rfl,
    simplifyMul_ofQ_scaled (qneg (qinv k)) (k * -1) hct rfl rfl rfl,
    show qneg (qinv k) * (k * -1) = 1 from by
      rw [qneg_eq, qinv_eq]
      field_simp,
    scaled_one, simplify_zero_add hct]

theorem diff_ok_iff {v : String} {F S : Expr} :
    diff v F = .ok S ↔ ∃ D, diffRaw v F = .ok D ∧ simplify D = S := by
  unfold diff
  cases hd : diffRaw v F with
  | error er => simp [Except.map]
  | ok D => simp [Except.map]

/-- Soundness of the integrator: a returned antiderivative mentions the
variable, and differentiating it recovers the simplified integrand. -/
theorem integrate_sound : ∀ (v : String) (e F : Expr),
    integrate v e = .ok F → occurs v F = true ∧ diff v F = .ok (simplify e) := by
  intro v
  have H : ∀ n, ∀ e : Expr, sizeOf e ≤ n → ∀ F, integrate v e = .ok F →
      occurs v F = true ∧ diff v F = .ok (simplify e) := by
    intro n
    induction n using Nat.strong_induction_on with
    | _ n IH =>
    intro e he F h
    by_cases ho : occurs v e = true
    · unfold integrate at h
      rw [if_neg (by simp [ho])] at h
      cases e with
      | int m => simp [occurs] at ho
      | rat m d => simp [occurs] at ho
      | mul fs => exact absurd h (by simp)
      | pow b e₂ =>
        match b, e₂, h with
        | .sym s, .int m, h =>
          replace h : (if s = v then
              if m = -1 then (Except.ok (Expr.func "ln" (.sym v)) : Except Err Expr)
              else .ok (.mul [.rat 1 (m + 1), .pow (.sym v) (.int (m + 1))])
            else .error .NonElementaryIntegral) = .ok F := h
          by_cases hs : s = v
          · rw [if_pos hs] at h
            subst hs
            by_cases hm : m = -1
            · subst hm
              rw [if_pos rfl] at h
              injection h with h2
              subst h2
              refine ⟨by simp [occurs, occurs_sym_self], ?_⟩
              rw [int_correct_ln]
              rw [show simplify (.pow (.sym s) (.int (-1))) =
                .pow (.sym s) (.int (-1)) from by
                  rw [simplify_pow_node]
                  exact simpPow_sym_int_shape s (-1) (by decide) (by decide)]
            · rw [if_neg hm] at h
              injection h with h2
              subst h2
              refine ⟨by simp [occurs, occursList, occurs_sym_self], ?_⟩
              rw [int_correct_pow m hm, simplify_pow_node]
              rfl
          · rw [if_neg hs] at h
            exact Except.noConfusion h
      | sym s =>
        injection h with h2
        subst h2
        have hs : s = v := by simpa [occurs, decide_eq_true_eq] using ho
        subst hs
        refine ⟨by simp [occurs, occursList, occurs_sym_self], ?_⟩
        have h12 : (Expr.rat 1 2) = .rat 1 (1 + 1) := rfl
        have h22 : (Expr.int 2) = .int (1 + 1) := rfl
        rw [h12, h22, int_correct_pow 1 (by decide), simpPow_one]
        rfl
      | func f a =>
        replace h : (match linArg v a with
            | some k =>
              match f with
              | "sin" => (Except.ok (Expr.mul [ofQ (qneg (qinv k)), .func "cos" a]) : Except Err Expr)
              | "cos" => .ok (.mul [ofQ (qinv k), .func "sin" a])
              | "exp" => .ok (.mul [ofQ (qinv k), .func "exp" a])
              | _ => .error .NonElementaryIntegral
            | none => .error .NonElementaryIntegral) = .ok F := h
        cases hla : linArg v a with
        | none =>
          rw [hla] at h
          exact absurd h (by simp)
        | some k =>
          rw [hla] at h
          have hoa := linArg_occurs hla
          replace h : (match f with
              | "sin" => (Except.ok (Expr.mul [ofQ (qneg (qinv k)), .func "cos" a]) : Except Err Expr)
              | "cos" => .ok (.mul [ofQ (qinv k), .func "sin" a])
              | "exp" => .ok (.mul [ofQ (qinv k), .func "exp" a])
              | _ => .error .NonElementaryIntegral) = .ok F := h
          split at h
          · injection h with h2
            subst h2
            refine ⟨by simp [occurs, occursList, hoa], ?_⟩
            rw [int_correct_sin hla, simplify_func_node]
          · injection h with h2
            subst h2
            refine ⟨by simp [occurs, occursList, hoa], ?_⟩
            rw [int_correct_cos hla, simplify_func_node]
          · injection h with h2
            subst h2
            refine ⟨by simp [occurs, occursList, hoa], ?_⟩
            rw [int_correct_exp hla, simplify_func_node]
          · exact absurd h (by simp)
      | add ts =>
        have hsz : sizeOf (Expr.add ts) = 1 + sizeOf ts := by simp
        replace h : (do
            let is ← integrateList v ts
            Except.ok (Expr.add is) : Except Err Expr) = .ok F := h
        cases hIs : integrateList v ts with
        | error er =>
          rw [hIs] at h
          exact Except.noConfusion h
        | ok Is =>
          rw [hIs] at h
          have hF : F = .add Is := by
            injection h with h2
            exact h2.symm
          subst hF
          have HL : ∀ ts2 : List Expr, (∀ t ∈ ts2, t ∈ ts) →
              ∀ Is2, integrateList v ts2 = .ok Is2 →
              (ts2 ≠ [] → occursList v Is2 = true) ∧
              ∃ Ds, diffList v Is2 = .ok Ds ∧
                Ds.map simplify = ts2.map simplify := by
            intro ts2
            induction ts2 with
            | nil =>
              intro _ Is2 hIs2
              have : ([] : List Expr) = Is2 := by injection hIs2
              subst this
              exact ⟨fun hc => absurd rfl hc, [], rfl, rfl⟩
            | cons t rest ih =>
              intro hmem Is2 hIs2
              cases hti : integrate v t with
              | error er =>
                unfold integrateList at hIs2
                rw [hti] at hIs2
                exact Except.noConfusion hIs2
              | ok Ft =>
                cases hrest : integrateList v rest with
                | error er =>
                  unfold integrateList at hIs2
                  rw [hti, hrest] at hIs2
                  exact Except.noConfusion hIs2
                | ok Is3 =>
                  unfold integrateList at hIs2
                  rw [hti, hrest] at hIs2
                  have : Ft :: Is3 = Is2 := by injection hIs2
                  subst this
                  have hmt : t ∈ ts := hmem t (by simp)
                  obtain ⟨hoFt, hdFt⟩ := IH (sizeOf t) (by
                    have h1 := sizeOf_mem_lt hmt
                    omega) t le_rfl Ft hti
                  obtain ⟨D, hD, hDs⟩ := diff_ok_iff.mp hdFt
                  obtain ⟨hocc2, Ds2, hDs2, hmap2⟩ :=
                    ih (fun x hx => hmem x (by simp [hx])) Is3 hrest
                  refine ⟨?_, D :: Ds2, ?_, ?_⟩
                  · intro _
                    simp [occursList, hoFt]
                  · unfold diffList
                    rw [hD, hDs2]
                    rfl
                  · rw [List.map_cons, List.map_cons, hDs, hmap2]
          obtain ⟨hoccIs, Ds, hDs, hmap⟩ := HL ts (fun t ht => ht) Is hIs
          have hne : ts ≠ [] := by
            rintro rfl
            simp [occurs, occursList] at ho
          have hoccF : occursList v Is = true := hoccIs hne
          refine ⟨hoccF, ?_⟩
          rw [diff_ok_iff]
          refine ⟨.add Ds, ?_, ?_⟩
          · unfold diffRaw
            rw [if_neg (by simp [occurs, hoccF])]
            show (do
              let ds ← diffList v Is
              .ok (.add ds) : Except Err Expr) = _
            rw [hDs]
            rfl
          · rw [simplify_add_node, simplify_add_node, hmap]
    · have hof : occurs v e = false := by simpa using ho
      unfold integrate at h
      rw [if_pos (by simp [hof])] at h
      injection h with h2
      subst h2
      exact ⟨by simp [occurs, occursList, occurs_sym_self],
        int_correct_const hof⟩
  exact fun e F h => H (sizeOf e) e le_rfl F h

/-- Every failure of the integrator reports NonElementaryIntegral. -/
theorem integrate_err : ∀ (v : String) (e : Expr) (er : Err),
    integrate v e = .error er → er = .NonElementaryIntegral := by
  intro v
  have H : ∀ n, ∀ e : Expr, sizeOf e ≤ n → ∀ er, integrate v e = .error er →
      er = .NonElementaryIntegral := by
    intro n
    induction n using Nat.strong_induction_on with
    | _ n IH =>
    intro e he er h
    by_cases ho : occurs v e = true
    · unfold integrate at h
      rw [if_neg (by simp [ho])] at h
      cases e with
      | int m => simp [occurs] at ho
      | rat m d => simp [occurs] at ho
      | sym s => exact Except.noConfusion h
      | mul fs => exact (Except.error.inj h).symm
      | pow b e₂ =>
        cases b <;> try exact (Except.error.inj h).symm
        cases e₂ <;> try exact (Except.error.inj h).symm
        rename_i s m
        replace h : (if s = v then
            if m = -1 then (Except.ok (Expr.func "ln" (.sym v)) : Except Err Expr)
            else .ok (.mul [.rat 1 (m + 1), .pow (.sym v) (.int (m + 1))])
          else .error .NonElementaryIntegral) = .error er := h
        by_cases hs : s = v
        · rw [if_pos hs] at h
          by_cases hm : m = -1
          · rw [if_pos hm] at h
            exact Except.noConfusion h
          · rw [if_neg hm] at h
            exact Except.noConfusion h
        · rw [if_neg hs] at h
          exact (Except.error.inj h).symm
      | func f a =>
        replace h : (match linArg v a with
            | some k =>
              match f with
              | "sin" => (Except.ok (Expr.mul [ofQ (qneg (qinv k)), .func "cos" a]) : Except Err Expr)
              | "cos" => .ok (.mul [ofQ (qinv k), .func "sin" a])
              | "exp" => .ok (.mul [ofQ (qinv k), .func "exp" a])
              | _ => .error .NonElementaryIntegral
            | none => .error .NonElementaryIntegral) = .error er := h
        cases hla : linArg v a with
        | none =>
          rw [hla] at h
          exact (Except.error.inj h).symm
        | some k =>
          rw [hla] at h
          replace h : (match f with
              | "sin" => (Except.ok (Expr.mul [ofQ (qneg (qinv k)), .func "cos" a]) : Except Err Expr)
              | "cos" => .ok (.mul [ofQ (qinv k), .func "sin" a])
              | "exp" => .ok (.mul [ofQ (qinv k), .func "exp" a])
              | _ => .error .NonElementaryIntegral) = .error er := h
          split at h
          · exact Except.noConfusion h
          · exact Except.noConfusion h
          · exact Except.noConfusion h
          · exact (Except.error.inj h).symm
      | add ts =>
        have hsz : sizeOf (Expr.add ts) = 1 + sizeOf ts := by simp
        replace h : (do
            let is ← integrateList v ts
            Except.ok (Expr.add is) : Except Err Expr) = .error er := h
        have HL : ∀ ts2 : List Expr, (∀ t ∈ ts2, t ∈ ts) →
            ∀ er2, integrateList v ts2 = .error er2 →
            er2 = .NonElementaryIntegral := by
          intro ts2
          induction ts2 with
          | nil =>
            intro _ er2 h2
            exact Except.noConfusion h2
          | cons t rest ih =>
            intro hmem er2 h2
            cases hti : integrate v t with
            | error e₃ =>
              unfold integrateList at h2
              rw [hti] at h2
              have h4 : e₃ = er2 := Except.error.inj h2
              subst h4
              exact IH (sizeOf t) (by
                have := sizeOf_mem_lt (hmem t (by simp))
                omega) t le_rfl _ hti
            | ok Ft =>
              cases hrest : integrateList v rest with
              | error e₃ =>
                unfold integrateList at h2
                rw [hti, hrest] at h2
                have h4 : e₃ = er2 := Except.error.inj h2
                subst h4
                exact ih (fun x hx => hmem x (by simp [hx])) _ hrest
              | ok Is3 =>
                unfold integrateList at h2
                rw [hti, hrest] at h2
                exact Except.noConfusion h2
        cases hIs : integrateList v ts with
        | error e₃ =>
          rw [hIs] at h
          have h4 : e₃ = er := Except.error.inj h
          subst h4
          exact HL ts (fun t ht => ht) _ hIs
        | ok Is =>
          rw [hIs] at h
          exact Except.noConfusion h
    · have hof : occurs v e = false := by simpa using ho
      unfold integrate at h
      rw [if_pos (by simp [hof])] at h
      exact Except.noConfusion h
  exact fun e er h => H (sizeOf e) e le_rfl er h

/-- Reordering the operands of a sum does not change the simplified tree. -/
theorem simplify_add_perm {xs ys : List Expr} (h : xs.Perm ys) :
    simplify (.add xs) = simplify (.add ys) := by
  rw [simplify_add_node, simplify_add_node]
  exact simplifyAdd_content fun c =>
    keyval_perm ((flattenAdd_perm (h.map simplify)).map termSplit) c

/-- Reordering the operands of a product does not change the simplified
tree. -/
theorem simplify_mul_perm {xs ys : List Expr} (h : xs.Perm ys) :
    simplify (.mul xs) = simplify (.mul ys) := by
  rw [simplify_mul_node, simplify_mul_node]
  exact simplifyMul_perm (flattenMul_perm (h.map simplify))

/-- Dividing one integer literal by a nonzero integer literal simplifies to
the exact rational value. -/
theorem simplify_divE_int {m n : Int} (hn : n ≠ 0) :
    simplify (divE (integer m) (integer n)) = ofQ (Rat.divInt m n) := by
  show simplify (.mul [.int m, .pow (.int n) (.int (-1))]) = _
  rw [simplify_mul_node]
  show simplifyMul [Expr.int m, simpPow (.int n) (.int (-1))] = _
  rw [simpPow_int_int (by decide) (by decide),
    if_neg (by rintro ⟨h1, _⟩; exact hn h1)]
  rw [simplifyMul_all_num (by
    intro f hf
    rcases List.mem_cons.mp hf with rfl | hf
    · rfl
    · rcases List.mem_cons.mp hf with rfl | hf
      · exact ofQ_isNum _
      · cases hf)]
  congr 1
  rw [List.map_cons, List.map_cons, List.map_nil, List.prod_cons,
    List.prod_cons, List.prod_nil, toQ_int, toQ_ofQ, qzpow_eq,
    Rat.divInt_eq_div]
  rw [zpow_neg_one]
  rw [mul_one, div_eq_mul_inv]

theorem foldl_max_le {l : List Nat} : ∀ {a b : Nat}, l.foldl max a ≤ b →
    a ≤ b ∧ ∀ x ∈ l, x ≤ b := by
  induction l with
  | nil => exact fun h => ⟨h, by simp⟩
  | cons x xs ih =>
    intro a b h
    obtain ⟨h1, h2⟩ := ih h
    refine ⟨le_trans (le_max_left a x) h1, ?_⟩
    intro y hy
    rcases List.mem_cons.mp hy with rfl | hy
    · exact le_trans (le_max_right a y) h1
    · exact h2 y hy

/-- Every term's degree is bounded by the polynomial degree. -/
theorem degOf_bound {cs : List (Expr × Nat)} : ∀ p ∈ cs, p.2 ≤ degOf cs := by
  intro p hp
  have h := foldl_max_le (l := cs.map fun p => p.2) (le_refl (degOf cs))
  exact h.2 p.2 (List.mem_map.mpr ⟨p, hp, rfl⟩)

theorem intSqrt_sq {n a : Nat} (h : intSqrt n = some a) : a * a = n := by
  have h2 := List.find?_some h
  simpa using h2

/-- `ratSqrt` returns an exact square root. -/
theorem ratSqrt_sq {q r : ℚ} (h : ratSqrt q = some r) : r * r = q := by
  unfold ratSqrt at h
  split at h
  · exact Option.noConfusion h
  · rename_i hq
    cases ha : intSqrt q.num.toNat with
    | none =>
      rw [ha] at h
      exact Option.noConfusion h
    | some a =>
      cases hb : intSqrt q.den with
      | none =>
        rw [ha, hb] at h
        exact Option.noConfusion h
      | some b =>
        rw [ha, hb] at h
        injection h with h2
        subst h2
        have ha2 := intSqrt_sq ha
        have hb2 := intSqrt_sq hb
        have hq0 : (0 : ℚ) ≤ q := not_lt.mp hq
        have h3 : (a : Int) * a = (q.num.toNat : Int) := by
          rw [← Int.natCast_mul, ha2]
        have hnum : (a : Int) * a = q.num := by
          rw [h3, Int.toNat_of_nonneg (Rat.num_nonneg.mpr hq0)]
        have hden2 : (b : Int) * b = (q.den : Int) := by
          rw [← Int.natCast_mul, hb2]
        have hbne : b ≠ 0 := by
          intro hc
          rw [hc] at hb2
          simp at hb2
          have := q.den_pos
          omega
        have hb0 : (b : Int) ≠ 0 := by exact_mod_cast hbne
        rw [Rat.divInt_mul_divInt _ _ hb0 hb0, hnum, hden2]
        exact Rat.num_divInt_den q

theorem linear_root {a b : ℚ} (h : b ≠ 0) : a + b * (-(a / b)) = 0 := by
  field_simp
  ring

theorem quad_root {a b c r x : ℚ} (ha : a ≠ 0)
    (hr : r * r = b * b - 4 * a * c)
    (hx : x = (-b + r) / (2 * a) ∨ x = (-b - r) / (2 * a)) :
    c + b * x + a * x ^ 2 = 0 := by
  have h2 : (2 : ℚ) * a ≠ 0 := mul_ne_zero two_ne_zero ha
  have h4 : (4 : ℚ) * a ≠ 0 := mul_ne_zero four_ne_zero ha
  have hy : 2 * a * x = -b + r ∨ 2 * a * x = -b - r := by
    rcases hx with rfl | rfl
    · left
      field_simp
    · right
      field_simp
  have hkey : (c + b * x + a * x ^ 2) * (4 * a) = 0 := by
    have hexp : (c + b * x + a * x ^ 2) * (4 * a) =
        4 * a * c + 2 * b * (2 * a * x) + (2 * a * x) ^ 2 := by ring
    rcases hy with hy | hy <;> rw [hexp, hy] <;> linear_combination hr
  exact (mul_eq_zero.mp hkey).resolve_right h4

/-- `evalf` dichotomy: on a closed tree it returns the post-order numeric
collapse, and on a tree with a free symbol it fails with `UnboundSymbol`,
for any interpretation of the numeric domain. -/
theorem evalf_spec {G : Type} (M : NumModel G) : ∀ e : Expr,
    (closedE e = true → evalf M e = .ok (collapse M e)) ∧
    (closedE e = false → evalf M e = .error .UnboundSymbol) := by
  have H : ∀ n, ∀ e : Expr, sizeOf e ≤ n →
      (closedE e = true → evalf M e = .ok (collapse M e)) ∧
      (closedE e = false → evalf M e = .error .UnboundSymbol) := by
    intro n
    induction n using Nat.strong_induction_on with
    | _ n IH =>
    intro e he
    have HL : ∀ ts : List Expr, sizeOf ts ≤ sizeOf e →
        (closedL ts = true → evalfL M ts = .ok (collapseL M ts)) ∧
        (closedL ts = false → evalfL M ts = .error .UnboundSymbol) := by
      intro ts hts
      induction ts with
      | nil => exact ⟨fun _ => rfl, fun hc => Bool.noConfusion hc⟩
      | cons t rest ih =>
        have hsz : sizeOf t < n ∧ sizeOf rest ≤ sizeOf e := by
          have h1 : sizeOf t < 1 + sizeOf (t :: rest) := sizeOf_mem_lt (by simp)
          have h2 : sizeOf (t :: rest) = 1 + sizeOf t + sizeOf rest := by simp
          have h3 : 1 ≤ sizeOf e := by cases e <;> simp <;> omega
          constructor
          · omega
          · omega
        obtain ⟨iht1, iht2⟩ := IH (sizeOf t) (hsz.1) t le_rfl
        obtain ⟨ihr1, ihr2⟩ := ih hsz.2
        constructor
        · intro hc
          have hct : closedE t = true := by
            have := hc
            unfold closedL at this
            exact (Bool.and_eq_true_iff.mp this).1
          have hcr : closedL rest = true := by
            have := hc
            unfold closedL at this
            exact (Bool.and_eq_true_iff.mp this).2
          show (do
            let x ← evalf M t
            let xs ← evalfL M rest
            Except.ok (x :: xs)) = _
          rw [iht1 hct, ihr1 hcr]
          rfl
        · intro hc
          show (do
            let x ← evalf M t
            let xs ← evalfL M rest
            Except.ok (x :: xs)) = _
          cases hct : closedE t with
          | false =>
            rw [iht2 hct]
            rfl
          | true =>
            have hcr : closedL rest = false := by
              unfold closedL at hc
              rw [hct] at hc
              simpa using hc
            rw [iht1 hct, ihr2 hcr]
            rfl
    cases e with
    | sym s => exact ⟨fun hc => Bool.noConfusion hc, fun _ => rfl⟩
    | int m => exact ⟨fun _ => rfl, fun hc => Bool.noConfusion hc⟩
    | rat m d => exact ⟨fun _ => rfl, fun hc => Bool.noConfusion hc⟩
    | add ts =>
      obtain ⟨h1, h2⟩ := HL ts (by simp)
      constructor
      · intro hc
        show (do
          let vs ← evalfL M ts
          Except.ok (vs.foldl M.add (M.ofInt 0))) = _
        rw [h1 hc]
        rfl
      · intro hc
        show (do
          let vs ← evalfL M ts
          Except.ok (vs.foldl M.add (M.ofInt 0))) = _
        rw [h2 hc]
        rfl
    | mul fs =>
      obtain ⟨h1, h2⟩ := HL fs (by simp)
      constructor
      · intro hc
        show (do
          let vs ← evalfL M fs
          Except.ok (vs.foldl M.mul (M.ofInt 1))) = _
        rw [h1 hc]
        rfl
      · intro hc
        show (do
          let vs ← evalfL M fs
          Except.ok (vs.foldl M.mul (M.ofInt 1))) = _
        rw [h2 hc]
        rfl
    | pow b e₂ =>
      have hb := IH (sizeOf b) (by simp at he ⊢; omega) b le_rfl
      have he2 := IH (sizeOf e₂) (by simp at he ⊢; omega) e₂ le_rfl
      constructor
      · intro hc
        have hcb : closedE b = true := by
          have := hc
          unfold closedE at this
          exact (Bool.and_eq_true_iff.mp this).1
        have hce : closedE e₂ = true := by
          have := hc
          unfold closedE at this
          exact (Bool.and_eq_true_iff.mp this).2
        show (do
          let vb ← evalf M b
          let ve ← evalf M e₂
          Except.ok (M.pow vb ve)) = _
        rw [hb.1 hcb, he2.1 hce]
        rfl
      · intro hc
        show (do
          let vb ← evalf M b
          let ve ← evalf M e₂
          Except.ok (M.pow vb ve)) = _
        cases hcb : closedE b with
        | false =>
          rw [hb.2 hcb]
          rfl
        | true =>
          have hce : closedE e₂ = false := by
            unfold closedE at hc
            rw [hcb] at hc
            simpa using hc
          rw [hb.1 hcb, he2.2 hce]
          rfl
    | func f a =>
      have ha := IH (sizeOf a) (by simp at he ⊢; omega) a le_rfl
      constructor
      · intro hc
        show (do
          let va ← evalf M a
          Except.ok (M.app f va)) = _
        rw [ha.1 (by simpa [closedE] using hc)]
        rfl
      · intro hc
        show (do
          let va ← evalf M a
          Except.ok (M.app f va)) = _
        rw [ha.2 (by simpa [closedE] using hc)]
        rfl
  exact fun e => H (sizeOf e) e le_rfl

theorem evalL_eq_map (V : QAssign) : ∀ l : List Expr, evalL V l = l.map (eval V)
  | [] => rfl
  | e :: es => by
      rw [show evalL V (e :: es) = eval V e :: evalL V es from rfl,
        evalL_eq_map V es, List.map_cons]

theorem eval_add_node (V : QAssign) (ts : List Expr) :
    eval V (.add ts) = (ts.map (eval V)).sum := by
  show (evalL V ts).sum = _
  rw [evalL_eq_map]

theorem eval_mul_node (V : QAssign) (fs : List Expr) :
    eval V (.mul fs) = (fs.map (eval V)).prod := by
  show (evalL V fs).prod = _
  rw [evalL_eq_map]

theorem wfL_iff (V : QAssign) : ∀ l : List Expr,
    wfL V l = true ↔ ∀ e ∈ l, wfE V e = true
  | [] => by simp [wfL]
  | e :: es => by
      rw [show wfL V (e :: es) = (wfE V e && wfL V es) from rfl]
      rw [Bool.and_eq_true_iff, wfL_iff V es]
      simp

theorem wf_add_iff {V : QAssign} {ts : List Expr} :
    wfE V (.add ts) = true ↔ ∀ t ∈ ts, wfE V t = true := by
  rw [show wfE V (.add ts) = wfL V ts from rfl, wfL_iff]

theorem wf_mul_iff {V : QAssign} {fs : List Expr} :
    wfE V (.mul fs) = true ↔ ∀ f ∈ fs, wfE V f = true := by
  rw [show wfE V (.mul fs) = wfL V fs from rfl, wfL_iff]

theorem wf_pow_iff {V : QAssign} {b e : Expr} :
    wfE V (.pow b e) = true ↔ wfE V b = true ∧ wfE V e = true ∧
      (eval V e).den = 1 ∧ (eval V b ≠ 0 ∨ 0 ≤ (eval V e).num) := by
  rw [show wfE V (.pow b e) = (wfE V b && wfE V e &&
    (decide ((eval V e).den = 1) &&
      (decide (eval V b ≠ 0) || decide (0 ≤ (eval V e).num)))) from rfl]
  simp [and_assoc]

theorem den_one_cast {q : ℚ} (h : q.den = 1) : ((q.num : Int) : ℚ) = q := by
  conv_rhs => rw [← Rat.num_divInt_den q]
  rw [h, Nat.cast_one, Rat.divInt_one]

theorem eval_ofQ (V : QAssign) (q : ℚ) : eval V (ofQ q) = q := by
  unfold ofQ
  split_ifs with h
  · show ((q.num : Int) : ℚ) = q
    exact den_one_cast h
  · show Rat.divInt q.num q.den = q
    exact Rat.num_divInt_den q

theorem eval_toQ {V : QAssign} : ∀ {f : Expr}, f.isNum = true →
    f.toQ = eval V f
  | .int _, _ => rfl
  | .rat _ _, _ => rfl

theorem qpowE_int_exp {a q : ℚ} (h : q.den = 1) : qpowE a q = a ^ q.num := by
  unfold qpowE
  rw [if_pos h]

theorem qpowE_one (a : ℚ) : qpowE a 1 = a := by
  unfold qpowE
  norm_num

theorem qpowE_zero (a : ℚ) : qpowE a 0 = 1 := by
  unfold qpowE
  norm_num

theorem qadd_den_one {p q : ℚ} (hp : p.den = 1) (hq : q.den = 1) :
    (qadd p q).den = 1 ∧ (qadd p q).num = p.num + q.num := by
  unfold qadd
  rw [hp, hq, Nat.cast_one, mul_one, mul_one, one_mul, Rat.divInt_one]
  exact ⟨Rat.intCast_den _, Rat.intCast_num _⟩

theorem qmul_den_one {p q : ℚ} (hp : p.den = 1) (hq : q.den = 1) :
    (qmul p q).den = 1 ∧ (qmul p q).num = p.num * q.num := by
  unfold qmul
  rw [hp, hq, Nat.cast_one, mul_one, Rat.divInt_one]
  exact ⟨Rat.intCast_den _, Rat.intCast_num _⟩

theorem qpowE_add {a p q : ℚ} (hp : p.den = 1) (hq : q.den = 1)
    (hs : a ≠ 0 ∨ (0 ≤ p.num ∧ 0 ≤ q.num)) :
    qpowE a (qadd p q) = qpowE a p * qpowE a q := by
  obtain ⟨hd, hn⟩ := qadd_den_one hp hq
  rw [qpowE_int_exp hd, qpowE_int_exp hp, qpowE_int_exp hq, hn]
  rcases hs with ha | ⟨h1, h2⟩
  · exact zpow_add₀ ha p.num q.num
  · by_cases ha : a = 0
    · subst ha
      by_cases hz : p.num + q.num = 0
      · have hp0 : p.num = 0 := by omega
        have hq0 : q.num = 0 := by omega
        rw [hz, hp0, hq0]
        norm_num
      · rw [zero_zpow _ hz]
        by_cases hp0 : p.num = 0
        · have hq0 : q.num ≠ 0 := by omega
          rw [zero_zpow _ hq0, mul_zero]
        · rw [zero_zpow _ hp0, zero_mul]
    · exact zpow_add₀ ha p.num q.num

theorem qpowE_qmul {a p q : ℚ} (hp : p.den = 1) (hq : q.den = 1) :
    qpowE a (qmul p q) = qpowE (qpowE a p) q := by
  obtain ⟨hd, hn⟩ := qmul_den_one hp hq
  rw [qpowE_int_exp hd, qpowE_int_exp hp, hn, zpow_mul]
  rw [qpowE_int_exp hq]

theorem eval_mul_pair (V : QAssign) (a b : Expr) :
    eval V (.mul [a, b]) = eval V a * eval V b := by
  rw [eval_mul_node]
  simp

theorem eval_mulOf (V : QAssign) : ∀ fs : List Expr,
    eval V (mulOf fs) = (fs.map (eval V)).prod
  | [] => by
      rw [show mulOf [] = .mul [] from rfl, eval_mul_node]
  | [f] => by
      rw [show mulOf [f] = f from rfl]
      simp
  | a :: b :: r => by
      rw [show mulOf (a :: b :: r) = .mul (a :: b :: r) from rfl, eval_mul_node]

theorem eval_termSplit (V : QAssign) : ∀ t : Expr,
    (termSplit t).2 * eval V (termSplit t).1 = eval V t := by
  intro t
  match t with
  | .int n =>
      show ((n : Int) : ℚ) * eval V (.int 1) = eval V (.int n)
      show ((n : Int) : ℚ) * ((1 : Int) : ℚ) = ((n : Int) : ℚ)
      norm_num
  | .rat n d =>
      show Rat.divInt n d * eval V (.int 1) = eval V (.rat n d)
      show Rat.divInt n d * ((1 : Int) : ℚ) = Rat.divInt n d
      norm_num
  | .sym s => exact one_mul _
  | .add ts => exact one_mul _
  | .pow b e => exact one_mul _
  | .func f u => exact one_mul _
  | .mul [] => exact one_mul _
  | .mul (c :: fs) =>
      show (if c.isNum then ((mulOf fs : Expr), c.toQ)
        else (.mul (c :: fs), (1 : ℚ))).2 * eval V (if c.isNum then
          ((mulOf fs : Expr), c.toQ) else (.mul (c :: fs), (1 : ℚ))).1 =
        eval V (.mul (c :: fs))
      by_cases h : c.isNum = true
      · rw [if_pos h]
        show c.toQ * eval V (mulOf fs) = _
        rw [eval_mulOf, eval_mul_node, List.map_cons, List.prod_cons,
          eval_toQ h]
      · rw [if_neg h]
        exact one_mul _

theorem addPair_wsum (V : QAssign) : ∀ (l : List (Expr × ℚ)) (p : Expr × ℚ),
    ((addPair l p).map fun r => r.2 * eval V r.1).sum =
      ((l.map fun r => r.2 * eval V r.1).sum) + p.2 * eval V p.1
  | [], p => by simp [addPair]
  | q :: rest, p => by
      rw [show addPair (q :: rest) p = if q.1 = p.1 then
        (q.1, qadd q.2 p.2) :: rest else q :: addPair rest p from rfl]
      by_cases h : q.1 = p.1
      · rw [if_pos h]
        simp only [List.map_cons, List.sum_cons]
        rw [qadd_eq, h]
        ring
      · rw [if_neg h]
        simp only [List.map_cons, List.sum_cons]
        rw [addPair_wsum V rest p]
        ring

theorem collect_wsum (V : QAssign) (ps : List (Expr × ℚ)) :
    ((collect ps).map fun r => r.2 * eval V r.1).sum =
      (ps.map fun r => r.2 * eval V r.1).sum := by
  have H : ∀ (l acc : List (Expr × ℚ)),
      ((l.foldl addPair acc).map fun r => r.2 * eval V r.1).sum =
      ((acc.map fun r => r.2 * eval V r.1).sum) +
        (l.map fun r => r.2 * eval V r.1).sum := by
    intro l
    induction l with
    | nil => intro acc; simp
    | cons p rest ih =>
        intro acc
        rw [List.foldl_cons, ih, addPair_wsum]
        simp only [List.map_cons, List.sum_cons]
        ring
  rw [show collect ps = ps.foldl addPair [] from rfl, H ps []]
  simp

theorem filter_nz_wsum (V : QAssign) : ∀ ps : List (Expr × ℚ),
    ((ps.filter fun p => ¬(p.2 = 0)).map fun r => r.2 * eval V r.1).sum =
      (ps.map fun r => r.2 * eval V r.1).sum
  | [] => rfl
  | p :: rest => by
      rw [List.filter_cons]
      by_cases h : p.2 = 0
      · rw [if_neg (by simp [h]), filter_nz_wsum V rest, List.map_cons,
          List.sum_cons, h, zero_mul, zero_add]
      · rw [if_pos (by simp [h]), List.map_cons, List.map_cons,
          List.sum_cons, List.sum_cons, filter_nz_wsum V rest]

theorem eval_rebuildTerm (V : QAssign) (q : ℚ) (c : Expr) :
    eval V (rebuildTerm q c) = q * eval V c := by
  unfold rebuildTerm
  split_ifs with h0 h1 hq1
  · rw [h0, zero_mul]
    show ((0 : Int) : ℚ) = 0
    norm_num
  · rw [eval_ofQ, h1]
    show q = q * ((1 : Int) : ℚ)
    norm_num
  · rw [hq1, one_mul]
  · cases c with
    | mul fs =>
        rw [eval_mul_node, eval_mul_node, List.map_cons, List.prod_cons,
          eval_ofQ]
    | sym s => rw [eval_mul_pair, eval_ofQ]
    | int n => rw [eval_mul_pair, eval_ofQ]
    | rat n d => rw [eval_mul_pair, eval_ofQ]
    | add ts => rw [eval_mul_pair, eval_ofQ]
    | pow b e => rw [eval_mul_pair, eval_ofQ]
    | func f u => rw [eval_mul_pair, eval_ofQ]

theorem eval_assembleAdd (V : QAssign) : ∀ l : List Expr,
    eval V (assembleAdd l) = (l.map (eval V)).sum
  | [] => by
      show eval V (.int 0) = 0
      show ((0 : Int) : ℚ) = 0
      norm_num
  | [t] => by
      show eval V t = _
      simp
  | a :: b :: r => by
      rw [show assembleAdd (a :: b :: r) = .add (a :: b :: r) from rfl,
        eval_add_node]

theorem eval_addParts (V : QAssign) : ∀ t : Expr,
    ((addParts t).map (eval V)).sum = eval V t
  | .add ts => by rw [show addParts (.add ts) = ts from rfl, eval_add_node]
  | .sym s => by simp [addParts]
  | .int n => by simp [addParts]
  | .rat n d => by simp [addParts]
  | .mul fs => by simp [addParts]
  | .pow b e => by simp [addParts]
  | .func f a => by simp [addParts]

theorem eval_flattenAdd (V : QAssign) (xs : List Expr) :
    ((flattenAdd xs).map (eval V)).sum = (xs.map (eval V)).sum := by
  induction xs with
  | nil => rfl
  | cons t rest ih =>
      rw [flattenAdd_eq_flatMap, List.flatMap_cons, List.map_append,
        List.sum_append, ← flattenAdd_eq_flatMap, ih, List.map_cons,
        List.sum_cons, eval_addParts]

/-- The `Add` pipeline preserves the exact value: a simplified sum means
the sum of the values of its operands, for every interpretation. -/
theorem eval_simplifyAdd (V : QAssign) (xs : List Expr) :
    eval V (simplifyAdd xs) = (xs.map (eval V)).sum := by
  rw [simplifyAdd_eq, eval_assembleAdd]
  have hperm : ((List.insertionSort Expr.le
      (addTerms ((flattenAdd xs).map termSplit))).map (eval V)).Perm
      ((addTerms ((flattenAdd xs).map termSplit)).map (eval V)) :=
    (List.perm_insertionSort _ _).map _
  rw [hperm.sum_eq]
  unfold addTerms
  rw [List.map_map,
    show ((eval V) ∘ fun p : Expr × ℚ => rebuildTerm p.2 p.1) =
      fun p : Expr × ℚ => p.2 * eval V p.1 from
      funext fun p => eval_rebuildTerm V p.2 p.1,
    filter_nz_wsum, collect_wsum, List.map_map,
    show ((fun r : Expr × ℚ => r.2 * eval V r.1) ∘ termSplit) = eval V from
      funext fun t => eval_termSplit V t]
  exact eval_flattenAdd V xs

theorem simpPow_pow_rule {b₂ e₂ : Expr} (E : Expr) (hE0 : E ≠ .int 0)
    (hE1 : E ≠ .int 1) (hEn : E.isNum = true)
    (hgb : e₂.isNum = true ∧ ¬(b₂.isMul = true)) :
    simpPow (.pow b₂ e₂) E = simpPow b₂ (ofQ (qmul e₂.toQ E.toQ)) := by
  conv_lhs => unfold simpPow
  rw [if_neg hE0, if_neg hE1]
  match E, hEn with
  | .int k, _ =>
    show (if e₂.isNum ∧ (Expr.int k).isNum ∧ ¬b₂.isMul then _ else _) = _
    rw [if_pos ⟨hgb.1, rfl, hgb.2⟩]
  | .rat a c, _ =>
    show (if e₂.isNum ∧ (Expr.rat a c).isNum ∧ ¬b₂.isMul then _ else _) = _
    rw [if_pos ⟨hgb.1, rfl, hgb.2⟩]

theorem wf_ofQ (V : QAssign) (q : ℚ) : wfE V (ofQ q) = true := by
  unfold ofQ
  split_ifs <;> rfl

theorem qpowE_intCast (a : ℚ) (k : Int) : qpowE a ((k : Int) : ℚ) = a ^ k := by
  rw [qpowE_int_exp (Rat.intCast_den k), Rat.intCast_num]

/-- The power identities preserve the exact value on the domain of
validity, and their output stays on it. -/
theorem eval_simpPow (V : QAssign) : ∀ (b e : Expr),
    wfE V (.pow b e) = true →
    eval V (simpPow b e) = eval V (.pow b e) ∧
    wfE V (simpPow b e) = true := by
  have H : ∀ n, ∀ b e : Expr, sizeOf b ≤ n → wfE V (.pow b e) = true →
      eval V (simpPow b e) = eval V (.pow b e) ∧
      wfE V (simpPow b e) = true := by
    intro n
    induction n using Nat.strong_induction_on with
    | _ n IH =>
    intro b e hsz hw
    rcases wf_pow_iff.mp hw with ⟨hwb, hwe, hden, hsign⟩
    by_cases h0 : e = .int 0
    · subst h0
      by_cases hb0 : b = .int 0
      · subst hb0
        rw [show simpPow (.int 0) (.int 0) = .pow (.int 0) (.int 0) from by
          unfold simpPow
          rw [if_pos rfl, if_pos rfl]]
        exact ⟨rfl, hw⟩
      · rw [show simpPow b (.int 0) = .int 1 from by
          unfold simpPow
          rw [if_pos rfl, if_neg hb0]]
        constructor
        · show ((1 : Int) : ℚ) = qpowE (eval V b) (((0 : Int)) : ℚ)
          rw [qpowE_intCast, zpow_zero]
          norm_num
        · rfl
    · by_cases h1 : e = .int 1
      · subst h1
        rw [simpPow_one]
        refine ⟨?_, hwb⟩
        show eval V b = qpowE (eval V b) (((1 : Int)) : ℚ)
        rw [qpowE_intCast, zpow_one]
      · by_cases hen : e.isNum = true
        · cases b with
          | int m =>
              match e, hen, h0, h1 with
              | .int k, _, h0, h1 =>
                  have hk0 : k ≠ 0 := fun hc => h0 (by rw [hc])
                  have hk1 : k ≠ 1 := fun hc => h1 (by rw [hc])
                  rw [simpPow_int_int hk0 hk1]
                  by_cases hmk : m = 0 ∧ k < 0
                  · rw [if_pos hmk]
                    exact ⟨rfl, hw⟩
                  · rw [if_neg hmk]
                    refine ⟨?_, wf_ofQ V _⟩
                    rw [eval_ofQ, qzpow_eq]
                    show _ = qpowE (((m : Int)) : ℚ) (((k : Int)) : ℚ)
                    rw [qpowE_intCast]
              | .rat p q, _, _, _ =>
                  rw [simpPow_num_rat (by rfl)]
                  exact ⟨rfl, hw⟩
          | rat p q =>
              match e, hen, h0, h1 with
              | .int k, _, h0, h1 =>
                  have hk0 : k ≠ 0 := fun hc => h0 (by rw [hc])
                  have hk1 : k ≠ 1 := fun hc => h1 (by rw [hc])
                  rw [simpPow_rat_int hk0 hk1]
                  by_cases hmk : Rat.divInt p q = 0 ∧ k < 0
                  · rw [if_pos hmk]
                    exact ⟨rfl, hw⟩
                  · rw [if_neg hmk]
                    refine ⟨?_, wf_ofQ V _⟩
                    rw [eval_ofQ, qzpow_eq]
                    show _ = qpowE (Rat.divInt p q) (((k : Int)) : ℚ)
                    rw [qpowE_intCast]
              | .rat a c, _, _, _ =>
                  rw [simpPow_num_rat (by rfl)]
                  exact ⟨rfl, hw⟩
          | pow b₂ e₂ =>
              by_cases hgb : e₂.isNum = true ∧ ¬(b₂.isMul = true)
              · rw [simpPow_pow_rule e h0 h1 hen hgb]
                rcases wf_pow_iff.mp hwb with ⟨hwb₂, hwe₂, hden₂, hsign₂⟩
                have he₂v : e₂.toQ = eval V e₂ := eval_toQ hgb.1
                have hev : e.toQ = eval V e := eval_toQ hen
                have hd₂ : e₂.toQ.den = 1 := by rw [he₂v]; exact hden₂
                have hdE : e.toQ.den = 1 := by rw [hev]; exact hden
                have hm := qmul_den_one hd₂ hdE
                have hwf2 : wfE V (.pow b₂ (ofQ (qmul e₂.toQ e.toQ))) =
                    true := by
                  rw [wf_pow_iff]
                  refine ⟨hwb₂, wf_ofQ V _, by rw [eval_ofQ]; exact hm.1, ?_⟩
                  by_cases hb₂0 : eval V b₂ = 0
                  · right
                    rw [eval_ofQ, hm.2]
                    have h2 : 0 ≤ e₂.toQ.num := by
                      rcases hsign₂ with hne | hge
                      · exact absurd hb₂0 hne
                      · rw [he₂v]
                        exact hge
                    by_cases hz : e₂.toQ.num = 0
                    · rw [hz, zero_mul]
                    · have hpow0 : eval V (.pow b₂ e₂) = 0 := by
                        show qpowE (eval V b₂) (eval V e₂) = 0
                        rw [hb₂0, qpowE_int_exp hden₂,
                          zero_zpow _ (by rw [show (eval V e₂).num =
                            e₂.toQ.num from by rw [he₂v]]; exact hz)]
                      have h3 : 0 ≤ (eval V e).num := by
                        rcases hsign with hne | hge
                        · exact absurd hpow0 hne
                        · exact hge
                      exact mul_nonneg h2 (by
                        rw [show e.toQ.num = (eval V e).num from by rw [hev]]
                        exact h3)
                  · exact Or.inl hb₂0
                have hrec := IH (sizeOf b₂) (by
                  have : sizeOf b₂ < sizeOf (Expr.pow b₂ e₂) := by
                    simp
                    omega
                  omega) b₂ (ofQ (qmul e₂.toQ e.toQ)) le_rfl hwf2
                refine ⟨?_, hrec.2⟩
                rw [hrec.1]
                show qpowE (eval V b₂) (eval V (ofQ (qmul e₂.toQ e.toQ))) =
                  qpowE (eval V (.pow b₂ e₂)) (eval V e)
                rw [eval_ofQ]
                show _ = qpowE (qpowE (eval V b₂) (eval V e₂)) (eval V e)
                rw [← he₂v, ← hev]
                exact qpowE_qmul hd₂ hdE
              · rw [simpPow_pow_stuck e h0 h1 hen hgb]
                exact ⟨rfl, hw⟩
          | sym s =>
              rw [simpPow_base_nonpow_stuck e h0 h1 hen (by trivial)]
              exact ⟨rfl, hw⟩
          | add ts =>
              rw [simpPow_base_nonpow_stuck e h0 h1 hen (by trivial)]
              exact ⟨rfl, hw⟩
          | mul fs =>
              rw [simpPow_base_nonpow_stuck e h0 h1 hen (by trivial)]
              exact ⟨rfl, hw⟩
          | func f u =>
              rw [simpPow_base_nonpow_stuck e h0 h1 hen (by trivial)]
              exact ⟨rfl, hw⟩
        · rw [simpPow_nonnum_exp b (by simpa using hen)]
          exact ⟨rfl, hw⟩
  exact fun b e hw => H (sizeOf b) b e le_rfl hw

theorem list_sum_mul_left (q : ℚ) : ∀ l : List ℚ,
    (l.map fun x => q * x).sum = q * l.sum
  | [] => by simp
  | x :: rest => by
      rw [List.map_cons, List.sum_cons, List.sum_cons, list_sum_mul_left q rest]
      ring

theorem wf_mulOf {V : QAssign} : ∀ {fs : List Expr},
    (∀ f ∈ fs, wfE V f = true) → wfE V (mulOf fs) = true
  | [], _ => rfl
  | [f], h => h f (by simp)
  | a :: b :: r, h => by
      rw [show mulOf (a :: b :: r) = .mul (a :: b :: r) from rfl, wf_mul_iff]
      exact h

theorem wf_termSplit_core {V : QAssign} : ∀ {t : Expr}, wfE V t = true →
    wfE V (termSplit t).1 = true := by
  intro t h
  match t with
  | .int n => rfl
  | .rat n d => rfl
  | .sym s => exact h
  | .add ts => exact h
  | .pow b e => exact h
  | .func f u => exact h
  | .mul [] => exact h
  | .mul (c :: fs) =>
      show wfE V (if c.isNum then ((mulOf fs : Expr), c.toQ)
        else (.mul (c :: fs), (1 : ℚ))).1 = true
      by_cases hn : c.isNum = true
      · rw [if_pos hn]
        exact wf_mulOf fun f hf => (wf_mul_iff.mp h) f (by simp [hf])
      · rw [if_neg hn]
        exact h

theorem wf_rebuildTerm {V : QAssign} (q : ℚ) {c : Expr}
    (h : wfE V c = true) : wfE V (rebuildTerm q c) = true := by
  unfold rebuildTerm
  split_ifs
  · rfl
  · exact wf_ofQ V q
  · exact h
  · cases c with
    | mul fs =>
        rw [wf_mul_iff]
        intro f hf
        rcases List.mem_cons.mp hf with rfl | hf
        · exact wf_ofQ V q
        · exact wf_mul_iff.mp h f hf
    | sym s =>
        rw [wf_mul_iff]
        intro f hf
        rcases List.mem_cons.mp hf with rfl | hf
        · exact wf_ofQ V q
        · rcases List.mem_cons.mp hf with rfl | hf
          · exact h
          · cases hf
    | int n =>
        rw [wf_mul_iff]
        intro f hf
        rcases List.mem_cons.mp hf with rfl | hf
        · exact wf_ofQ V q
        · rcases List.mem_cons.mp hf with rfl | hf
          · exact h
          · cases hf
    | rat n d =>
        rw [wf_mul_iff]
        intro f hf
        rcases List.mem_cons.mp hf with rfl | hf
        · exact wf_ofQ V q
        · rcases List.mem_cons.mp hf with rfl | hf
          · exact h
          · cases hf
    | add ts =>
        rw [wf_mul_iff]
        intro f hf
        rcases List.mem_cons.mp hf with rfl | hf
        · exact wf_ofQ V q
        · rcases List.mem_cons.mp hf with rfl | hf
          · exact h
          · cases hf
    | pow b e =>
        rw [wf_mul_iff]
        intro f hf
        rcases List.mem_cons.mp hf with rfl | hf
        · exact wf_ofQ V q
        · rcases List.mem_cons.mp hf with rfl | hf
          · exact h
          · cases hf
    | func f u =>
        rw [wf_mul_iff]
        intro g hg
        rcases List.mem_cons.mp hg with rfl | hg
        · exact wf_ofQ V q
        · rcases List.mem_cons.mp hg with rfl | hg
          · exact h
          · cases hg

theorem wf_assembleAdd {V : QAssign} : ∀ {l : List Expr},
    (∀ t ∈ l, wfE V t = true) → wfE V (assembleAdd l) = true
  | [], _ => rfl
  | [t], h => h t (by simp)
  | a :: b :: r, h => by
      rw [show assembleAdd (a :: b :: r) = .add (a :: b :: r) from rfl,
        wf_add_iff]
      exact h

/-- The `Add` pipeline stays on the domain of validity. -/
theorem wf_simplifyAdd {V : QAssign} {xs : List Expr}
    (h : ∀ t ∈ flattenAdd xs, wfE V t = true) :
    wfE V (simplifyAdd xs) = true := by
  rw [simplifyAdd_eq]
  apply wf_assembleAdd
  intro t ht
  have ht2 : t ∈ addTerms ((flattenAdd xs).map termSplit) :=
    (List.Perm.mem_iff (List.perm_insertionSort _ _)).mp ht
  unfold addTerms at ht2
  obtain ⟨p, hp, hpt⟩ := List.mem_map.mp ht2
  have hp2 : p ∈ collect ((flattenAdd xs).map termSplit) :=
    List.mem_of_mem_filter hp
  have hk : p.1 ∈ keys (collect ((flattenAdd xs).map termSplit)) :=
    List.mem_map.mpr ⟨p, hp2, rfl⟩
  rw [collect_mem_keys] at hk
  obtain ⟨r, hr, hrk⟩ := List.mem_map.mp hk
  obtain ⟨u, hu, hur⟩ := List.mem_map.mp hr
  subst hpt
  apply wf_rebuildTerm
  rw [← hrk, ← hur]
  exact wf_termSplit_core (h u hu)

theorem eval_split_num (V : QAssign) : ∀ l : List Expr,
    ((l.filter fun f => f.isNum).map (eval V)).prod *
      ((l.filter fun f => ¬f.isNum).map (eval V)).prod =
      (l.map (eval V)).prod
  | [] => by simp
  | f :: rest => by
      rw [List.filter_cons, List.filter_cons]
      by_cases h : f.isNum = true
      · rw [if_pos (by simpa using h), if_neg (by simpa using h)]
        simp only [List.map_cons, List.prod_cons]
        rw [← eval_split_num V rest]
        ring
      · rw [if_neg (by simpa using h), if_pos (by simpa using h)]
        simp only [List.map_cons, List.prod_cons]
        rw [← eval_split_num V rest]
        ring

theorem eval_factorSplit (V : QAssign) {f : Expr} (hw : wfE V f = true) :
    qpowE (eval V (factorSplit f).1) (factorSplit f).2 = eval V f ∧
    (factorSplit f).2.den = 1 ∧
    (eval V (factorSplit f).1 = 0 → 0 ≤ (factorSplit f).2.num) ∧
    wfE V (factorSplit f).1 = true := by
  have hone : ∀ g : Expr, wfE V g = true →
      qpowE (eval V g) 1 = eval V g ∧ ((1 : ℚ)).den = 1 ∧
      (eval V g = 0 → 0 ≤ ((1 : ℚ)).num) ∧ wfE V g = true :=
    fun g hg => ⟨qpowE_one _, by decide, fun _ => by decide, hg⟩
  match f with
  | .sym s => exact hone _ hw
  | .int n => exact hone _ hw
  | .rat n d => exact hone _ hw
  | .add ts => exact hone _ hw
  | .mul fs => exact hone _ hw
  | .func g u => exact hone _ hw
  | .pow b e =>
      rcases wf_pow_iff.mp hw with ⟨hwb, hwe, hden, hsign⟩
      by_cases hc : (e.isNum = true ∧ ¬(b.isMul = true))
      · rw [show factorSplit (.pow b e) = (b, e.toQ) from by
          rw [factorSplit_pow, if_pos hc]]
        have hev : e.toQ = eval V e := eval_toQ hc.1
        refine ⟨?_, by rw [hev]; exact hden, ?_, hwb⟩
        · show qpowE (eval V b) e.toQ = eval V (.pow b e)
          rw [hev]
          rfl
        · intro hb0
          rw [hev]
          rcases hsign with hne | hge
          · exact absurd hb0 hne
          · exact hge
      · rw [show factorSplit (.pow b e) = (.pow b e, 1) from by
          rw [factorSplit_pow, if_neg hc]]
        exact hone _ hw
theorem addPair_wprod (V : QAssign) :
    ∀ (l : List (Expr × ℚ)) (p : Expr × ℚ),
    (∀ r ∈ l, r.2.den = 1 ∧ (eval V r.1 = 0 → 0 ≤ r.2.num)) →
    (p.2.den = 1 ∧ (eval V p.1 = 0 → 0 ≤ p.2.num)) →
    (((addPair l p).map fun r => qpowE (eval V r.1) r.2).prod =
      ((l.map fun r => qpowE (eval V r.1) r.2).prod) *
        qpowE (eval V p.1) p.2) ∧
    (∀ r ∈ addPair l p, r.2.den = 1 ∧ (eval V r.1 = 0 → 0 ≤ r.2.num))
  | [], p, _, hp => by
      constructor
      · show ([p].map fun r => qpowE (eval V r.1) r.2).prod = _
        simp
      · intro r hr
        have : r = p := by simpa [addPair] using hr
        subst this
        exact hp
  | q :: rest, p, hl, hp => by
      rw [show addPair (q :: rest) p = if q.1 = p.1 then
        (q.1, qadd q.2 p.2) :: rest else q :: addPair rest p from rfl]
      have hq := hl q (by simp)
      by_cases h : q.1 = p.1
      · rw [if_pos h]
        have hden := qadd_den_one hq.1 hp.1
        constructor
        · simp only [List.map_cons, List.prod_cons]
          rw [h, qpowE_add hq.1 hp.1 (by
            by_cases hb : eval V p.1 = 0
            · exact Or.inr ⟨hq.2 (by rw [h]; exact hb), hp.2 hb⟩
            · exact Or.inl hb)]
          ring
        · intro r hr
          rcases List.mem_cons.mp hr with rfl | hr
          · refine ⟨hden.1, fun hz => ?_⟩
            rw [hden.2]
            have h1 := hq.2 hz
            have h2 := hp.2 (by rw [← h]; exact hz)
            omega
          · exact hl r (by simp [hr])
      · rw [if_neg h]
        have hrec := addPair_wprod V rest p
          (fun r hr => hl r (by simp [hr])) hp
        constructor
        · simp only [List.map_cons, List.prod_cons]
          rw [hrec.1]
          ring
        · intro r hr
          rcases List.mem_cons.mp hr with rfl | hr
          · exact hl r (by simp)
          · exact hrec.2 r hr

theorem collect_wprod (V : QAssign) (ps : List (Expr × ℚ))
    (hc : ∀ r ∈ ps, r.2.den = 1 ∧ (eval V r.1 = 0 → 0 ≤ r.2.num)) :
    (((collect ps).map fun r => qpowE (eval V r.1) r.2).prod =
      (ps.map fun r => qpowE (eval V r.1) r.2).prod) ∧
    (∀ r ∈ collect ps, r.2.den = 1 ∧ (eval V r.1 = 0 → 0 ≤ r.2.num)) := by
  have H : ∀ (l acc : List (Expr × ℚ)),
      (∀ r ∈ l, r.2.den = 1 ∧ (eval V r.1 = 0 → 0 ≤ r.2.num)) →
      (∀ r ∈ acc, r.2.den = 1 ∧ (eval V r.1 = 0 → 0 ≤ r.2.num)) →
      (((l.foldl addPair acc).map fun r => qpowE (eval V r.1) r.2).prod =
        ((acc.map fun r => qpowE (eval V r.1) r.2).prod) *
          (l.map fun r => qpowE (eval V r.1) r.2).prod) ∧
      (∀ r ∈ l.foldl addPair acc, r.2.den = 1 ∧
        (eval V r.1 = 0 → 0 ≤ r.2.num)) := by
    intro l
    induction l with
    | nil =>
        intro acc _ hacc
        exact ⟨by simp, hacc⟩
    | cons p rest ih =>
        intro acc hl hacc
        rw [List.foldl_cons]
        have hstep := addPair_wprod V acc p hacc (hl p (by simp))
        have hrec := ih (addPair acc p)
          (fun r hr => hl r (by simp [hr])) hstep.2
        refine ⟨?_, hrec.2⟩
        rw [hrec.1, hstep.1]
        simp only [List.map_cons, List.prod_cons]
        ring
  have h2 := H ps [] hc (by intro r hr; cases hr)
  constructor
  · rw [show collect ps = ps.foldl addPair [] from rfl, h2.1]
    simp
  · rw [show collect ps = ps.foldl addPair [] from rfl]
    exact h2.2

theorem eval_distAdd (V : QAssign) (q : ℚ) (ts : List Expr) :
    eval V (distAdd q ts) = q * (ts.map (eval V)).sum := by
  unfold distAdd
  rw [eval_add_node]
  have hperm : ((List.insertionSort Expr.le (ts.map fun t =>
      rebuildTerm (qmul q (termSplit t).2) (termSplit t).1)).map
        (eval V)).Perm
      ((ts.map fun t => rebuildTerm (qmul q (termSplit t).2)
        (termSplit t).1).map (eval V)) :=
    (List.perm_insertionSort _ _).map _
  rw [hperm.sum_eq, List.map_map]
  rw [show ((eval V) ∘ fun t => rebuildTerm (qmul q (termSplit t).2)
      (termSplit t).1) = fun t => q * eval V t from funext fun t => by
    show eval V (rebuildTerm (qmul q (termSplit t).2) (termSplit t).1) = _
    rw [eval_rebuildTerm, qmul_eq, mul_assoc, eval_termSplit]]
  rw [show (ts.map fun t => q * eval V t) =
    (ts.map (eval V)).map fun x => q * x from by rw [List.map_map]; rfl]
  exact list_sum_mul_left q _

theorem wf_distAdd {V : QAssign} (q : ℚ) {ts : List Expr}
    (h : ∀ t ∈ ts, wfE V t = true) : wfE V (distAdd q ts) = true := by
  unfold distAdd
  rw [wf_add_iff]
  intro t ht
  have ht2 := (List.Perm.mem_iff (List.perm_insertionSort _ _)).mp ht
  obtain ⟨u, hu, hut⟩ := List.mem_map.mp ht2
  subst hut
  exact wf_rebuildTerm _ (wf_termSplit_core (h u hu))

theorem eval_assembleMul (V : QAssign) (q : ℚ) (l : List Expr) :
    eval V (assembleMul q l) = q * (l.map (eval V)).prod := by
  unfold assembleMul
  split_ifs with h1
  · subst h1
    match l with
    | [] =>
        show eval V (.int 1) = _
        show ((1 : Int) : ℚ) = _
        simp
    | [f] =>
        show eval V f = _
        simp
    | a :: b :: r =>
        rw [eval_mul_node, one_mul]
  · match l with
    | [] =>
        rw [eval_ofQ]
        simp
    | [.add ts] =>
        rw [eval_distAdd, List.map_cons, List.map_nil, List.prod_cons,
          List.prod_nil, eval_add_node, mul_one]
    | [.sym s] =>
        rw [eval_mul_pair, eval_ofQ]
        simp
    | [.int n] =>
        rw [eval_mul_pair, eval_ofQ]
        simp
    | [.rat n d] =>
        rw [eval_mul_pair, eval_ofQ]
        simp
    | [.mul fs] =>
        rw [eval_mul_pair, eval_ofQ]
        simp
    | [.pow b e] =>
        rw [eval_mul_pair, eval_ofQ]
        simp
    | [.func f u] =>
        rw [eval_mul_pair, eval_ofQ]
        simp
    | a :: b :: r =>
        have hg : eval V (Expr.mul (ofQ q :: a :: b :: r)) =
            q * ((a :: b :: r).map (eval V)).prod := by
          rw [eval_mul_node, List.map_cons, List.prod_cons, eval_ofQ]
        cases a <;> exact hg

theorem wf_assembleMul {V : QAssign} (q : ℚ) {l : List Expr}
    (h : ∀ f ∈ l, wfE V f = true) : wfE V (assembleMul q l) = true := by
  unfold assembleMul
  split_ifs with h1
  · match l with
    | [] => rfl
    | [f] => exact h f (by simp)
    | a :: b :: r =>
        rw [wf_mul_iff]
        exact h
  · match l with
    | [] => exact wf_ofQ V q
    | [.add ts] =>
        exact wf_distAdd q fun t ht =>
          wf_add_iff.mp (h (.add ts) (by simp)) t ht
    | [.sym s] =>
        rw [wf_mul_iff]
        intro f hf
        rcases List.mem_cons.mp hf with rfl | hf
        · exact wf_ofQ V q
        · exact h f (by simpa using hf)
    | [.int n] =>
        rw [wf_mul_iff]
        intro f hf
        rcases List.mem_cons.mp hf with rfl | hf
        · exact wf_ofQ V q
        · exact h f (by simpa using hf)
    | [.rat n d] =>
        rw [wf_mul_iff]
        intro f hf
        rcases List.mem_cons.mp hf with rfl | hf
        · exact wf_ofQ V q
        · exact h f (by simpa using hf)
    | [.mul fs] =>
        rw [wf_mul_iff]
        intro f hf
        rcases List.mem_cons.mp hf with rfl | hf
        · exact wf_ofQ V q
        · exact h f (by simpa using hf)
    | [.pow b e] =>
        rw [wf_mul_iff]
        intro f hf
        rcases List.mem_cons.mp hf with rfl | hf
        · exact wf_ofQ V q
        · exact h f (by simpa using hf)
    | [.func f u] =>
        rw [wf_mul_iff]
        intro g hg
        rcases List.mem_cons.mp hg with rfl | hg
        · exact wf_ofQ V q
        · exact h g (by simpa using hg)
    | a :: b :: r =>
        have hg : wfE V (Expr.mul (ofQ q :: a :: b :: r)) = true := by
          rw [wf_mul_iff]
          intro f hf
          rcases List.mem_cons.mp hf with rfl | hf
          · exact wf_ofQ V q
          · exact h f hf
        cases a <;> exact hg

theorem eval_mulParts (V : QAssign) : ∀ f : Expr,
    ((mulParts f).map (eval V)).prod = eval V f
  | .mul fs => by rw [show mulParts (.mul fs) = fs from rfl, eval_mul_node]
  | .sym s => by simp [mulParts]
  | .int n => by simp [mulParts]
  | .rat n d => by simp [mulParts]
  | .add ts => by simp [mulParts]
  | .pow b e => by simp [mulParts]
  | .func f a => by simp [mulParts]

theorem eval_flattenMul (V : QAssign) (xs : List Expr) :
    ((flattenMul xs).map (eval V)).prod = (xs.map (eval V)).prod := by
  induction xs with
  | nil => rfl
  | cons t rest ih =>
      rw [flattenMul_eq_flatMap, List.flatMap_cons, List.map_append,
        List.prod_append, ← flattenMul_eq_flatMap, ih, List.map_cons,
        List.prod_cons, eval_mulParts]

theorem eval_simplifyMul (V : QAssign) {xs : List Expr}
    (h : ∀ f ∈ flattenMul xs, wfE V f = true) :
    eval V (simplifyMul xs) = (xs.map (eval V)).prod ∧
    wfE V (simplifyMul xs) = true := by
  rw [simplifyMul_eq]
  set fs := flattenMul xs with hfs
  set q0 := mulCoeff (fs.filter fun f => f.isNum) 1 with hq0
  set os := fs.filter (fun f => ¬f.isNum) with hos
  set ps := os.map factorSplit with hps
  set rs := (collect ps).map (fun p => simpPow p.1 (ofQ p.2)) with hrs
  set q1 := mulCoeff (rs.filter fun f => f.isNum) q0 with hq1
  set ns := rs.filter (fun f => ¬f.isNum) with hns
  have hnum0 : ((fs.filter fun f => f.isNum).map (eval V)).prod = q0 := by
    rw [hq0, mulCoeff_eq, one_mul]
    exact congrArg List.prod (List.map_congr_left fun f hf =>
      (eval_toQ (V := V) (List.of_mem_filter hf)).symm)
  have hoswf : ∀ f ∈ os, wfE V f = true := fun f hf =>
    h f (List.mem_of_mem_filter hf)
  have hcond : ∀ r ∈ ps, r.2.den = 1 ∧ (eval V r.1 = 0 → 0 ≤ r.2.num) := by
    intro r hr
    obtain ⟨f, hf, rfl⟩ := List.mem_map.mp hr
    have hsp := eval_factorSplit V (hoswf f hf)
    exact ⟨hsp.2.1, hsp.2.2.1⟩
  have hosval : (ps.map fun r => qpowE (eval V r.1) r.2).prod =
      (os.map (eval V)).prod := by
    rw [hps, List.map_map]
    exact congrArg List.prod (List.map_congr_left fun f hf =>
      (eval_factorSplit V (hoswf f hf)).1)
  have hcol := collect_wprod V ps hcond
  have hkwf : ∀ p ∈ collect ps, wfE V p.1 = true := by
    intro p hp
    have hk : p.1 ∈ keys ps :=
      collect_mem_keys.mp (List.mem_map.mpr ⟨p, hp, rfl⟩)
    obtain ⟨r, hr, hr1⟩ := List.mem_map.mp hk
    obtain ⟨f, hf, rfl⟩ := List.mem_map.mp hr
    rw [← hr1]
    exact (eval_factorSplit V (hoswf f hf)).2.2.2
  have hpow : ∀ p ∈ collect ps, wfE V (.pow p.1 (ofQ p.2)) = true := by
    intro p hp
    rw [wf_pow_iff]
    refine ⟨hkwf p hp, wf_ofQ V p.2, ?_, ?_⟩
    · rw [eval_ofQ]
      exact (hcol.2 p hp).1
    · rw [eval_ofQ]
      by_cases hb : eval V p.1 = 0
      · exact Or.inr ((hcol.2 p hp).2 hb)
      · exact Or.inl hb
  have hrsval : (rs.map (eval V)).prod =
      ((collect ps).map fun r => qpowE (eval V r.1) r.2).prod := by
    rw [hrs, List.map_map]
    refine congrArg List.prod (List.map_congr_left fun p hp => ?_)
    show eval V (simpPow p.1 (ofQ p.2)) = _
    rw [(eval_simpPow V p.1 (ofQ p.2) (hpow p hp)).1]
    show qpowE (eval V p.1) (eval V (ofQ p.2)) = _
    rw [eval_ofQ]
  have hrswf : ∀ r ∈ rs, wfE V r = true := by
    intro r hr
    obtain ⟨p, hp, rfl⟩ := List.mem_map.mp hr
    exact (eval_simpPow V p.1 (ofQ p.2) (hpow p hp)).2
  have hnum1 : q1 = q0 * ((rs.filter fun f => f.isNum).map (eval V)).prod := by
    rw [hq1, mulCoeff_eq]
    exact congrArg (fun x => q0 * x) (congrArg List.prod
      (List.map_congr_left fun f hf => eval_toQ (V := V)
        (List.of_mem_filter hf)))
  have hval : (xs.map (eval V)).prod = q1 * (ns.map (eval V)).prod := by
    rw [← eval_flattenMul V xs, ← hfs, ← eval_split_num V fs, hnum0, ← hos,
      ← hosval, ← hcol.1, ← hrsval, ← eval_split_num V rs, ← hns, hnum1]
    ring
  by_cases hz0 : q0 = 0
  · rw [if_pos hz0]
    refine ⟨?_, rfl⟩
    have hzero : (xs.map (eval V)).prod = q0 * ((os.map (eval V)).prod) := by
      rw [← eval_flattenMul V xs, ← hfs, ← eval_split_num V fs, hnum0, ← hos]
    rw [hzero, hz0, zero_mul]
    show ((0 : Int) : ℚ) = 0
    simp
  · rw [if_neg hz0]
    by_cases hz1 : q1 = 0
    · rw [if_pos hz1]
      refine ⟨?_, rfl⟩
      rw [hval, hz1, zero_mul]
      show ((0 : Int) : ℚ) = 0
      simp
    · rw [if_neg hz1]
      have hsorted : ∀ f ∈ List.insertionSort Expr.le ns, wfE V f = true := by
        intro f hf
        exact hrswf f (List.mem_of_mem_filter
          ((List.Perm.mem_iff (List.perm_insertionSort _ _)).mp hf))
      refine ⟨?_, wf_assembleMul q1 hsorted⟩
      rw [eval_assembleMul, hval]
      exact congrArg (fun x => q1 * x)
        (((List.perm_insertionSort Expr.le ns).map (eval V)).prod_eq)

theorem wf_addParts {V : QAssign} : ∀ {t : Expr}, wfE V t = true →
    ∀ u ∈ addParts t, wfE V u = true
  | .add ts, h => fun u hu => wf_add_iff.mp h u hu
  | .sym s, h => fun u hu => by rwa [show u = .sym s from List.mem_singleton.mp hu]
  | .int n, h => fun u hu => by rwa [show u = .int n from List.mem_singleton.mp hu]
  | .rat n d, h => fun u hu => by
      rwa [show u = .rat n d from List.mem_singleton.mp hu]
  | .mul fs, h => fun u hu => by
      rwa [show u = .mul fs from List.mem_singleton.mp hu]
  | .pow b e, h => fun u hu => by
      rwa [show u = .pow b e from List.mem_singleton.mp hu]
  | .func f x, h => fun u hu => by
      rwa [show u = .func f x from List.mem_singleton.mp hu]

theorem wf_mulParts {V : QAssign} : ∀ {t : Expr}, wfE V t = true →
    ∀ u ∈ mulParts t, wfE V u = true
  | .mul fs, h => fun u hu => wf_mul_iff.mp h u hu
  | .sym s, h => fun u hu => by rwa [show u = .sym s from List.mem_singleton.mp hu]
  | .int n, h => fun u hu => by rwa [show u = .int n from List.mem_singleton.mp hu]
  | .rat n d, h => fun u hu => by
      rwa [show u = .rat n d from List.mem_singleton.mp hu]
  | .add ts, h => fun u hu => by
      rwa [show u = .add ts from List.mem_singleton.mp hu]
  | .pow b e, h => fun u hu => by
      rwa [show u = .pow b e from List.mem_singleton.mp hu]
  | .func f x, h => fun u hu => by
      rwa [show u = .func f x from List.mem_singleton.mp hu]

theorem wf_flattenAdd {V : QAssign} {xs : List Expr}
    (h : ∀ x ∈ xs, wfE V x = true) : ∀ t ∈ flattenAdd xs, wfE V t = true := by
  intro t ht
  rw [flattenAdd_eq_flatMap] at ht
  obtain ⟨x, hx, htx⟩ := List.mem_flatMap.mp ht
  exact wf_addParts (h x hx) t htx

theorem wf_flattenMul {V : QAssign} {xs : List Expr}
    (h : ∀ x ∈ xs, wfE V x = true) : ∀ t ∈ flattenMul xs, wfE V t = true := by
  intro t ht
  rw [flattenMul_eq_flatMap] at ht
  obtain ⟨x, hx, htx⟩ := List.mem_flatMap.mp ht
  exact wf_mulParts (h x hx) t htx

theorem simplify_sound (V : QAssign) : ∀ e : Expr, wfE V e = true →
    eval V (simplify e) = eval V e ∧ wfE V (simplify e) = true := by
  have H : ∀ n, ∀ e : Expr, sizeOf e ≤ n → wfE V e = true →
      eval V (simplify e) = eval V e ∧ wfE V (simplify e) = true := by
    intro n
    induction n using Nat.strong_induction_on with
    | _ n IH =>
    intro e he hw
    cases e with
    | sym s => exact ⟨rfl, hw⟩
    | int m => exact ⟨rfl, hw⟩
    | rat m d =>
      show eval V (ofQ (Rat.divInt m d)) = _ ∧
        wfE V (ofQ (Rat.divInt m d)) = true
      exact ⟨eval_ofQ V _, wf_ofQ V _⟩
    | add ts =>
      have hsz : sizeOf (Expr.add ts) = 1 + sizeOf ts := by simp
      have hts : ∀ t ∈ ts, wfE V t = true := wf_add_iff.mp hw
      have hIH : ∀ t ∈ ts, eval V (simplify t) = eval V t ∧
          wfE V (simplify t) = true := fun t ht =>
        IH (sizeOf t) (by have := sizeOf_mem_lt ht; omega) t le_rfl (hts t ht)
      show eval V (simplifyAdd (simplifyList ts)) = _ ∧
        wfE V (simplifyAdd (simplifyList ts)) = true
      rw [simplifyList_eq_map]
      constructor
      · rw [eval_simplifyAdd, List.map_map, eval_add_node]
        refine congrArg List.sum (List.map_congr_left fun t ht => ?_)
        show eval V (simplify t) = eval V t
        exact (hIH t ht).1
      · apply wf_simplifyAdd
        apply wf_flattenAdd
        intro x hx
        obtain ⟨t, ht, rfl⟩ := List.mem_map.mp hx
        exact (hIH t ht).2
    | mul fs =>
      have hsz : sizeOf (Expr.mul fs) = 1 + sizeOf fs := by simp
      have hts : ∀ t ∈ fs, wfE V t = true := wf_mul_iff.mp hw
      have hIH : ∀ t ∈ fs, eval V (simplify t) = eval V t ∧
          wfE V (simplify t) = true := fun t ht =>
        IH (sizeOf t) (by have := sizeOf_mem_lt ht; omega) t le_rfl (hts t ht)
      show eval V (simplifyMul (simplifyList fs)) = _ ∧
        wfE V (simplifyMul (simplifyList fs)) = true
      rw [simplifyList_eq_map]
      have hflat : ∀ f ∈ flattenMul (fs.map simplify), wfE V f = true :=
        wf_flattenMul fun x hx => by
          obtain ⟨t, ht, rfl⟩ := List.mem_map.mp hx
          exact (hIH t ht).2
      have hm := eval_simplifyMul V hflat
      refine ⟨?_, hm.2⟩
      rw [hm.1, List.map_map, eval_mul_node]
      refine congrArg List.prod (List.map_congr_left fun t ht => ?_)
      show eval V (simplify t) = eval V t
      exact (hIH t ht).1
    | pow b e =>
      have hsz : sizeOf (Expr.pow b e) = 1 + sizeOf b + sizeOf e := by simp
      rcases wf_pow_iff.mp hw with ⟨hwb, hwe, hden, hsign⟩
      have hb := IH (sizeOf b) (by omega) b le_rfl hwb
      have he2 := IH (sizeOf e) (by omega) e le_rfl hwe
      have hwp : wfE V (.pow (simplify b) (simplify e)) = true := by
        rw [wf_pow_iff, hb.1, he2.1]
        exact ⟨hb.2, he2.2, hden, hsign⟩
      have hp := eval_simpPow V (simplify b) (simplify e) hwp
      constructor
      · show eval V (simpPow (simplify b) (simplify e)) = eval V (.pow b e)
        rw [hp.1]
        show qpowE (eval V (simplify b)) (eval V (simplify e)) =
          qpowE (eval V b) (eval V e)
        rw [hb.1, he2.1]
      · exact hp.2
    | func f a =>
      have hsz : sizeOf (Expr.func f a) = 1 + sizeOf f + sizeOf a := by simp
      have ha := IH (sizeOf a) (by omega) a le_rfl hw
      constructor
      · show V.funVal f (eval V (simplify a)) = V.funVal f (eval V a)
        rw [ha.1]
      · exact ha.2
  exact fun e => H (sizeOf e) e le_rfl

/-- C1: expressions built in different syntactic orders but mathematically
identical simplify to one and the same canonical tree, which compares equal
by structural equality and hashes identically: reordering the operands of a
sum or a product never changes the simplified tree or its hash, and in
particular `x+1` and `1+x` agree after simplification. -/
theorem claim_C1 :
    (∀ xs ys : List Expr, xs.Perm ys →
      simplify (.add xs) = simplify (.add ys) ∧
      hashE (simplify (.add xs)) = hashE (simplify (.add ys))) ∧
    (∀ xs ys : List Expr, xs.Perm ys →
      simplify (.mul xs) = simplify (.mul ys) ∧
      hashE (simplify (.mul xs)) = hashE (simplify (.mul ys))) ∧
    simplify (addE (symbol "x") (integer 1)) =
      simplify (addE (integer 1) (symbol "x")) ∧
    hashE (simplify (addE (symbol "x") (integer 1))) =
      hashE (simplify (addE (integer 1) (symbol "x"))) := by
  refine ⟨fun xs ys h =>
      ⟨simplify_add_perm h, congrArg hashE (simplify_add_perm h)⟩,
    fun xs ys h =>
      ⟨simplify_mul_perm h, congrArg hashE (simplify_mul_perm h)⟩, ?_, ?_⟩
  · exact simplify_add_perm (List.Perm.swap _ _ _)
  · exact congrArg hashE (simplify_add_perm (List.Perm.swap _ _ _))

theorem claim_C1_witness :
    ([Expr.int 1, Expr.sym "y"].Perm [Expr.sym "y", Expr.int 1]) ∧
    simplify (.add [Expr.int 1, Expr.sym "y"]) =
      simplify (.add [Expr.sym "y", Expr.int 1]) :=
  ⟨List.Perm.swap _ _ _, (claim_C1.1 _ _ (List.Perm.swap _ _ _)).1⟩

/-- C2: `simplify` is an idempotent fixed point — for every expression `e`,
`simplify (simplify e)` is structurally equal to `simplify e`, the output
is canonical, and the output is mathematically equal to the input over its
domain of validity: under every rational assignment `V` at which `e` is
well-formed (every exponent evaluates to an integer, and a power with a
zero base value occurs only with a nonnegative exponent), `simplify e`
evaluates to the same rational value as `e`. -/
theorem claim_C2 : ∀ e : Expr, simplify (simplify e) = simplify e ∧
    canon (simplify e) = true ∧
    ∀ V : QAssign, wfE V e = true → eval V (simplify e) = eval V e :=
  fun e => ⟨canon_fix _ (canon_simplify e), canon_simplify e,
    fun V h => (simplify_sound V e h).1⟩

theorem claim_C2_witness :
    wfE ⟨fun _ => 2, fun _ x => x⟩
        (.mul [.sym "x", .pow (.sym "x") (.int (-1))]) = true ∧
    eval ⟨fun _ => 2, fun _ x => x⟩
        (simplify (.mul [.sym "x", .pow (.sym "x") (.int (-1))])) =
      eval ⟨fun _ => 2, fun _ x => x⟩
        (.mul [.sym "x", .pow (.sym "x") (.int (-1))]) :=
  ⟨by decide,
    (claim_C2 (.mul [.sym "x", .pow (.sym "x") (.int (-1))])).2.2
      ⟨fun _ => 2, fun _ x => x⟩ (by decide)⟩

/-- C3 (amended): integration followed by differentiation is the identity
up to simplification whenever the integrator succeeds: if
`integrate v p = ok F` then `diff v F = ok (simplify p)`.  The original
claim, quantified over all polynomials `p`, fails: the integrator rejects
polynomial terms with an explicit numeric coefficient (see the
counterexample). -/
theorem claim_C3 (v : String) (p F : Expr) (h : integrate v p = .ok F) :
    diff v F = .ok (simplify p) :=
  (integrate_sound v p F h).2

theorem claim_C3_witness :
    integrate "x" (.pow (.sym "x") (.int 2)) =
      .ok (.mul [.rat 1 3, .pow (.sym "x") (.int 3)]) ∧
    diff "x" (.mul [.rat 1 3, .pow (.sym "x") (.int 3)]) =
      .ok (simplify (.pow (.sym "x") (.int 2))) :=
  ⟨rfl, claim_C3 "x" (.pow (.sym "x") (.int 2))
    (.mul [.rat 1 3, .pow (.sym "x") (.int 3)]) rfl⟩

/-- C3 counterexample: `2*x` is a polynomial in `x` (the solver model reads
it off with coefficient list `[(2, 1)]`), yet the integrator fails on it
with `NonElementaryIntegral`, so `simplify (diff (integrate p x) x)` is not
defined for every polynomial `p`. -/
theorem claim_C3_counterexample :
    polyCoeffs "x" (simplify (.mul [.int 2, .sym "x"])) =
      some [(Expr.int 2, 1)] ∧
    integrate "x" (.mul [.int 2, .sym "x"]) =
      .error .NonElementaryIntegral :=
  ⟨rfl, rfl⟩

theorem simplify_ofQ (q : ℚ) : simplify (ofQ q) = ofQ q :=
  canon_fix _ (canon_ofQ q)

theorem simpPow_ofQ_neg_one {q : ℚ} (hq : q ≠ 0) :
    simpPow (ofQ q) (.int (-1)) = ofQ q⁻¹ := by
  rcases ofQ_shape q with ⟨k, hk⟩ | ⟨a, c, hac⟩
  · have hkq : q = ((k : Int) : ℚ) := ofQ_eq_int_iff.mp hk
    rw [hk, simpPow_int_int (by decide) (by decide),
      if_neg (by rintro ⟨h1, _⟩; exact hq (by rw [hkq, h1]; norm_num)),
      qzpow_eq, zpow_neg_one, ← hkq]
  · have hv : Rat.divInt a c = q := by
      rw [show Rat.divInt a c = (Expr.rat a c).toQ from rfl, ← hac, toQ_ofQ]
    rw [hac, simpPow_rat_int (by decide) (by decide), hv,
      if_neg (by rintro ⟨h1, _⟩; exact hq h1), qzpow_eq, zpow_neg_one]

theorem termSplit_ofQ (q : ℚ) : termSplit (ofQ q) = (.int 1, q) := by
  rcases ofQ_shape q with ⟨k, hk⟩ | ⟨a, c, hac⟩
  · have hkq : q = ((k : Int) : ℚ) := ofQ_eq_int_iff.mp hk
    rw [hk]
    show ((Expr.int 1 : Expr), ((k : Int) : ℚ)) = _
    rw [← hkq]
  · have hv : Rat.divInt a c = q := by
      rw [show Rat.divInt a c = (Expr.rat a c).toQ from rfl, ← hac, toQ_ofQ]
    rw [hac]
    show ((Expr.int 1 : Expr), Rat.divInt a c) = _
    rw [hv]

/-- The value of a three-factor all-numeric product `-1 * q0 * q1⁻¹`. -/
theorem simplify_neg_div_num {q0 q1 : ℚ} (h1 : q1 ≠ 0) :
    simplify (.mul [.int (-1), ofQ q0, .pow (ofQ q1) (.int (-1))]) =
      ofQ (-(q0 / q1)) := by
  rw [simplify_mul_node]
  rw [show ([Expr.int (-1), ofQ q0, .pow (ofQ q1) (.int (-1))].map simplify) =
      [Expr.int (-1), ofQ q0, simpPow (ofQ q1) (.int (-1))] from by
    rw [List.map_cons, List.map_cons, List.map_cons, List.map_nil]
    rw [show simplify (Expr.int (-1)) = Expr.int (-1) from rfl,
      simplify_ofQ, simplify_pow_node, simplify_ofQ,
      show simplify (Expr.int (-1)) = Expr.int (-1) from rfl]]
  rw [simpPow_ofQ_neg_one h1]
  rw [simplifyMul_all_num (by
    intro f hf
    rcases List.mem_cons.mp hf with rfl | hf
    · rfl
    · rcases List.mem_cons.mp hf with rfl | hf
      · exact ofQ_isNum _
      · rcases List.mem_cons.mp hf with rfl | hf
        · exact ofQ_isNum _
        · cases hf)]
  congr 1
  rw [List.map_cons, List.map_cons, List.map_cons, List.map_nil,
    List.prod_cons, List.prod_cons, List.prod_cons, List.prod_nil,
    toQ_int, toQ_ofQ, toQ_ofQ, mul_one, div_eq_mul_inv]
  push_cast
  ring

/-- The solver on a simplified polynomial of degree one returns the single
root `-c0/c1` (as a simplified expression; the coefficients may be
arbitrary constant expressions). -/
theorem solve_deg1 {v : String} {e : Expr} {cs : List (Expr × Nat)}
    (hcs : polyCoeffs v (simplify e) = some cs) (hdeg : degOf cs = 1) :
    solve v e = .ok [simplify (.mul [.int (-1), coeffAt cs 0,
      .pow (coeffAt cs 1) (.int (-1))])] := by
  unfold solve
  rw [hcs]
  simp only [hdeg]
  norm_num

/-- The solver on a degree-two polynomial whose discriminant has the square
root `r` (rational, irrational or symbolic) returns the two
quadratic-formula roots. -/
theorem solve_deg2 {v : String} {e : Expr} {cs : List (Expr × Nat)}
    {r : Expr} (hcs : polyCoeffs v (simplify e) = some cs)
    (hdeg : degOf cs = 2)
    (hr : sqrtE (simplify (.add [.mul [coeffAt cs 1, coeffAt cs 1],
      .mul [.int (-4), coeffAt cs 2, coeffAt cs 0]])) = some r)
    (hr0 : r ≠ .int 0) :
    solve v e = .ok [
      simplify (.mul [.add [.mul [.int (-1), coeffAt cs 1], r],
        .pow (.mul [.int 2, coeffAt cs 2]) (.int (-1))]),
      simplify (.mul [.add [.mul [.int (-1), coeffAt cs 1],
          .mul [.int (-1), r]],
        .pow (.mul [.int 2, coeffAt cs 2]) (.int (-1))])] := by
  unfold solve
  rw [hcs]
  simp only [hdeg, hr]
  norm_num
  exact hr0

/-- The solver on a degree-two polynomial with vanishing discriminant
returns the single double root `-b/(2a)`. -/
theorem solve_deg2_double {v : String} {e : Expr} {cs : List (Expr × Nat)}
    (hcs : polyCoeffs v (simplify e) = some cs) (hdeg : degOf cs = 2)
    (hr : sqrtE (simplify (.add [.mul [coeffAt cs 1, coeffAt cs 1],
      .mul [.int (-4), coeffAt cs 2, coeffAt cs 0]])) = some (.int 0)) :
    solve v e = .ok [simplify (.mul [.int (-1), coeffAt cs 1,
      .pow (.mul [.int 2, coeffAt cs 2]) (.int (-1))])] := by
  unfold solve
  rw [hcs]
  simp only [hdeg, hr]
  norm_num

/-- The rational quadratic formula: its branch output, and that each
returned root genuinely annuls `a*x^2 + b*x + c`. -/
theorem quadRootsQ_sound {a b c r : ℚ} (ha : a ≠ 0) (hr0 : r ≠ 0)
    (hr : ratSqrt (qsub (qmul b b) (qmul (qmul (Rat.divInt 4 1) a) c)) =
      some r) :
    quadRootsQ a b c =
      .ok [ofQ (qdiv (qadd (qneg b) r) (qmul (Rat.divInt 2 1) a)),
        ofQ (qdiv (qsub (qneg b) r) (qmul (Rat.divInt 2 1) a))] ∧
    c + b * ((-b + r) / (2 * a)) + a * ((-b + r) / (2 * a)) ^ 2 = 0 ∧
    c + b * ((-b - r) / (2 * a)) + a * ((-b - r) / (2 * a)) ^ 2 = 0 := by
  have hsq := ratSqrt_sq hr
  have hs2 : r * r = b * b - 4 * a * c := by
    rw [hsq, qsub_eq, qmul_eq, qmul_eq, qmul_eq]
    norm_num [Rat.divInt_eq_div]
  refine ⟨?_, quad_root ha hs2 (Or.inl rfl), quad_root ha hs2 (Or.inr rfl)⟩
  unfold quadRootsQ
  rw [if_neg (not_lt.mpr (hsq ▸ mul_self_nonneg r))]
  simp only [hr]
  rw [if_neg hr0]

/-- C4: `solve (x^2 - 5x + 6) x` returns exactly the roots 3 and 2 and
`solve (x - 3) x` returns exactly 3.  In general a simplified degree-1
polynomial — its coefficients arbitrary constant expressions, e.g.
`x - y` whose root is `y` — yields the single root `-c0/c1`; a degree-2
polynomial yields the quadratic-formula roots (two in general, one on a
vanishing discriminant, exact symbolic square roots on an irrational
discriminant such as `x^2 - 2`), with the rational formula provably
annulling the polynomial; and degree ≥ 3 is solved by the
rational-root-theorem search (e.g. `x^3 - 6x^2 + 11x - 6`). -/
theorem claim_C4 :
    solve "x" (.add [.pow (.sym "x") (.int 2), .mul [.int (-5), .sym "x"],
      .int 6]) = .ok [integer 3, integer 2] ∧
    solve "x" (subE (symbol "x") (integer 3)) = .ok [integer 3] ∧
    solve "x" (subE (symbol "x") (symbol "y")) = .ok [symbol "y"] ∧
    solve "x" (subE (powE (symbol "x") (integer 2)) (integer 2)) =
      .ok [.mul [.rat 1 2, .pow (.int 8) (.rat 1 2)],
        .mul [.rat (-1) 2, .pow (.int 8) (.rat 1 2)]] ∧
    solve "x" (.add [.pow (.sym "x") (.int 2), .mul [.int (-2), .sym "x"],
      .int 1]) = .ok [integer 1] ∧
    solve "x" (.add [.pow (.sym "x") (.int 3),
      .mul [.int (-6), .pow (.sym "x") (.int 2)], .mul [.int 11, .sym "x"],
      .int (-6)]) = .ok [integer 1, integer 3, integer 2] ∧
    (∀ v e cs, polyCoeffs v (simplify e) = some cs → degOf cs = 1 →
      solve v e = .ok [simplify (.mul [.int (-1), coeffAt cs 0,
        .pow (coeffAt cs 1) (.int (-1))])]) ∧
    (∀ v e cs q0 q1, polyCoeffs v (simplify e) = some cs → degOf cs = 1 →
      coeffAt cs 0 = ofQ q0 → coeffAt cs 1 = ofQ q1 → q1 ≠ 0 →
      solve v e = .ok [ofQ (-(q0 / q1))] ∧ q0 + q1 * (-(q0 / q1)) = 0) ∧
    (∀ v e cs r, polyCoeffs v (simplify e) = some cs → degOf cs = 2 →
      sqrtE (simplify (.add [.mul [coeffAt cs 1, coeffAt cs 1],
        .mul [.int (-4), coeffAt cs 2, coeffAt cs 0]])) = some r →
      (r ≠ .int 0 →
        solve v e = .ok [
          simplify (.mul [.add [.mul [.int (-1), coeffAt cs 1], r],
            .pow (.mul [.int 2, coeffAt cs 2]) (.int (-1))]),
          simplify (.mul [.add [.mul [.int (-1), coeffAt cs 1],
              .mul [.int (-1), r]],
            .pow (.mul [.int 2, coeffAt cs 2]) (.int (-1))])]) ∧
      (r = .int 0 →
        solve v e = .ok [simplify (.mul [.int (-1), coeffAt cs 1,
          .pow (.mul [.int 2, coeffAt cs 2]) (.int (-1))])])) ∧
    (∀ a b c r : ℚ, a ≠ 0 → r ≠ 0 →
      ratSqrt (qsub (qmul b b) (qmul (qmul (Rat.divInt 4 1) a) c)) =
        some r →
      quadRootsQ a b c =
        .ok [ofQ (qdiv (qadd (qneg b) r) (qmul (Rat.divInt 2 1) a)),
          ofQ (qdiv (qsub (qneg b) r) (qmul (Rat.divInt 2 1) a))] ∧
      c + b * ((-b + r) / (2 * a)) + a * ((-b + r) / (2 * a)) ^ 2 = 0 ∧
      c + b * ((-b - r) / (2 * a)) + a * ((-b - r) / (2 * a)) ^ 2 = 0) := by
  refine ⟨by decide, by decide, by decide, by decide, by decide, by decide,
    fun v e cs hcs hdeg => solve_deg1 hcs hdeg, ?_, ?_, ?_⟩
  · intro v e cs q0 q1 hcs hdeg hc0 hc1 hq1
    have h := solve_deg1 hcs hdeg
    rw [hc0, hc1, simplify_neg_div_num hq1] at h
    exact ⟨h, linear_root hq1⟩
  · intro v e cs r hcs hdeg hr
    exact ⟨fun hr0 => solve_deg2 hcs hdeg hr hr0,
      fun hr0 => solve_deg2_double hcs hdeg (hr0 ▸ hr)⟩
  · intro a b c r ha hr0 hr
    exact quadRootsQ_sound ha hr0 hr

theorem claim_C4_witness :
    (polyCoeffs "x" (simplify (subE (mulE (integer 2) (symbol "x"))
        (integer 4))) = some [(Expr.int (-4), 0), (Expr.int 2, 1)] ∧
      degOf [(Expr.int (-4), 0), (Expr.int 2, 1)] = 1 ∧
      coeffAt [(Expr.int (-4), 0), (Expr.int 2, 1)] 0 = ofQ (-4) ∧
      coeffAt [(Expr.int (-4), 0), (Expr.int 2, 1)] 1 = ofQ 2 ∧
      ((2 : ℚ) ≠ 0) ∧
      solve "x" (subE (mulE (integer 2) (symbol "x")) (integer 4)) =
        .ok [ofQ (-((-4) / 2))]) ∧
    ((1 : ℚ) ≠ 0 ∧ ((1 : ℚ)) ≠ 0 ∧
      ratSqrt (qsub (qmul ((-5 : ℚ)) ((-5 : ℚ)))
        (qmul (qmul (Rat.divInt 4 1) 1) 6)) = some 1 ∧
      quadRootsQ 1 (-5) 6 =
        .ok [ofQ (qdiv (qadd (qneg (-5)) 1) (qmul (Rat.divInt 2 1) 1)),
          ofQ (qdiv (qsub (qneg (-5)) 1) (qmul (Rat.divInt 2 1) 1))]) := by
  refine ⟨⟨by decide, by decide, by decide, by decide, by decide, ?_⟩,
    ⟨by decide, by decide, by decide, ?_⟩⟩
  · exact (claim_C4.2.2.2.2.2.2.2.1 "x"
      (subE (mulE (integer 2) (symbol "x")) (integer 4))
      [(Expr.int (-4), 0), (Expr.int 2, 1)] (-4) 2
      (by decide) (by decide) (by decide) (by decide) (by decide)).1
  · exact (claim_C4.2.2.2.2.2.2.2.2.2 1 (-5) 6 1
      (by decide) (by decide) (by decide)).1

/-- C5: rational arithmetic is exact — `1/2 + 1/3` simplifies to `5/6`,
`1/2 * 1/3` to `1/6`, and the quotient of two integer literals is kept as
an exact reduced rational (an `Integer` node when it is integral, a
`Rational` node otherwise), never approximated. -/
theorem claim_C5 :
    simplify (addE (.rat 1 2) (.rat 1 3)) = .rat 5 6 ∧
    simplify (mulE (.rat 1 2) (.rat 1 3)) = .rat 1 6 ∧
    rational 1 2 = .ok (.rat 1 2) ∧
    ∀ m n : Int, n ≠ 0 →
      simplify (divE (integer m) (integer n)) = ofQ (Rat.divInt m n) :=
  ⟨rfl, rfl, rfl, fun _ _ hn => simplify_divE_int hn⟩

theorem claim_C5_witness :
    ((3 : Int) ≠ 0) ∧
    simplify (divE (integer 1) (integer 3)) = ofQ (Rat.divInt 1 3) :=
  ⟨by decide, claim_C5.2.2.2 1 3 (by decide)⟩

/-- C6: differentiation applies the fixed derivative table with the chain
rule — `diff sin x = cos x`, `diff exp x = exp x`, `diff ln x = 1/x` — and
every successful result of `diff` is canonical, i.e. already simplified
when returned. -/
theorem claim_C6 :
    diff "x" (sinE (symbol "x")) = .ok (cosE (symbol "x")) ∧
    diff "x" (expE (symbol "x")) = .ok (expE (symbol "x")) ∧
    diff "x" (lnE (symbol "x")) =
      .ok (simplify (divE (integer 1) (symbol "x"))) ∧
    ∀ v e d, diff v e = .ok d → canon d = true ∧ simplify d = d := by
  refine ⟨rfl, rfl, rfl, ?_⟩
  intro v e d h
  obtain ⟨D, hD, hS⟩ := diff_ok_iff.mp h
  subst hS
  exact ⟨canon_simplify D, canon_fix _ (canon_simplify D)⟩

theorem claim_C6_witness :
    diff "x" (cosE (symbol "x")) =
      .ok (.mul [.int (-1), .func "sin" (.sym "x")]) ∧
    canon (.mul [.int (-1), .func "sin" (.sym "x")]) = true ∧
    simplify (.mul [.int (-1), .func "sin" (.sym "x")]) =
      .mul [.int (-1), .func "sin" (.sym "x")] := by
  refine ⟨by decide, ?_, ?_⟩
  · exact (claim_C6.2.2.2 "x" (cosE (symbol "x"))
      (.mul [.int (-1), .func "sin" (.sym "x")]) (by decide)).1
  · exact (claim_C6.2.2.2 "x" (cosE (symbol "x"))
      (.mul [.int (-1), .func "sin" (.sym "x")]) (by decide)).2

/-- C7: the integrator fails loudly — `integrate (ln (ln x)) x` fails with
`NonElementaryIntegral`, every failure of `integrate` reports
`NonElementaryIntegral`, and whenever it does succeed the returned
antiderivative is correct: it mentions the variable and differentiates
back to the simplified integrand (never an incorrect or partial answer). -/
theorem claim_C7 :
    integrate "x" (lnE (lnE (symbol "x"))) =
      .error .NonElementaryIntegral ∧
    (∀ v e er, integrate v e = .error er → er = .NonElementaryIntegral) ∧
    (∀ v e F, integrate v e = .ok F →
      occurs v F = true ∧ diff v F = .ok (simplify e)) :=
  ⟨rfl, integrate_err, integrate_sound⟩

theorem claim_C7_witness :
    integrate "x" (.func "foo" (.sym "x")) =
      .error .NonElementaryIntegral ∧
    Err.NonElementaryIntegral = Err.NonElementaryIntegral ∧
    integrate "x" (sinE (symbol "x")) =
      .ok (.mul [.int (-1), .func "cos" (.sym "x")]) ∧
    diff "x" (.mul [.int (-1), .func "cos" (.sym "x")]) =
      .ok (simplify (sinE (symbol "x"))) :=
  ⟨rfl, claim_C7.2.1 "x" (.func "foo" (.sym "x")) .NonElementaryIntegral rfl,
    rfl, (claim_C7.2.2 "x" (sinE (symbol "x"))
      (.mul [.int (-1), .func "cos" (.sym "x")]) rfl).2⟩

/-- C8: for any interpretation of the numeric domain, `evalf` returns the
post-order numeric collapse of a tree exactly when the tree contains no
free `Symbol`, and it fails with `UnboundSymbol` precisely when a free
`Symbol` is present; in particular `evalf x` on the bare symbol fails with
`UnboundSymbol`. -/
theorem claim_C8 :
    (∀ (G : Type) (M : NumModel G) (e : Expr),
      (closedE e = true → evalf M e = .ok (collapse M e)) ∧
      (evalf M e = .error .UnboundSymbol ↔ closedE e = false)) ∧
    evalf ratModel (symbol "x") = .error .UnboundSymbol := by
  constructor
  · intro G M e
    obtain ⟨h1, h2⟩ := evalf_spec M e
    refine ⟨h1, ?_, h2⟩
    intro herr
    cases hc : closedE e with
    | true =>
      rw [h1 hc] at herr
      exact Except.noConfusion herr
    | false => rfl
  · rfl

theorem claim_C8_witness :
    closedE (addE (integer 2) (.rat 1 2)) = true ∧
    evalf ratModel (addE (integer 2) (.rat 1 2)) =
      .ok (collapse ratModel (addE (integer 2) (.rat 1 2))) :=
  ⟨rfl, (claim_C8.1 ℚ ratModel (addE (integer 2) (.rat 1 2))).1 rfl⟩

/-- C9: the LaTeX renderer works by post-order traversal with the standard
precedence `Pow` > `Mul` > `Add`; a `Pow` base is parenthesized exactly
when its precedence is at most that of `Pow`, `simplify ((x+1)^2)` renders
with the base `1 + x` parenthesized, negative `Add` terms render as
subtraction rather than addition of a negative (`x - 3 y`, `x - y`, and in
general for any negative literal or negative-coefficient product term),
and a product renders its factors by juxtaposition with a single separator
(no doubled multiplication signs). -/
theorem claim_C9 :
    to_latex (simplify (powE (addE (symbol "x") (integer 1)) (integer 2)))
      = "\\left(1 + x\\right)^" ++ "\x7b2\x7d" ∧
    to_latex (simplify (subE (symbol "x") (mulE (integer 3) (symbol "y"))))
      = "x - 3 y" ∧
    to_latex (simplify (subE (symbol "x") (symbol "y"))) = "x - y" ∧
    (∀ (s : String) (n : Int), n < 0 →
      to_latex (.add [.sym s, .int n]) = s ++ " - " ++ Int.repr (-n)) ∧
    (∀ (s t : String) (n : Int), n < -1 →
      to_latex (.add [.sym s, .mul [.int n, .sym t]]) =
        s ++ " - " ++ Int.repr (-n) ++ " " ++ t) ∧
    (∀ (s t : String),
      to_latex (.add [.sym s, .mul [.int (-1), .sym t]]) =
        s ++ " - " ++ t) ∧
    (∀ (xs ys : List Expr) (b n : Expr),
      prec (.add xs) < prec (.mul ys) ∧ prec (.mul ys) < prec (.pow b n)) ∧
    (∀ b n : Expr, to_latex (.pow b n) =
      (if prec b ≤ 3 then par (to_latex b) else to_latex b) ++
        "^" ++ "\x7b" ++ to_latex n ++ "\x7d") ∧
    to_latex (mulE (integer 2) (symbol "x")) = "2 x" := by
  refine ⟨rfl, rfl, rfl, ?_, ?_, ?_, ?_, fun _ _ => rfl, rfl⟩
  · intro s n h
    show (s ++ _ : String) = _
    rw [latexRest, latexRest]
    simp [h, String.append_assoc]
  · intro s t n h
    show (s ++ _ : String) = _
    rw [latexRest, latexRest]
    simp [show n < 0 by omega, show n ≠ -1 by omega, joinSep, latexL, prec,
      to_latex, String.append_assoc]
  · intro s t
    show (s ++ _ : String) = _
    rw [latexRest, latexRest]
    simp [joinSep, latexL, prec, to_latex, String.append_assoc]
  · exact fun _ _ _ _ => ⟨show (1 : Nat) < 2 by decide,
      show (2 : Nat) < 3 by decide⟩

theorem claim_C9_witness :
    ((-4 : Int) < 0 ∧
      to_latex (.add [.sym "x", .int (-4)]) = "x" ++ " - " ++ Int.repr 4) ∧
    ((-3 : Int) < -1 ∧
      to_latex (.add [.sym "x", .mul [.int (-3), .sym "y"]]) =
        "x" ++ " - " ++ Int.repr 3 ++ " " ++ "y") :=
  ⟨⟨by decide, claim_C9.2.2.2.1 "x" (-4) (by decide)⟩,
    ⟨by decide, claim_C9.2.2.2.2.1 "x" "y" (-3) (by decide)⟩⟩

end Expr

end Symmetrica
